import Mathlib

/-!
# rogue: stream frames, the batcher decoder (CoreV1) and the mapped-memory slave

A shallow embedding of

* `src/rogue/interfaces/stream/Frame.cpp` (payload accounting of a frame, its
  iterator endpoints and the bound checks of `readPy` and `writePy`),
* `src/rogue/protocols/batcher/CoreV1.cpp` (the super-frame decoder),
* `src/rogue/hardware/rce/MapMemory.cpp` (the mapped-memory slave),
* `include/rogue/interfaces/memory/Hub.h`,
  `include/rogue/interfaces/stream/Fifo.h` and
  `include/rogue/interfaces/stream/FrameIterator.h` (declarations only; the
  behaviour of the hub, of the Fifo and of the iterator constructor is
  modelled from the specification),

followed by the properties proved about them.

Conventions. A `uint32_t` is a natural number below `U32`; every place where
the C++ arithmetic can wrap carries an explicit `% U32`.  A function that can
throw returns the state it leaves behind together with the error it raised,
because the mutations made before a `throw` stay visible to the caller.
-/

namespace rogue

/-- Number of values of a `uint32_t`. -/
def U32 : Nat := 4294967296

/-! ## Errors -/

/-- The first argument of `GeneralError::boundary`: the place that raised it. -/
inductive Source where
  | frameSetPayload
  | frameAdjustPayload
  | frameReadPy
  | frameWritePy
  | coreV1Tail
  | coreV1Record
deriving DecidableEq, Repr

/-- The value built by `GeneralError::boundary(src, position, limit)`. -/
structure GeneralError where
  src : Source
  position : Nat
  limit : Nat
deriving DecidableEq, Repr

/-! ## Stream buffers and frames -/

/-- Modelled from the spec: the `Buffer` class is not among the sources.  A
buffer is seen through its accessors only: `getSize()` is `size`,
`getPayload()` is `payload`, and `data` is the content of the byte region the
payload lives in (a position past the end of `data` reads as 0).  Following
the comments on the accessors in `Frame.cpp`, `size` is the full size of the
region minus the head and tail reservations and `payload` counts the data
behind the head reservation; `headRoom` and `tailRoom` are the two
reservations. -/
structure Buffer where
  size : Nat
  payload : Nat
  data : List Nat := []
  headRoom : Nat := 0
  tailRoom : Nat := 0
deriving DecidableEq, Repr

namespace Buffer

/-- Accessor `Buffer::getSize()`. -/
def getSize (b : Buffer) : Nat := b.size

/-- Accessor `Buffer::getPayload()`. -/
def getPayload (b : Buffer) : Nat := b.payload

/-- Mutator `Buffer::setPayload(k)`: afterwards `getPayload()` is `k`. -/
def setPayload (b : Buffer) (k : Nat) : Buffer := { b with payload := k }

/-- Mutator `Buffer::setPayloadFull()`: afterwards `getPayload()` is `getSize()`. -/
def setPayloadFull (b : Buffer) : Buffer := { b with payload := b.size }

/-- Mutator `Buffer::setPayloadEmpty()`: afterwards `getPayload()` is 0. -/
def setPayloadEmpty (b : Buffer) : Buffer := { b with payload := 0 }

/-- The full size of the region: what `getSize()` returns plus the two
reservations. -/
def rawSize (b : Buffer) : Nat := b.size + b.headRoom + b.tailRoom

/-- Accessor `Buffer::getAvailable()`, after the comment in `Frame.cpp`: "the
space remaining for payload minus the space reserved for the tail".  The
space remaining is the full size minus the head reservation and the data. -/
def getAvailable (b : Buffer) : Nat :=
  (b.rawSize - (b.headRoom + b.payload)) - b.tailRoom

/-- The `payload` filled bytes of the buffer, in order. -/
def bytes (b : Buffer) : List Nat :=
  (List.range b.payload).map (fun i => b.data.getD i 0)

end Buffer

/-- The class `ris::Frame` with its buffers held by value: the buffer vector
as the reading loops see it, and the two 32-bit fields.  The writing loops on
this structure are those of the source for a frame whose `BufferPtr` are
pairwise distinct; `PtrFrame` below keeps the pointers. -/
structure Frame where
  buffers_ : List Buffer
  flags_ : Nat := 0
  error_ : Nat := 0
deriving DecidableEq, Repr

/-- Modelled from the spec: the class `ris::FrameIterator` is declared in
`FrameIterator.h`, the code of its constructor is not among the sources.
`FrameIterator(frame, offset, end)` is taken to store its three arguments in
the members `frame_`, `framePos_` (the logical position) and `end_` (the end
flag).  The members `curr_` and `buffPos_`, the place of `framePos_` in the
buffer vector, are left out. -/
structure FrameIterator where
  frame_ : Frame
  framePos_ : Nat
  end_ : Bool
deriving DecidableEq, Repr

/-- What `Frame::readPy` and `Frame::writePy` throw: the plain
`GeneralError(src, "Python Buffer Error In Frame")` or a boundary error. -/
inductive PyError where
  | buffer (src : Source)
  | boundary (e : GeneralError)
deriving DecidableEq, Repr

namespace Frame

/-- The loop of `Frame::getSize`: `ret += (*it)->getSize()` on a `uint32_t`. -/
def getSize (f : Frame) : Nat :=
  f.buffers_.foldl (fun ret b => (ret + b.getSize) % U32) 0

/-- The loop of `Frame::getPayload`: `ret += (*it)->getPayload()` on a `uint32_t`. -/
def getPayload (f : Frame) : Nat :=
  f.buffers_.foldl (fun ret b => (ret + b.getPayload) % U32) 0

/-- Accessor `Frame::getError`. -/
def getError (f : Frame) : Nat := f.error_

/-- Accessor `Frame::getFlags`. -/
def getFlags (f : Frame) : Nat := f.flags_

/-- Exact total capacity: the sum of the buffers' `getSize()` as an integer. -/
def capacity (f : Frame) : Nat := (f.buffers_.map Buffer.getSize).sum

/-- Exact sum of the buffers' `getPayload()` as an integer. -/
def payloadSum (f : Frame) : Nat := (f.buffers_.map Buffer.getPayload).sum

/-- The loop of `Frame::setPayload`, buffer by buffer, on buffers held by
value: the buffers as they are left, the final `lsize` and the final `tot`.
The loop on the buffer objects themselves is `PtrFrame.setPayloadLoop`. -/
def setPayloadLoop : List Buffer → Nat → Nat → List Buffer × Nat × Nat
  | [], lsize, tot => ([], lsize, tot)
  | b :: bs, lsize, tot =>
    let loc := b.getSize
    let tot := (tot + loc) % U32
    if lsize = 0 then
      let r := setPayloadLoop bs lsize tot
      (b.setPayloadEmpty :: r.1, r.2)
    else if lsize ≤ loc then
      let r := setPayloadLoop bs 0 tot
      (b.setPayload lsize :: r.1, r.2)
    else
      let r := setPayloadLoop bs (lsize - loc) tot
      (b.setPayloadFull :: r.1, r.2)

/-- The method `Frame::setPayload(size)`.  `tot` is declared without an
initial value in the source, so the value it starts from is a parameter.  The
result is the frame as the call leaves it and the error thrown, if any. -/
def setPayload (f : Frame) (size : Nat) (tot : Nat) : Frame × Option GeneralError :=
  let r := setPayloadLoop f.buffers_ size tot
  ({ f with buffers_ := r.1 },
    if r.2.1 ≠ 0 then some ⟨Source.frameSetPayload, size, r.2.2⟩ else none)

/-- The loop of `Frame::minPayload`; it stops as soon as `lsize` is 0. -/
def minPayloadLoop : List Buffer → Nat → Nat → List Buffer × Nat × Nat
  | [], lsize, tot => ([], lsize, tot)
  | b :: bs, lsize, tot =>
    if lsize ≠ 0 then
      let loc := b.getSize
      let tot := (tot + loc) % U32
      if lsize ≤ loc then
        let b1 := if lsize > loc then b.setPayload lsize else b
        let r := minPayloadLoop bs 0 tot
        (b1 :: r.1, r.2)
      else
        let r := minPayloadLoop bs (lsize - loc) tot
        (b.setPayloadFull :: r.1, r.2)
    else (b :: bs, lsize, tot)

/-- The method `Frame::minPayload(size)`; the error it throws names
`Frame::setPayload` as its source, as in the code. -/
def minPayload (f : Frame) (size : Nat) (tot : Nat) : Frame × Option GeneralError :=
  let r := minPayloadLoop f.buffers_ size tot
  ({ f with buffers_ := r.1 },
    if r.2.1 ≠ 0 then some ⟨Source.frameSetPayload, size, r.2.2⟩ else none)

/-- The loop of `Frame::getAvailable`: `ret += (*it)->getAvailable()` on a
`uint32_t`. -/
def getAvailable (f : Frame) : Nat :=
  f.buffers_.foldl (fun ret b => (ret + b.getAvailable) % U32) 0

/-- Exact sum of the buffers' `getAvailable()` as an integer. -/
def availableSum (f : Frame) : Nat := (f.buffers_.map Buffer.getAvailable).sum

/-- The method `Frame::appendBuffer(buff)`: `buffers_.push_back(buff)`. -/
def appendBuffer (f : Frame) (buff : Buffer) : Frame :=
  { f with buffers_ := f.buffers_ ++ [buff] }

/-- The method `Frame::appendFrame(frame)` for a frame other than `f` itself:
the buffers of `frame`, from `beginBuffer()` to `endBuffer()`, are copied
behind the buffers of `f` by a back inserter. -/
def appendFrame (f : Frame) (frame : Frame) : Frame :=
  { f with buffers_ := f.buffers_ ++ frame.buffers_ }

/-- The method `Frame::setPayloadFull`. -/
def setPayloadFull (f : Frame) : Frame :=
  { f with buffers_ := f.buffers_.map Buffer.setPayloadFull }

/-- The method `Frame::setPayloadEmpty`. -/
def setPayloadEmpty (f : Frame) : Frame :=
  { f with buffers_ := f.buffers_.map Buffer.setPayloadEmpty }

/-- The method `Frame::adjustPayload(value)` with `value` an `int32_t`:
`size + value` is a `uint32_t` sum, and `tot` is the starting value of the
uninitialised variable of `setPayload`. -/
def adjustPayload (f : Frame) (value : Int) (tot : Nat) : Frame × Option GeneralError :=
  let size := f.getPayload
  if value < 0 ∧ value.natAbs % U32 > size then
    (f, some ⟨Source.frameAdjustPayload, value.natAbs, size⟩)
  else
    f.setPayload (((size : Int) + value) % (U32 : Int)).toNat tot

/-- The logical byte stream of the filled region of the frame: what a read
iterator walks from `beginRead()` to `endRead()`, buffer after buffer. -/
def payloadBytes (f : Frame) : List Nat :=
  f.buffers_.flatMap Buffer.bytes

/-- Modelled from the spec: `FrameIterator` is declared but its code is not
among the sources.  An iterator is its logical position (`framePos_`), two
iterators are equal when their positions are, and dereferencing the read
iterator at `pos` gives the byte (a `uint8_t`) of the payload stream there. -/
def readByte (f : Frame) (pos : Nat) : Nat :=
  f.payloadBytes.getD pos 0 % 256

/-- The method `Frame::begin`: `iterator(shared_from_this(), 0, false)`. -/
def begin (f : Frame) : FrameIterator := ⟨f, 0, false⟩

/-- The method `Frame::end` (a reserved word here, hence the longer name):
`iterator(shared_from_this(), 0, true)`. -/
def endIterator (f : Frame) : FrameIterator := ⟨f, 0, true⟩

/-- The method `Frame::endPayload`:
`iterator(shared_from_this(), getPayload(), (getPayload() == getSize()))`. -/
def endPayload (f : Frame) : FrameIterator :=
  ⟨f, f.getPayload, decide (f.getPayload = f.getSize)⟩

/-- Modelled from the spec: `Frame::beginRead` is called by `CoreV1.cpp` but
is not in `Frame.cpp`; it is the read iterator at byte 0 of the frame. -/
def beginRead (f : Frame) : FrameIterator := ⟨f, 0, false⟩

/-- The method `Frame::readPy(p, offset)`.  The Python object `p` is seen
through `PyObject_GetBuffer`: `none` when the call fails, else the bytes of
the buffer, whose number is `pyBuf.len`.  `count` is that length stored in a
`uint32_t` and `offset + count` is a `uint32_t` sum.  The copy into the
buffer is commented out in the source, so nothing but the error is left. -/
def readPy (f : Frame) (p : Option (List Nat)) (offset : Nat) : Option PyError :=
  match p with
  | none => some (PyError.buffer Source.frameReadPy)
  | some buf =>
    let size := f.getPayload
    let count := buf.length % U32
    if (offset + count) % U32 > size then
      some (PyError.boundary ⟨Source.frameReadPy, (offset + count) % U32, size⟩)
    else none

/-- The method `Frame::writePy(p, offset)`, with `p` as in `readPy`.  The copy
into the frame is commented out in the source; what is left is the bound
check and `minPayload(offset + count)`, whose uninitialised `tot` is the
parameter `tot`. -/
def writePy (f : Frame) (p : Option (List Nat)) (offset : Nat) (tot : Nat) :
    Frame × Option PyError :=
  match p with
  | none => (f, some (PyError.buffer Source.frameWritePy))
  | some buf =>
    let size := f.getSize
    let count := buf.length % U32
    if (offset + count) % U32 > size then
      (f, some (PyError.boundary ⟨Source.frameWritePy, (offset + count) % U32, size⟩))
    else
      let r := f.minPayload ((offset + count) % U32) tot
      (r.1, r.2.map PyError.boundary)

end Frame

/-! ## Frames over shared buffer objects

`Frame.cpp` keeps `std::vector<BufferPtr> buffers_`: the elements are shared
pointers, `appendBuffer` and `appendFrame` copy them without a check, and
every `(*it)->setPayload...` writes the object pointed to.  The same object
can therefore stand at several places of a frame.  `Frame` above holds the
buffers by value: it is what the reading loops see, and what the writing
loops do as long as the pointers of the frame are pairwise distinct
(`setPayloadLoop_view`).  `PtrFrame` below holds them by pointer. -/

/-- The `Buffer` objects of the program, by address (the value of a
`BufferPtr`). -/
abbrev Heap : Type := Nat → Buffer

/-- The heap after the object at `p` has been written. -/
def Heap.set (h : Heap) (p : Nat) (b : Buffer) : Heap :=
  fun q => if q = p then b else h q

/-- The class `ris::Frame` with `buffers_` as the vector of `BufferPtr` it is
in the source. -/
structure PtrFrame where
  buffers_ : List Nat
  flags_ : Nat := 0
  error_ : Nat := 0
deriving DecidableEq, Repr

namespace PtrFrame

/-- The frame by value: every pointer replaced by the object it points to. -/
def view (f : PtrFrame) (h : Heap) : Frame :=
  { buffers_ := f.buffers_.map h, flags_ := f.flags_, error_ := f.error_ }

/-- The loop of `Frame::getSize`: `ret += (*it)->getSize()` on a `uint32_t`. -/
def getSize (f : PtrFrame) (h : Heap) : Nat :=
  f.buffers_.foldl (fun ret p => (ret + (h p).getSize) % U32) 0

/-- The loop of `Frame::getPayload`: `ret += (*it)->getPayload()` on a
`uint32_t`. -/
def getPayload (f : PtrFrame) (h : Heap) : Nat :=
  f.buffers_.foldl (fun ret p => (ret + (h p).getPayload) % U32) 0

/-- Exact total capacity: the sum of `(*it)->getSize()` over the vector, an
object counting once for every place it stands at. -/
def capacity (f : PtrFrame) (h : Heap) : Nat :=
  (f.buffers_.map (fun p => (h p).getSize)).sum

/-- The method `Frame::appendBuffer(buff)`: `buffers_.push_back(buff)`. -/
def appendBuffer (f : PtrFrame) (buff : Nat) : PtrFrame :=
  { f with buffers_ := f.buffers_ ++ [buff] }

/-- The loop of `Frame::setPayload`, pointer by pointer: the heap as it is
left, the final `lsize` and the final `tot`. -/
def setPayloadLoop : Heap → List Nat → Nat → Nat → Heap × Nat × Nat
  | h, [], lsize, tot => (h, lsize, tot)
  | h, p :: ps, lsize, tot =>
    let loc := (h p).getSize
    let tot := (tot + loc) % U32
    if lsize = 0 then
      setPayloadLoop (Heap.set h p (h p).setPayloadEmpty) ps lsize tot
    else if lsize ≤ loc then
      setPayloadLoop (Heap.set h p ((h p).setPayload lsize)) ps 0 tot
    else
      setPayloadLoop (Heap.set h p (h p).setPayloadFull) ps (lsize - loc) tot

/-- The method `Frame::setPayload(size)`: the heap as the call leaves it and
the error thrown, if any.  `tot` is the starting value of the uninitialised
variable. -/
def setPayload (f : PtrFrame) (h : Heap) (size : Nat) (tot : Nat) :
    Heap × Option GeneralError :=
  let r := setPayloadLoop h f.buffers_ size tot
  (r.1, if r.2.1 ≠ 0 then some ⟨Source.frameSetPayload, size, r.2.2⟩ else none)

/-- The method `Frame::adjustPayload(value)` with `value` an `int32_t`:
`size + value` is a `uint32_t` sum. -/
def adjustPayload (f : PtrFrame) (h : Heap) (value : Int) (tot : Nat) :
    Heap × Option GeneralError :=
  let size := f.getPayload h
  if value < 0 ∧ value.natAbs % U32 > size then
    (h, some ⟨Source.frameAdjustPayload, value.natAbs, size⟩)
  else
    f.setPayload h (((size : Int) + value) % (U32 : Int)).toNat tot

end PtrFrame

/-- The shape a front-to-back fill of `n` bytes leaves: an index `k` with
every buffer before it full, the buffer at `k` (if there is one) holding what
remains of `n`, and every buffer after it empty. -/
def FrontToBack (bs : List Buffer) (n : Nat) : Prop :=
  ∃ k, (∀ b ∈ bs.take k, b.getPayload = b.getSize)
    ∧ (∀ b, bs[k]? = some b → b.getPayload = n - ((bs.take k).map Buffer.getSize).sum)
    ∧ (∀ b ∈ bs.drop (k + 1), b.getPayload = 0)

/-- One call on a frame, with its arguments: the calls that change the buffer
list or the payload counts. -/
inductive FrameCall where
  | appendBuffer (buff : Buffer)
  | appendFrame (frame : Frame)
  | setPayload (size tot : Nat)
  | minPayload (size tot : Nat)
  | adjustPayload (value : Int) (tot : Nat)
  | setPayloadFull
  | setPayloadEmpty

/-- The frame as one call leaves it, whether the call threw or not. -/
def Frame.call (f : Frame) : FrameCall → Frame
  | FrameCall.appendBuffer buff => f.appendBuffer buff
  | FrameCall.appendFrame frame => f.appendFrame frame
  | FrameCall.setPayload size tot => (f.setPayload size tot).1
  | FrameCall.minPayload size tot => (f.minPayload size tot).1
  | FrameCall.adjustPayload value tot => (f.adjustPayload value tot).1
  | FrameCall.setPayloadFull => f.setPayloadFull
  | FrameCall.setPayloadEmpty => f.setPayloadEmpty

/-- The frame after a sequence of calls, first call first. -/
def Frame.calls (f : Frame) (cs : List FrameCall) : Frame :=
  cs.foldl Frame.call f

/-- Modelled from the spec: `ris::fromFrame(iter, n, dst)` (not among the
sources) copies the `n` bytes at the iterator into `dst` and advances the
iterator by `n`.  This is the value `dst` gets on a little-endian host, from
the iterator position `pos`. -/
def fromFrame (f : Frame) (pos : Nat) : Nat → Nat
  | 0 => 0
  | n + 1 => f.readByte pos + 256 * fromFrame f (pos + 1) n

/-! ## Batcher decoder -/

namespace batcher

/-- Modelled from the spec: the record built by
`rpb::Data::create(mark, fSize, dest, fUser, lUser)` (class `Data` is not
among the sources): the position of its first payload byte and its fields. -/
structure Data where
  start : Nat
  size : Nat
  dest : Nat
  fUser : Nat
  lUser : Nat
deriving DecidableEq, Repr

/-- The members of `rpb::CoreV1`.  Both vectors are in discovery order, the
last element pushed being the last of the list. -/
structure CoreV1 where
  frame_ : Option Frame := none
  list_ : List Data := []
  tails_ : List Nat := []
  headerSize_ : Nat := 0
  tailSize_ : Nat := 0
  seq_ : Nat := 0
deriving DecidableEq, Repr

namespace CoreV1

/-- The method `CoreV1::reset`. -/
def reset (_c : CoreV1) : CoreV1 :=
  { frame_ := none, list_ := [], tails_ := [], headerSize_ := 0, tailSize_ := 0, seq_ := 0 }

/-- The method `CoreV1::count`: `list_.size()` returned as a `uint32_t`. -/
def count (c : CoreV1) : Nat := c.list_.length % U32

/-- The method `CoreV1::headerSize`. -/
def headerSize (c : CoreV1) : Nat := c.headerSize_

/-- The method `CoreV1::header`: `frame_->beginRead()`.  The result is `none`
when `frame_` holds no frame: the call then goes through a null pointer and
nothing is defined about what it returns. -/
def header (c : CoreV1) : Option FrameIterator := c.frame_.map Frame.beginRead

/-- The method `CoreV1::tailSize`. -/
def tailSize (c : CoreV1) : Nat := c.tailSize_

/-- The method `CoreV1::sequence`. -/
def sequence (c : CoreV1) : Nat := c.seq_

/-- The method `CoreV1::tail(index)`: the iterator position of the tail. -/
def tail (c : CoreV1) (index : Nat) : Except GeneralError Nat :=
  if index ≥ c.tails_.length then
    Except.error ⟨Source.coreV1Tail, index, c.tails_.length⟩
  else
    Except.ok (c.tails_.getD ((c.tails_.length - 1) - index) 0)

/-- The method `CoreV1::record(index)`. -/
def record (c : CoreV1) (index : Nat) : Except GeneralError Data :=
  if index ≥ c.list_.length then
    Except.error ⟨Source.coreV1Record, index, c.list_.length⟩
  else
    Except.ok (c.list_.getD ((c.list_.length - 1) - index) ⟨0, 0, 0, 0, 0⟩)

/-- The rewind amount `fJump` of `processFrame`: `fSize` rounded up to the
width, computed on `uint32_t` values. -/
def fJump (fSize headerSize : Nat) : Nat :=
  if fSize % headerSize = 0 then fSize
  else ((fSize / headerSize + 1) * headerSize) % U32

/-- The `while (mark != beg)` loop of `processFrame`.  `mark` and `beg` are
iterator positions, `rem` the remaining byte count.  One unit of fuel is one
evaluation of the loop condition; `none` means the fuel ran out. -/
def scan (frame : Frame) (beg : Nat) : Nat → Nat → Nat → CoreV1 → Option (Bool × CoreV1)
  | 0, _, _, _ => none
  | fuel + 1, mark, rem, c =>
    if mark ≠ beg then
      if rem < c.tailSize_ then some (false, c.reset)
      else
        let mark1 := mark - c.tailSize_
        let rem1 := rem - c.tailSize_
        let c1 := { c with tails_ := c.tails_ ++ [mark1] }
        let fSize := fromFrame frame mark1 4
        let dest := fromFrame frame (mark1 + 4) 1
        let fUser := fromFrame frame (mark1 + 5) 1
        let lUser := fromFrame frame (mark1 + 6) 1
        let jump := fJump fSize c1.headerSize_
        if jump > rem1 then some (false, c1.reset)
        else
          let mark2 := mark1 - jump
          let rem2 := rem1 - jump
          scan frame beg fuel mark2 rem2
            { c1 with list_ := c1.list_ ++ [⟨mark2, fSize, dest, fUser, lUser⟩] }
    else some (true, c)

/-- One pass through the body of the `while` loop of `processFrame`, from the
cursor `mark` and the counter `rem`: the cursor, the counter and the decoder
at the end of the pass, or `none` when the pass ends in
`reset(); return false`. -/
def loopBody (frame : Frame) (mark rem : Nat) (c : CoreV1) : Option (Nat × Nat × CoreV1) :=
  if rem < c.tailSize_ then none
  else
    let mark1 := mark - c.tailSize_
    let rem1 := rem - c.tailSize_
    let c1 := { c with tails_ := c.tails_ ++ [mark1] }
    let fSize := fromFrame frame mark1 4
    let dest := fromFrame frame (mark1 + 4) 1
    let fUser := fromFrame frame (mark1 + 5) 1
    let lUser := fromFrame frame (mark1 + 6) 1
    let jump := fJump fSize c1.headerSize_
    if jump > rem1 then none
    else
      some (mark1 - jump, rem1 - jump,
        { c1 with list_ := c1.list_ ++ [⟨mark1 - jump, fSize, dest, fUser, lUser⟩] })

/-- The method `CoreV1::processFrame`: the value returned and the decoder as
the call leaves it.  `Frame::beginRead` and `Frame::endRead` are not in the
sources; following the specification (the two ends of the filled region) they
are the iterators at position 0 and at position `getPayload()`.  The member
`frame_` is written by `reset()` only.  The loop gets `rem + 1` units of
fuel, which `processFrame_total` shows to be enough. -/
def processFrame (c : CoreV1) (frame : Frame) : Option (Bool × CoreV1) :=
  let c0 := c.reset
  if frame.getError ≠ 0 then some (false, c0)
  else
    let rem := frame.getPayload
    if rem < 16 then some (false, c0)
    else
      let temp := fromFrame frame 0 1
      if temp % 16 ≠ 1 then some (false, c0)
      else
        let c1 := { c0 with headerSize_ := 2 ^ (temp / 16 % 16 + 1) }
        let c2 := { c1 with tailSize_ := if c1.headerSize_ < 8 then 8 else c1.headerSize_ }
        let c3 := { c2 with seq_ := fromFrame frame 1 1 }
        if rem < c3.headerSize_ + c3.tailSize_ then some (false, c3.reset)
        else
          let beg := 2 + (c3.headerSize_ - 2)
          let rem1 := rem - c3.headerSize_
          let mark := frame.getPayload
          scan frame beg (rem1 + 1) mark rem1 c3

end CoreV1

end batcher

/-! ## Mapped-memory slave -/

namespace hardware

/-- The struct `rhr::Map`: `base` and `size` are `uint32_t`, `ptr` the address
the region is mapped at. -/
structure Map where
  base : Nat
  size : Nat
  ptr : Nat
deriving DecidableEq, Repr

/-- The members of `rhr::MapMemory`. -/
structure MapMemory where
  fd_ : Int := -1
  maps_ : List Map := []
deriving DecidableEq, Repr

namespace MapMemory

/-- The loop of `MapMemory::findSpace` over the mappings from index `x` on;
`none` is the `NULL` result. -/
def findSpaceLoop : List Map → Nat → Nat → Option Nat
  | [], _, _ => none
  | m :: ms, base, size =>
    if base > m.base ∧ ((base - m.base) + size) % U32 < m.size then
      some (m.ptr + (base - m.base))
    else findSpaceLoop ms base size

/-- The method `MapMemory::findSpace(base, size)`. -/
def findSpace (mm : MapMemory) (base size : Nat) : Option Nat :=
  findSpaceLoop mm.maps_ base size

/-- The method `MapMemory::close`: nothing happens on a device whose
descriptor is negative; otherwise every mapping is unmapped, the list is
cleared and the descriptor is closed (`fd_` keeps its value).  The mutex is
not part of the model. -/
def close (mm : MapMemory) : MapMemory :=
  if mm.fd_ < 0 then mm else { mm with maps_ := [] }

/-- The method `MapMemory::open` (a reserved word here, hence the longer
name).  `sysOpen` is what `::open("/dev/mem", O_RDWR | O_SYNC)` returns when
it is called: a descriptor, or -1 when the device node cannot be opened.
`ret` starts as true, as in the source.  The result is `ret` and the object
as the call leaves it. -/
def openDevice (mm : MapMemory) (sysOpen : Int) : Bool × MapMemory :=
  let ret := true
  if mm.fd_ > 0 then (false, mm)
  else
    let mm1 := { mm with fd_ := sysOpen }
    (if mm1.fd_ > 0 then true else ret, mm1)

/-- The method `MapMemory::addMap(address, size)`.  `ptr` is what `mmap`
returns when it is called, 0 standing for `NULL`.  The mutex is not part of
the model. -/
def addMap (mm : MapMemory) (address size : Nat) (ptr : Nat) : MapMemory :=
  if mm.fd_ ≥ 0 then
    if ptr = 0 then mm
    else { mm with maps_ := mm.maps_ ++ [⟨address, size, ptr⟩] }
  else mm

end MapMemory

/-- Modelled from the spec: `rim::Block` (not among the sources), the
transaction handed to the slave: `getAddress()`, `getSize()`, the `getSize()`
bytes of the data region `getData()` points to, and the codes passed to
`complete`, oldest first.  The data region is held apart from the mapped
memory. -/
structure Block where
  address : Nat
  size : Nat
  data : List Nat
  completed : List Nat := []
deriving DecidableEq, Repr

namespace Block

/-- The call `block->complete(code)`. -/
def complete (b : Block) (code : Nat) : Block :=
  { b with completed := b.completed ++ [code] }

end Block

/-- The call `memcpy(ptr, data, n)` into the byte memory `mem`, which is
indexed by pointer value. -/
def memcpyTo (mem : Nat → Nat) (ptr : Nat) (data : List Nat) (n : Nat) : Nat → Nat :=
  fun a => if ptr ≤ a ∧ a < ptr + n then data.getD (a - ptr) 0 else mem a

/-- The bytes `memcpy(data, ptr, n)` puts into the data region. -/
def memcpyFrom (mem : Nat → Nat) (ptr : Nat) (n : Nat) : List Nat :=
  (List.range n).map (fun i => mem (ptr + i))

namespace MapMemory

/-- Whether the `n` bytes at `ptr` lie inside one of the regions `mmap`
returned, the region of a mapping being the `size` bytes at its `ptr`. -/
def mapped (mm : MapMemory) (ptr n : Nat) : Bool :=
  mm.maps_.any (fun m => decide (m.ptr ≤ ptr ∧ ptr + n ≤ m.ptr + m.size))

/-- The method `MapMemory::doTransaction(write, posted, block)`: the memory
and the block as the call leaves them.  `findSpace` takes 32-bit arguments.
The `memcpy` is defined only while the `getSize()` bytes at the pointer lie
inside a mapped region; a copy that leaves it has no defined behaviour (on
the target the process faults inside `memcpy`), the call then returns nothing
and `block->complete` is not reached: this is the result `none`. -/
def doTransaction (mm : MapMemory) (mem : Nat → Nat) (write _posted : Bool) (block : Block) :
    Option ((Nat → Nat) × Block) :=
  match mm.findSpace (block.address % U32) (block.size % U32) with
  | none => some (mem, block.complete 1)
  | some ptr =>
    if mm.mapped ptr block.size then
      if write then
        some (memcpyTo mem ptr block.data block.size, block.complete 0)
      else
        some (mem, ({ block with data := memcpyFrom mem ptr block.size }).complete 0)
    else none

end MapMemory

end hardware

/-! ## Memory hub -/

namespace memory

/-- Modelled from the spec: `Hub.cpp` is not among the sources, `Hub.h`
declares the members `offset_` and `root_`. -/
structure Hub where
  offset_ : Nat
  root_ : Bool
deriving DecidableEq, Repr

namespace Hub

/-- Modelled from the spec: the constructor `Hub(offset, min, max)`; the hub
is a virtual root when non-zero `min` and `max` are passed at creation. -/
def create (offset min max : Nat) : Hub :=
  { offset_ := offset, root_ := decide (min ≠ 0 ∧ max ≠ 0) }

end Hub

/-- Modelled from the spec: `Hub::doAddress()` of the first hub of a chain,
"(hub is root ? 0 : parent.address) + offset".  The chain lists the hubs from
the one the master is attached to down to the one attached to the terminal
slave, whose `address()` is `slaveAddress`; the parent of a hub is the next
one down. -/
def doAddress : List Hub → Nat → Nat
  | [], slaveAddress => slaveAddress
  | h :: rest, slaveAddress =>
    (if h.root_ then 0 else doAddress rest slaveAddress) + h.offset_

/-- Modelled from the spec: `Hub::doTransaction` along a chain: each hub
applies its local offset to the address of the transaction and passes it to
the next level; the result is the address the terminal slave sees. -/
def doTransaction : List Hub → Nat → Nat
  | [], address => address
  | h :: rest, address => doTransaction rest (address + h.offset_)

end memory

/-! ## Stream Fifo -/

namespace stream

/-- Modelled from the spec: `Fifo.cpp` is not among the sources.  `Fifo.h`
declares `trimSize_`, `maxDepth_`, `noCopy_` and `queue_`; the drop counter of
section 4.5 and the record of what the worker handed downstream are added to
them. -/
structure Fifo where
  maxDepth_ : Nat
  trimSize_ : Nat
  noCopy_ : Bool
  queue_ : List Frame := []
  dropCount : Nat := 0
  delivered : List Frame := []
deriving DecidableEq, Repr

namespace Fifo

/-- Modelled from the spec: the constructor `Fifo(maxDepth, trimSize, noCopy)`,
with an empty queue. -/
def create (maxDepth trimSize : Nat) (noCopy : Bool) : Fifo :=
  { maxDepth_ := maxDepth, trimSize_ := trimSize, noCopy_ := noCopy }

/-- Modelled from the spec: the copy made of an accepted frame, "payload =
min(source.payload, trimSize>0 ? trimSize : source.payload); copy bytes;
preserve flags/error". -/
def copyFrame (trimSize : Nat) (frame : Frame) : Frame :=
  let n := min frame.getPayload (if trimSize > 0 then trimSize else frame.getPayload)
  { buffers_ := [{ size := n, payload := n, data := frame.payloadBytes.take n }],
    flags_ := frame.flags_, error_ := frame.error_ }

/-- Modelled from the spec: `Fifo::acceptFrame`, steps 1 to 3 of section 4.5. -/
def acceptFrame (q : Fifo) (frame : Frame) : Fifo :=
  if q.queue_.length = q.maxDepth_ ∧ q.maxDepth_ > 0 then
    { q with dropCount := q.dropCount + 1 }
  else if q.noCopy_ then
    { q with queue_ := q.queue_ ++ [frame] }
  else
    { q with queue_ := q.queue_ ++ [copyFrame q.trimSize_ frame] }

/-- Modelled from the spec: one turn of the worker, "dequeue one frame;
invoke downstream Slaves' acceptFrame"; on an empty queue it waits. -/
def workerStep (q : Fifo) : Fifo :=
  match q.queue_ with
  | [] => q
  | frame :: rest => { q with queue_ := rest, delivered := q.delivered ++ [frame] }

end Fifo

/-- What happens to a Fifo: a frame arrives, or the worker takes one turn. -/
inductive FifoEvent where
  | accept (frame : Frame)
  | dequeue

/-- The Fifo after one event. -/
def Fifo.step (q : Fifo) : FifoEvent → Fifo
  | FifoEvent.accept frame => q.acceptFrame frame
  | FifoEvent.dequeue => q.workerStep

/-- The Fifo after a sequence of events, first event first. -/
def Fifo.run (q : Fifo) (evs : List FifoEvent) : Fifo :=
  evs.foldl Fifo.step q

end stream

/-! ## The wire format of section 4.6, written from the specification -/

namespace Spec

/-- A logical record before it is packed: its payload bytes and the three
one-byte fields of its tail. -/
structure Record where
  payload : List Nat
  dest : Nat
  fUser : Nat
  lUser : Nat
deriving DecidableEq, Repr

/-- The four bytes of a 32-bit value, least significant first. -/
def le32 (n : Nat) : List Nat :=
  [n % 256, n / 256 % 256, n / 65536 % 256, n / 16777216 % 256]

/-- The exact integer `ceil(n / w) * w`. -/
def roundUp (n w : Nat) : Nat := (n + w - 1) / w * w

/-- Number of valid bytes in the last word of an `n`-byte payload. -/
def lastValid (n w : Nat) : Nat := if n % w = 0 then w else n % w

/-- One record on the wire: the payload, zero padding up to a multiple of
`w`, then the tail of `max w 8` bytes (size, destination, first user, last
user, valid bytes, zero padding). -/
def encodeRecord (w : Nat) (r : Record) : List Nat :=
  r.payload ++ List.replicate (roundUp r.payload.length w - r.payload.length) 0
    ++ le32 r.payload.length
    ++ [r.dest, r.fUser, r.lUser, lastValid r.payload.length w % 256]
    ++ List.replicate (max w 8 - 8) 0

/-- The super-frame of width `2 * 2 ^ k`: version 1 and `k` in byte 0, the
sequence number in byte 1, zeros up to the width, then the records. -/
def encode (k seq : Nat) (recs : List Record) : List Nat :=
  [1 + 16 * k, seq] ++ List.replicate (2 ^ (k + 1) - 2) 0
    ++ recs.flatMap (encodeRecord (2 ^ (k + 1)))

/-- What a decoder has to deliver for the records packed from position `pos`
on, in wire order. -/
def layout (w : Nat) : Nat → List Record → List batcher.Data
  | _, [] => []
  | pos, r :: rs =>
    ⟨pos, r.payload.length, r.dest, r.fUser, r.lUser⟩
      :: layout w (pos + (encodeRecord w r).length) rs

/-- Positions of the tails of the records packed from position `pos` on. -/
def tailLayout (w : Nat) : Nat → List Record → List Nat
  | _, [] => []
  | pos, r :: rs =>
    (pos + roundUp r.payload.length w)
      :: tailLayout w (pos + (encodeRecord w r).length) rs

end Spec

/-! ## Layout predicate -/

/-- Wire-order layout: the records `ds` with their tails `ts` cover the byte
range from `pos` to `e` one after the other, each record starting where the
previous tail ends and each tail lying `fJump` (the rewind amount the decoder
computed) behind the start of its record. -/
def Tiled (w tailSize : Nat) : Nat → List batcher.Data → List Nat → Nat → Prop
  | pos, [], [], e => pos = e
  | pos, d :: ds, t :: ts, e =>
    d.start = pos ∧ t = pos + batcher.CoreV1.fJump d.size w
      ∧ Tiled w tailSize (t + tailSize) ds ts e
  | _, _ :: _, [], _ => False
  | _, [], _ :: _, _ => False

/-- The fields of the record `d` are what `fromFrame` delivers at the tail
that starts at `t`: four bytes of size, then one byte each of destination,
first user and last user. -/
def FromTail (f : Frame) (d : batcher.Data) (t : Nat) : Prop :=
  d.size = fromFrame f t 4 ∧ d.dest = fromFrame f (t + 4) 1
    ∧ d.fUser = fromFrame f (t + 5) 1 ∧ d.lUser = fromFrame f (t + 6) 1

/-! ## Concrete inputs used below -/

namespace Example

/-- One buffer holding exactly the given bytes. -/
def frameOf (l : List Nat) : Frame :=
  { buffers_ := [{ size := l.length, payload := l.length, data := l }] }

/-- Scenario S5: width 8, sequence 0x42, a 12-byte record of 'A' and a 5-byte
record of 'B'. -/
def s5Records : List Spec.Record :=
  [⟨List.replicate 12 65, 1, 2, 3⟩, ⟨List.replicate 5 66, 7, 0, 0⟩]

/-- The super-frame of scenario S5 spread over two buffers. -/
def s5Frame : Frame :=
  { buffers_ :=
      [{ size := 20, payload := 13, data := (Spec.encode 2 66 s5Records).take 13 },
       { size := 64, payload := 35, data := (Spec.encode 2 66 s5Records).drop 13 }] }

/-- A decoder that holds the two records of scenario S5. -/
def s5Decoder : batcher.CoreV1 :=
  { list_ := [⟨32, 5, 7, 0, 0⟩, ⟨8, 12, 1, 2, 3⟩], tails_ := [40, 24],
    headerSize_ := 8, tailSize_ := 8, seq_ := 66 }

/-- Scenario S6: two buffers of size 10, the first full and the second
holding 5 bytes. -/
def s6Frame : Frame :=
  { buffers_ := [{ size := 10, payload := 10 }, { size := 10, payload := 5 }] }

/-- A frame whose two places hold the same buffer object, the one at
address 0, as `appendBuffer(x); appendBuffer(x)` builds it. -/
def twice : PtrFrame := (({ buffers_ := [] } : PtrFrame).appendBuffer 0).appendBuffer 0

/-- A heap whose every object is a buffer of size 10 holding `k` bytes. -/
def tens (k : Nat) : Heap := fun _ => { size := 10, payload := k }

/-- The frame of scenario S6 by pointer: the objects at the addresses 0 and 1. -/
def s6Ptrs : PtrFrame := (({ buffers_ := [] } : PtrFrame).appendBuffer 0).appendBuffer 1

/-- An empty frame told apart from the others by its flags. -/
def numbered (n : Nat) : Frame := { buffers_ := [], flags_ := n }

/-- Scenario S4: five frames arrive one after the other. -/
def s4Arrivals : List stream.FifoEvent :=
  [stream.FifoEvent.accept (numbered 1), stream.FifoEvent.accept (numbered 2),
   stream.FifoEvent.accept (numbered 3), stream.FifoEvent.accept (numbered 4),
   stream.FifoEvent.accept (numbered 5)]

/-- Scenario S4: the worker resumes and takes five turns. -/
def s4Turns : List stream.FifoEvent :=
  [stream.FifoEvent.dequeue, stream.FifoEvent.dequeue, stream.FifoEvent.dequeue,
   stream.FifoEvent.dequeue, stream.FifoEvent.dequeue]

end Example

/-! ## Arithmetic helpers -/

theorem foldl_add_mod {α : Type} (g : α → Nat) (l : List α) (a : Nat) :
    l.foldl (fun ret b => (ret + g b) % U32) (a % U32) = (a + (l.map g).sum) % U32 := by
  induction l generalizing a with
  | nil => simp
  | cons x xs ih =>
    simp only [List.foldl_cons, List.map_cons, List.sum_cons]
    rw [Nat.mod_add_mod, ih]
    congr 1
    omega

theorem Frame.getPayload_eq (f : Frame) : f.getPayload = f.payloadSum % U32 := by
  have h := foldl_add_mod Buffer.getPayload f.buffers_ 0
  simpa [Frame.getPayload, Frame.payloadSum] using h

theorem Frame.getSize_eq (f : Frame) : f.getSize = f.capacity % U32 := by
  have h := foldl_add_mod Buffer.getSize f.buffers_ 0
  simpa [Frame.getSize, Frame.capacity] using h

/-! ## `Frame::setPayload` -/

theorem setPayloadLoop_lsize (bs : List Buffer) (lsize tot : Nat) :
    (Frame.setPayloadLoop bs lsize tot).2.1 = lsize - (bs.map Buffer.getSize).sum := by
  induction bs generalizing lsize tot with
  | nil => simp [Frame.setPayloadLoop]
  | cons b bs ih =>
    simp only [Frame.setPayloadLoop, List.map_cons, List.sum_cons]
    split_ifs with h0 h1
    · simp [ih, h0]
    · simp only [ih]; omega
    · simp only [ih]; omega

theorem setPayloadLoop_payload (bs : List Buffer) (lsize tot : Nat)
    (h : lsize ≤ (bs.map Buffer.getSize).sum) :
    ((Frame.setPayloadLoop bs lsize tot).1.map Buffer.getPayload).sum = lsize := by
  induction bs generalizing lsize tot with
  | nil =>
    have h0 : lsize = 0 := by simpa using h
    simp [Frame.setPayloadLoop, h0]
  | cons b bs ih =>
    simp only [List.map_cons, List.sum_cons] at h
    simp only [Frame.setPayloadLoop]
    split_ifs with h0 h1
    · simp [ih 0 _ (Nat.zero_le _), h0, Buffer.setPayloadEmpty, Buffer.getPayload]
    · simp [ih 0 _ (Nat.zero_le _), Buffer.setPayload, Buffer.getPayload]
    · have h2 : lsize - b.getSize ≤ (bs.map Buffer.getSize).sum := by omega
      simp only [List.map_cons, List.sum_cons, ih _ _ h2, Buffer.setPayloadFull,
        Buffer.getPayload]
      have h3 : b.getSize = b.size := rfl
      omega

/-- C6: `Frame::setPayload(n)` throws its boundary error exactly when `n`
exceeds the exact sum of the buffers' sizes; `setPayload(0)` never throws, and
`setPayload(n)` with `n > 0` on a frame without buffers always throws. -/
theorem setPayload_error_iff (f : Frame) (n tot : Nat) :
    ((∃ limit, (f.setPayload n tot).2 = some ⟨Source.frameSetPayload, n, limit⟩)
        ↔ f.capacity < n)
      ∧ ((f.setPayload n tot).2 = none ↔ n ≤ f.capacity)
      ∧ (f.setPayload 0 tot).2 = none
      ∧ (0 < n → f.buffers_ = [] → (f.setPayload n tot).2 ≠ none) := by
  have key : ∀ m : Nat, (Frame.setPayloadLoop f.buffers_ m tot).2.1 = m - f.capacity :=
    fun m => setPayloadLoop_lsize f.buffers_ m tot
  refine ⟨?_, ?_, ?_, ?_⟩
  · constructor
    · rintro ⟨limit, h⟩
      by_contra hle
      have h0 : (Frame.setPayloadLoop f.buffers_ n tot).2.1 = 0 := by
        rw [key]; omega
      simp [Frame.setPayload, h0] at h
    · intro hlt
      have h0 : (Frame.setPayloadLoop f.buffers_ n tot).2.1 ≠ 0 := by
        rw [key]; omega
      exact ⟨(Frame.setPayloadLoop f.buffers_ n tot).2.2, by simp [Frame.setPayload, h0]⟩
  · constructor
    · intro h
      by_contra hle
      have h0 : (Frame.setPayloadLoop f.buffers_ n tot).2.1 ≠ 0 := by
        rw [key]; omega
      simp [Frame.setPayload, h0] at h
    · intro hle
      have h0 : (Frame.setPayloadLoop f.buffers_ n tot).2.1 = 0 := by
        rw [key]; omega
      simp [Frame.setPayload, h0]
  · have h0 : (Frame.setPayloadLoop f.buffers_ 0 tot).2.1 = 0 := by
      rw [key]; omega
    simp [Frame.setPayload, h0]
  · intro hn hb
    have h0 : (Frame.setPayloadLoop f.buffers_ n tot).2.1 ≠ 0 := by
      rw [key]; simp only [Frame.capacity, hb, List.map_nil, List.sum_nil]; omega
    simp [Frame.setPayload, h0]

/-- Witness of C6: on a frame without buffers `setPayload(1)` throws and
`setPayload(0)` does not. -/
theorem setPayload_error_iff_witness :
    (({ buffers_ := [] } : Frame).setPayload 0 7).2 = none
      ∧ (({ buffers_ := [] } : Frame).setPayload 1 7).2 ≠ none :=
  ⟨(setPayload_error_iff { buffers_ := [] } 1 7).2.2.1,
    (setPayload_error_iff { buffers_ := [] } 1 7).2.2.2 (by decide) rfl⟩

/-! ## `Frame::minPayload` -/

theorem minPayloadLoop_forall2 (bs : List Buffer) (lsize tot : Nat)
    (h : ∀ b ∈ bs, b.getPayload ≤ b.getSize) :
    List.Forall₂
      (fun b b1 => b.getPayload ≤ b1.getPayload ∧ b1.getSize = b.getSize
        ∧ b1.getPayload ≤ b1.getSize)
      bs (Frame.minPayloadLoop bs lsize tot).1 := by
  induction bs generalizing lsize tot with
  | nil => simp [Frame.minPayloadLoop]
  | cons b bs ih =>
    have hb : b.getPayload ≤ b.getSize := h b (List.mem_cons_self _ _)
    have hbs : ∀ x ∈ bs, x.getPayload ≤ x.getSize :=
      fun x hx => h x (List.mem_cons_of_mem _ hx)
    have hrefl : ∀ l : List Buffer, (∀ x ∈ l, x.getPayload ≤ x.getSize) →
        List.Forall₂
          (fun b b1 => b.getPayload ≤ b1.getPayload ∧ b1.getSize = b.getSize
            ∧ b1.getPayload ≤ b1.getSize) l l := by
      intro l
      induction l with
      | nil => intro _; exact List.Forall₂.nil
      | cons y ys ihy =>
        intro hl
        exact List.Forall₂.cons ⟨le_refl _, rfl, hl y (List.mem_cons_self _ _)⟩
          (ihy (fun x hx => hl x (List.mem_cons_of_mem _ hx)))
    simp only [Frame.minPayloadLoop]
    split_ifs with h0 h1 h2
    · exact absurd h1 (by omega)
    · exact List.Forall₂.cons ⟨le_refl _, rfl, hb⟩ (ih 0 _ hbs)
    · exact List.Forall₂.cons
        ⟨by simpa [Buffer.setPayloadFull, Buffer.getPayload, Buffer.getSize] using hb,
          rfl, le_refl _⟩ (ih _ _ hbs)
    · exact hrefl _ h

theorem forall2_payload_sum (l l1 : List Buffer)
    (h : List.Forall₂
      (fun b b1 => b.getPayload ≤ b1.getPayload ∧ b1.getSize = b.getSize
        ∧ b1.getPayload ≤ b1.getSize) l l1) :
    (l.map Buffer.getPayload).sum ≤ (l1.map Buffer.getPayload).sum
      ∧ (l1.map Buffer.getSize).sum = (l.map Buffer.getSize).sum
      ∧ (l1.map Buffer.getPayload).sum ≤ (l1.map Buffer.getSize).sum := by
  induction h with
  | nil => simp
  | cons hab _ ih =>
    simp only [List.map_cons, List.sum_cons]
    omega

/-- C8 (amended): for every frame whose buffers each have payload <= size and
every `n`, also when the call throws, `Frame::minPayload(n)` leaves each
buffer with a payload not below the one it had, so the exact sum of the
buffers' payloads does not decrease; the 32-bit value `Frame::getPayload()`
does not decrease when the exact sum of the buffers' sizes is below 2^32. -/
theorem minPayload_never_lowers (f : Frame) (n tot : Nat)
    (h : ∀ b ∈ f.buffers_, b.getPayload ≤ b.getSize) :
    List.Forall₂ (fun b b1 => b.getPayload ≤ b1.getPayload)
        f.buffers_ (f.minPayload n tot).1.buffers_
      ∧ f.payloadSum ≤ (f.minPayload n tot).1.payloadSum
      ∧ (f.capacity < U32 → f.getPayload ≤ (f.minPayload n tot).1.getPayload) := by
  have h2 := minPayloadLoop_forall2 f.buffers_ n tot h
  have h3 := forall2_payload_sum _ _ h2
  refine ⟨?_, ?_, ?_⟩
  · exact List.Forall₂.imp (fun _ _ hab => hab.1) h2
  · exact h3.1
  · intro hcap
    rw [Frame.getPayload_eq, Frame.getPayload_eq]
    simp only [Frame.payloadSum, Frame.capacity, Frame.minPayload] at *
    rw [Nat.mod_eq_of_lt (by omega), Nat.mod_eq_of_lt (by omega)]
    exact h3.1

/-- Witness of C8 (amended): two buffers of size 10 holding 5 and 10 bytes,
`minPayload(30)`, which ends in the boundary error. -/
theorem minPayload_never_lowers_witness :
    (({ buffers_ := [⟨10, 5, [], 0, 0⟩, ⟨10, 10, [], 0, 0⟩] } : Frame).minPayload 30 0).2 ≠ none
      ∧ ({ buffers_ := [⟨10, 5, [], 0, 0⟩, ⟨10, 10, [], 0, 0⟩] } : Frame).payloadSum
          ≤ (({ buffers_ := [⟨10, 5, [], 0, 0⟩, ⟨10, 10, [], 0, 0⟩] } : Frame).minPayload 30 0).1.payloadSum :=
  ⟨by decide,
    (minPayload_never_lowers { buffers_ := [⟨10, 5, [], 0, 0⟩, ⟨10, 10, [], 0, 0⟩] } 30 0
      (by decide)).2.1⟩

/-- C8, counterexample: with one buffer of size 1 and one of size 2^32 - 1
that is full, `minPayload(2)` fills the first buffer; the buffers then hold
2^32 bytes and the 32-bit `Frame::getPayload()` drops from 2^32 - 1 to 0. -/
theorem minPayload_getPayload_can_decrease :
    (∀ b ∈ ({ buffers_ := [⟨1, 0, [], 0, 0⟩, ⟨4294967295, 4294967295, [], 0, 0⟩] } : Frame).buffers_,
        b.getPayload ≤ b.getSize)
      ∧ ({ buffers_ := [⟨1, 0, [], 0, 0⟩, ⟨4294967295, 4294967295, [], 0, 0⟩] } : Frame).getPayload
          = 4294967295
      ∧ (({ buffers_ := [⟨1, 0, [], 0, 0⟩, ⟨4294967295, 4294967295, [], 0, 0⟩] } : Frame).minPayload
          2 0).2 = none
      ∧ (({ buffers_ := [⟨1, 0, [], 0, 0⟩, ⟨4294967295, 4294967295, [], 0, 0⟩] } : Frame).minPayload
          2 0).1.getPayload = 0 := by
  refine ⟨by decide, by decide, by decide, by decide⟩

/-- C7, the failing input: on one empty buffer of size 10, `minPayload(5)`
returns without error and `Frame::getPayload()` is still 0, below 5. -/
theorem minPayload_does_not_raise :
    (5 : Nat) ≤ ({ buffers_ := [⟨10, 0, [], 0, 0⟩] } : Frame).capacity
      ∧ (({ buffers_ := [⟨10, 0, [], 0, 0⟩] } : Frame).minPayload 5 0).2 = none
      ∧ (({ buffers_ := [⟨10, 0, [], 0, 0⟩] } : Frame).minPayload 5 0).1.getPayload = 0 := by
  refine ⟨by decide, by decide, by decide⟩

/-- C9, the failing input: two buffers of size 10 holding 5 and 10 bytes, so
`getPayload()` is 15; `minPayload(12)` returns without error and
`getPayload()` is 20 afterwards. -/
theorem minPayload_changes_larger_payload :
    ({ buffers_ := [⟨10, 5, [], 0, 0⟩, ⟨10, 10, [], 0, 0⟩] } : Frame).getPayload = 15
      ∧ (({ buffers_ := [⟨10, 5, [], 0, 0⟩, ⟨10, 10, [], 0, 0⟩] } : Frame).minPayload 12 0).2 = none
      ∧ (({ buffers_ := [⟨10, 5, [], 0, 0⟩, ⟨10, 10, [], 0, 0⟩] } : Frame).minPayload 12 0).1.getPayload
          = 20 := by
  refine ⟨by decide, by decide, by decide⟩

/-! ## `MapMemory::findSpace` -/

/-- C10, the failing input: with the single mapping base 0x1000, size 0x100,
a 4-byte access at the base and a 4-byte access ending at the end of the
mapping are both inside it, and `findSpace` returns `NULL` for both; the
access one byte further in is served. -/
theorem findSpace_misses_base_and_end :
    hardware.MapMemory.findSpace { fd_ := 3, maps_ := [⟨4096, 256, 1000000⟩] } 4096 4 = none
      ∧ hardware.MapMemory.findSpace { fd_ := 3, maps_ := [⟨4096, 256, 1000000⟩] } 4348 4
          = none
      ∧ hardware.MapMemory.findSpace { fd_ := 3, maps_ := [⟨4096, 256, 1000000⟩] } 4097 4
          = some 1000001 := by
  refine ⟨by decide, by decide, by decide⟩

/-! ## `CoreV1::processFrame`: rejected frames -/

open batcher

theorem reset_eq (c : CoreV1) : c.reset = { } := rfl

theorem scan_false (f : Frame) (beg fuel mark rem : Nat) (c c1 : CoreV1)
    (h : CoreV1.scan f beg fuel mark rem c = some (false, c1)) : c1 = { } := by
  induction fuel generalizing mark rem c with
  | zero => simp [CoreV1.scan] at h
  | succ fuel ih =>
    simp only [CoreV1.scan] at h
    split_ifs at h with h1 h2 h3
    · simp only [reset_eq, Option.some.injEq, Prod.mk.injEq, true_and] at h
      exact h.symm
    · simp only [reset_eq, Option.some.injEq, Prod.mk.injEq, true_and] at h
      exact h.symm
    · exact ih _ _ _ h
    · simp at h

theorem processFrame_false (c c1 : CoreV1) (f : Frame)
    (h : c.processFrame f = some (false, c1)) : c1 = { } := by
  simp only [CoreV1.processFrame] at h
  split_ifs at h <;>
    first
    | exact scan_false _ _ _ _ _ _ _ h
    | (simp only [reset_eq, Option.some.injEq, Prod.mk.injEq, true_and] at h
       exact h.symm)

/-- C2: whenever `CoreV1::processFrame` returns false, for any frame and any
decoder state before the call, afterwards `count()`, `headerSize()`,
`tailSize()` and `sequence()` are 0 and `record(i)` and `tail(i)` throw their
boundary error for every index `i`. -/
theorem processFrame_false_exposes_nothing (c c1 : CoreV1) (f : Frame)
    (h : c.processFrame f = some (false, c1)) :
    c1.count = 0 ∧ c1.headerSize = 0 ∧ c1.tailSize = 0 ∧ c1.sequence = 0
      ∧ ∀ i : Nat, c1.record i = Except.error ⟨Source.coreV1Record, i, 0⟩
          ∧ c1.tail i = Except.error ⟨Source.coreV1Tail, i, 0⟩ := by
  have h1 := processFrame_false c c1 f h
  subst h1
  refine ⟨rfl, rfl, rfl, rfl, ?_⟩
  intro i
  constructor
  · simp [CoreV1.record]
  · simp [CoreV1.tail]

/-- Witness of C2: a decoder that holds the two records of scenario S5 is
given the S5 super-frame cut down to its first 20 bytes. -/
theorem processFrame_false_exposes_nothing_witness :
    Example.s5Decoder.count = 2
      ∧ Example.s5Decoder.processFrame
            (Example.frameOf ((Spec.encode 2 66 Example.s5Records).take 20))
          = some (false, { })
      ∧ ({ } : CoreV1).count = 0 ∧ ({ } : CoreV1).headerSize = 0 :=
  ⟨by decide, by decide,
    (processFrame_false_exposes_nothing Example.s5Decoder { }
      (Example.frameOf ((Spec.encode 2 66 Example.s5Records).take 20)) (by decide)).1,
    (processFrame_false_exposes_nothing Example.s5Decoder { }
      (Example.frameOf ((Spec.encode 2 66 Example.s5Records).take 20)) (by decide)).2.1⟩

theorem fromFrame_one (f : Frame) (pos : Nat) : fromFrame f pos 1 = f.readByte pos := by
  simp [fromFrame]

theorem readByte_lt (f : Frame) (pos : Nat) : f.readByte pos < 256 :=
  Nat.mod_lt _ (by decide)

/-- C3: `CoreV1::processFrame` returns false for every frame whose
`getError()` is non-zero, for every frame whose payload byte 0 has a low
nibble other than 1, and for every frame whose payload is smaller than
`W + max(W, 8)` with `W = 2 * 2 ^ (high nibble of byte 0)`. -/
theorem processFrame_rejects (c : CoreV1) (f : Frame)
    (h : f.getError ≠ 0 ∨ f.readByte 0 % 16 ≠ 1
      ∨ f.getPayload < 2 * 2 ^ (f.readByte 0 / 16) + max (2 * 2 ^ (f.readByte 0 / 16)) 8) :
    ∃ c1, c.processFrame f = some (false, c1) := by
  have hb := readByte_lt f 0
  have hdiv : f.readByte 0 / 16 % 16 = f.readByte 0 / 16 :=
    Nat.mod_eq_of_lt (by omega)
  simp only [CoreV1.processFrame, fromFrame_one, hdiv, pow_succ]
  by_cases h1 : f.getError ≠ 0
  · exact ⟨_, by rw [if_pos h1]⟩
  · rw [if_neg h1]
    by_cases h2 : f.getPayload < 16
    · exact ⟨_, by rw [if_pos h2]⟩
    · rw [if_neg h2]
      by_cases h3 : f.readByte 0 % 16 ≠ 1
      · exact ⟨_, by rw [if_pos h3]⟩
      · rw [if_neg h3]
        have h4 : f.getPayload
            < 2 * 2 ^ (f.readByte 0 / 16) + max (2 * 2 ^ (f.readByte 0 / 16)) 8 := by
          rcases h with h | h | h
          · exact absurd h h1
          · exact absurd h h3
          · exact h
        refine ⟨_, if_pos ?_⟩
        show f.getPayload < 2 ^ (f.readByte 0 / 16) * 2
          + (if 2 ^ (f.readByte 0 / 16) * 2 < 8 then 8 else 2 ^ (f.readByte 0 / 16) * 2)
        split_ifs with h5
        · rw [max_eq_right (by omega)] at h4; omega
        · rw [max_eq_left (by omega)] at h4; omega

/-- Witness of C3: a 16-byte frame that announces width 16 (byte 0 is 0x31)
is smaller than 16 + 16 and is turned down. -/
theorem processFrame_rejects_witness :
    ∃ c1, ({ } : CoreV1).processFrame
        (Example.frameOf [49, 0, 0, 0, 0, 0, 0, 0, 0, 0, 0, 0, 0, 0, 0, 0]) = some (false, c1) :=
  processFrame_rejects { } (Example.frameOf [49, 0, 0, 0, 0, 0, 0, 0, 0, 0, 0, 0, 0, 0, 0, 0])
    (Or.inr (Or.inr (by decide)))

/-! ## `CoreV1::processFrame`: accepted frames -/

theorem scan_tiled (f : Frame) (beg w ts e : Nat) (fuel mark rem : Nat) (c c1 : CoreV1)
    (hw : c.headerSize_ = w) (hts : c.tailSize_ = ts) (hmark : mark = beg + rem)
    (ht : Tiled w ts mark c.list_.reverse c.tails_.reverse e)
    (h : CoreV1.scan f beg fuel mark rem c = some (true, c1)) :
    Tiled w ts beg c1.list_.reverse c1.tails_.reverse e
      ∧ c1.headerSize_ = w ∧ c1.tailSize_ = ts ∧ c1.seq_ = c.seq_
      ∧ c1.frame_ = c.frame_ := by
  induction fuel generalizing mark rem c with
  | zero => simp [CoreV1.scan] at h
  | succ fuel ih =>
    simp only [CoreV1.scan] at h
    split_ifs at h with h1 h2 h3
    · simp at h
    · simp at h
    · have hm : mark - c.tailSize_ - CoreV1.fJump (fromFrame f (mark - c.tailSize_) 4)
            c.headerSize_
          = beg + (rem - c.tailSize_
            - CoreV1.fJump (fromFrame f (mark - c.tailSize_) 4) c.headerSize_) := by
        omega
      have h4 := ih _ _ _ (by exact hw) (by exact hts) (by exact hm)
        (by
          dsimp only
          simp only [List.reverse_append, List.reverse_cons, List.reverse_nil,
            List.nil_append, List.singleton_append, Tiled]
          refine ⟨trivial, ?_, ?_⟩
          · rw [hw]; rw [hw] at h3; omega
          · have h5 : mark - c.tailSize_ + ts = mark := by omega
            rw [h5]; exact ht) h
      exact h4
    · simp only [Option.some.injEq, Prod.mk.injEq, true_and] at h
      subst h
      have h5 : mark = beg := by omega
      subst h5
      exact ⟨ht, hw, hts, rfl, rfl⟩

theorem scan_from_header (f : Frame) (w ts fuel p : Nat) (c0 c1 : CoreV1)
    (hw : c0.headerSize_ = w) (hts : c0.tailSize_ = ts) (hl : c0.list_ = [])
    (htl : c0.tails_ = []) (h2 : 2 ≤ w) (hle : w + ts ≤ p)
    (h : CoreV1.scan f (2 + (w - 2)) fuel p (p - w) c0 = some (true, c1)) :
    Tiled w ts w c1.list_.reverse c1.tails_.reverse p
      ∧ c1.headerSize_ = w ∧ c1.tailSize_ = ts ∧ c1.seq_ = c0.seq_
      ∧ c1.frame_ = c0.frame_ := by
  have hbeg : 2 + (w - 2) = w := by omega
  rw [hbeg] at h
  exact scan_tiled f w w ts p fuel p (p - w) c0 c1 hw hts (by omega)
    (by simp [hl, htl, Tiled]) h

/-- What a successful `processFrame` establishes: the checks it passed, the
header fields, and the layout of the records it found. -/
theorem processFrame_true (c c1 : CoreV1) (f : Frame)
    (h : c.processFrame f = some (true, c1)) :
    f.getError = 0 ∧ 16 ≤ f.getPayload ∧ f.readByte 0 % 16 = 1
      ∧ c1.headerSize_ = 2 ^ (f.readByte 0 / 16 + 1)
      ∧ c1.tailSize_ = max c1.headerSize_ 8
      ∧ c1.seq_ = f.readByte 1
      ∧ c1.frame_ = none
      ∧ c1.headerSize_ + c1.tailSize_ ≤ f.getPayload
      ∧ Tiled c1.headerSize_ c1.tailSize_ c1.headerSize_ c1.list_.reverse c1.tails_.reverse
          f.getPayload := by
  have hb := readByte_lt f 0
  have hdiv : f.readByte 0 / 16 % 16 = f.readByte 0 / 16 :=
    Nat.mod_eq_of_lt (by omega)
  have hpos : 2 ≤ 2 ^ (f.readByte 0 / 16 + 1) := by
    have := Nat.one_le_two_pow (n := f.readByte 0 / 16)
    rw [pow_succ]; omega
  simp only [CoreV1.processFrame, fromFrame_one, hdiv] at h
  generalize 2 ^ (f.readByte 0 / 16 + 1) = w at h hpos ⊢
  by_cases h1 : f.getError ≠ 0
  · rw [if_pos h1] at h; simp at h
  rw [if_neg h1] at h
  by_cases h2 : f.getPayload < 16
  · rw [if_pos h2] at h; simp at h
  rw [if_neg h2] at h
  by_cases h3 : f.readByte 0 % 16 ≠ 1
  · rw [if_pos h3] at h; simp at h
  rw [if_neg h3] at h
  by_cases h4 : w < 8
  · simp only [if_pos h4] at h
    by_cases h5 : f.getPayload < w + 8
    · rw [if_pos h5] at h; simp at h
    rw [if_neg h5] at h
    obtain ⟨ht, hw, hts, hs, hf⟩ :=
      scan_from_header f w 8 _ _ _ c1 rfl rfl rfl rfl hpos (by omega) h
    refine ⟨by omega, by omega, by omega, hw, ?_, hs, hf, ?_, ?_⟩
    · rw [hw, hts, max_eq_right (by omega)]
    · rw [hw, hts]; omega
    · rw [hw, hts]; exact ht
  · simp only [if_neg h4] at h
    by_cases h5 : f.getPayload < w + w
    · rw [if_pos h5] at h; simp at h
    rw [if_neg h5] at h
    obtain ⟨ht, hw, hts, hs, hf⟩ :=
      scan_from_header f w w _ _ _ c1 rfl rfl rfl rfl hpos (by omega) h
    refine ⟨by omega, by omega, by omega, hw, ?_, hs, hf, ?_, ?_⟩
    · rw [hw, hts, max_eq_left (by omega)]
    · rw [hw, hts]; omega
    · rw [hw, hts]; exact ht

theorem getD_inverted {α : Type} (l : List α) (d : α) (i : Nat) (h : i < l.length) :
    l.getD (l.length - 1 - i) d = l.reverse.getD i d := by
  rw [List.getD_eq_getElem _ _ (by omega : l.length - 1 - i < l.length),
    List.getD_eq_getElem _ _ (by simpa using h : i < l.reverse.length),
    List.getElem_reverse]

theorem record_eq (c : CoreV1) (i : Nat) (h : i < c.list_.length) :
    c.record i = Except.ok (c.list_.reverse.getD i ⟨0, 0, 0, 0, 0⟩) := by
  simp only [CoreV1.record, if_neg (by omega : ¬ i ≥ c.list_.length)]
  rw [getD_inverted _ _ _ h]

theorem tail_eq (c : CoreV1) (i : Nat) (h : i < c.tails_.length) :
    c.tail i = Except.ok (c.tails_.reverse.getD i 0) := by
  simp only [CoreV1.tail, if_neg (by omega : ¬ i ≥ c.tails_.length)]
  rw [getD_inverted _ _ _ h]

theorem tiled_length (w ts : Nat) (ds : List Data) (tl : List Nat) (pos e : Nat)
    (h : Tiled w ts pos ds tl e) : ds.length = tl.length := by
  induction ds generalizing pos tl with
  | nil =>
    cases tl with
    | nil => rfl
    | cons t tl => simp [Tiled] at h
  | cons d ds ih =>
    cases tl with
    | nil => simp [Tiled] at h
    | cons t tl =>
      simp only [Tiled] at h
      simp [ih _ _ h.2.2]

theorem tiled_index (w ts : Nat) (ds : List Data) (tl : List Nat) (pos e : Nat)
    (h : Tiled w ts pos ds tl e) (dd : Data) :
    (0 < ds.length → (ds.getD 0 dd).start = pos)
      ∧ (∀ i, i < ds.length →
          tl.getD i 0 = (ds.getD i dd).start + CoreV1.fJump (ds.getD i dd).size w)
      ∧ (∀ i, i + 1 < ds.length → (ds.getD (i + 1) dd).start = tl.getD i 0 + ts) := by
  induction ds generalizing pos tl with
  | nil => simp
  | cons d ds ih =>
    cases tl with
    | nil => simp [Tiled] at h
    | cons t tl =>
      simp only [Tiled] at h
      obtain ⟨h1, h2, h3⟩ := h
      obtain ⟨i1, i2, i3⟩ := ih _ _ h3
      refine ⟨fun _ => by simpa using h1, ?_, ?_⟩
      · intro i hi
        cases i with
        | zero => simp [h1, h2]
        | succ i =>
          simp only [List.length_cons, Nat.add_lt_add_iff_right] at hi
          simpa using i2 i hi
      · intro i hi
        simp only [List.length_cons, Nat.add_lt_add_iff_right] at hi
        cases i with
        | zero => simpa using i1 (by omega)
        | succ i => simpa using i3 i hi

theorem tiled_nonempty (w ts : Nat) (ds : List Data) (tl : List Nat) (pos e : Nat)
    (h : Tiled w ts pos ds tl e) (hlt : pos < e) : 0 < ds.length := by
  cases ds with
  | nil =>
    cases tl with
    | nil => simp only [Tiled] at h; omega
    | cons t tl => simp [Tiled] at h
  | cons d ds => simp

/-- Wire order as the decoder computes it: after a successful `processFrame`
there is at least one record, `record(0)` starts at `headerSize()`, every
`tail(i)` lies the rewind amount `fJump(record(i).size, headerSize())` behind
the start of `record(i)`, and `record(i+1)` starts `tailSize()` behind
`tail(i)`. -/
theorem processFrame_wire_order (c c1 : CoreV1) (f : Frame)
    (h : c.processFrame f = some (true, c1)) :
    c1.list_.length = c1.tails_.length
      ∧ (∃ d, c1.record 0 = Except.ok d ∧ d.start = c1.headerSize)
      ∧ (∀ i, i < c1.list_.length → ∃ d t, c1.record i = Except.ok d
          ∧ c1.tail i = Except.ok t
          ∧ t = d.start + CoreV1.fJump d.size c1.headerSize)
      ∧ (∀ i, i + 1 < c1.list_.length → ∃ t d, c1.tail i = Except.ok t
          ∧ c1.record (i + 1) = Except.ok d ∧ d.start = t + c1.tailSize) := by
  obtain ⟨_, _, _, hw, hts, _, _, hle, ht⟩ := processFrame_true c c1 f h
  have hlen := tiled_length _ _ _ _ _ _ ht
  simp only [List.length_reverse] at hlen
  have hts8 : 8 ≤ c1.tailSize_ := by rw [hts]; exact le_max_right _ _
  have hne := tiled_nonempty _ _ _ _ _ _ ht (by omega)
  simp only [List.length_reverse] at hne
  obtain ⟨i1, i2, i3⟩ := tiled_index _ _ _ _ _ _ ht ⟨0, 0, 0, 0, 0⟩
  simp only [List.length_reverse] at i1 i2 i3
  refine ⟨hlen, ⟨_, record_eq c1 0 hne, i1 hne⟩, ?_, ?_⟩
  · intro i hi
    exact ⟨_, _, record_eq c1 i hi, tail_eq c1 i (by omega), i2 i hi⟩
  · intro i hi
    exact ⟨_, _, tail_eq c1 i (by omega), record_eq c1 (i + 1) hi, i3 i hi⟩

/-- The frame that breaks the exact round-up: width 8 (byte 0 is 0x21), then
one tail whose size field is 0xFFFFFFFF. -/
theorem overflowFrame_accepted :
    ({ } : CoreV1).processFrame
        (Example.frameOf [33, 0, 0, 0, 0, 0, 0, 0, 255, 255, 255, 255, 0, 0, 0, 0])
      = some (true, { list_ := [⟨8, 4294967295, 0, 0, 0⟩], tails_ := [8],
                      headerSize_ := 8, tailSize_ := 8, seq_ := 0 }) := by
  decide

/-! ## The round trip: decoding a packed super-frame -/

theorem roundUp_ge (n w : Nat) (hw : 0 < w) : n ≤ Spec.roundUp n w := by
  unfold Spec.roundUp
  have h := Nat.div_add_mod (n + w - 1) w
  have h3 := Nat.mod_lt (n + w - 1) hw
  have h4 : w * ((n + w - 1) / w) = (n + w - 1) / w * w := Nat.mul_comm _ _
  omega

theorem roundUp_eq (n w : Nat) (hw : 0 < w) :
    Spec.roundUp n w = if n % w = 0 then n else (n / w + 1) * w := by
  unfold Spec.roundUp
  have h := Nat.div_add_mod (n + w - 1) w
  have h3 := Nat.mod_lt (n + w - 1) hw
  have g := Nat.div_add_mod n w
  have g3 := Nat.mod_lt n hw
  split_ifs with h0
  · have hq : (n + w - 1) / w = n / w := by
      have a1 : (n + w - 1) / w < n / w + 1 := by
        apply Nat.lt_of_mul_lt_mul_left (a := w)
        rw [Nat.mul_add]; omega
      have a2 : n / w < (n + w - 1) / w + 1 := by
        apply Nat.lt_of_mul_lt_mul_left (a := w)
        rw [Nat.mul_add]; omega
      omega
    rw [hq, Nat.mul_comm]; omega
  · have hq : (n + w - 1) / w = n / w + 1 := by
      have a1 : (n + w - 1) / w < n / w + 2 := by
        apply Nat.lt_of_mul_lt_mul_left (a := w)
        rw [Nat.mul_add]; omega
      have a2 : n / w + 1 < (n + w - 1) / w + 1 := by
        apply Nat.lt_of_mul_lt_mul_left (a := w)
        rw [Nat.mul_add, Nat.mul_add]; omega
      omega
    rw [hq]

theorem fJump_eq_roundUp (n w : Nat) (hw : 0 < w) (h : Spec.roundUp n w < U32) :
    CoreV1.fJump n w = Spec.roundUp n w := by
  rw [roundUp_eq n w hw] at h ⊢
  unfold CoreV1.fJump
  split_ifs with h0
  · rfl
  · rw [if_neg h0] at h
    exact Nat.mod_eq_of_lt h

theorem encodeRecord_length (w : Nat) (hw : 0 < w) (r : Spec.Record) :
    (Spec.encodeRecord w r).length = Spec.roundUp r.payload.length w + max w 8 := by
  have h := roundUp_ge r.payload.length w hw
  have h8 : 8 ≤ max w 8 := le_max_right _ _
  simp only [Spec.encodeRecord, Spec.le32, List.length_append, List.length_replicate,
    List.length_cons, List.length_nil]
  omega

theorem readByte_at (f : Frame) (a : List Nat) (x : Nat) (rest : List Nat)
    (h : f.payloadBytes = a ++ x :: rest) : f.readByte a.length = x % 256 := by
  rw [Frame.readByte, h, List.getD_append_right _ _ _ _ (le_refl _)]
  simp

theorem read_tail (f : Frame) (a : List Nat) (b0 b1 b2 b3 b4 b5 b6 : Nat) (rest : List Nat)
    (h : f.payloadBytes = a ++ b0 :: b1 :: b2 :: b3 :: b4 :: b5 :: b6 :: rest) :
    fromFrame f a.length 4
        = b0 % 256 + 256 * (b1 % 256 + 256 * (b2 % 256 + 256 * (b3 % 256)))
      ∧ fromFrame f (a.length + 4) 1 = b4 % 256
      ∧ fromFrame f (a.length + 5) 1 = b5 % 256
      ∧ fromFrame f (a.length + 6) 1 = b6 % 256 := by
  have r0 := readByte_at f a b0 _ h
  have r1 := readByte_at f (a ++ [b0]) b1 _ (by simpa using h)
  have r2 := readByte_at f (a ++ [b0, b1]) b2 _ (by simpa using h)
  have r3 := readByte_at f (a ++ [b0, b1, b2]) b3 _ (by simpa using h)
  have r4 := readByte_at f (a ++ [b0, b1, b2, b3]) b4 _ (by simpa using h)
  have r5 := readByte_at f (a ++ [b0, b1, b2, b3, b4]) b5 _ (by simpa using h)
  have r6 := readByte_at f (a ++ [b0, b1, b2, b3, b4, b5]) b6 _ (by simpa using h)
  simp only [List.length_append, List.length_cons, List.length_nil] at r1 r2 r3 r4 r5 r6
  simp only [fromFrame, r0, r1, r2, r3, r4, r5, r6, Nat.mul_zero, Nat.add_zero]
  exact ⟨trivial, trivial, trivial, trivial⟩

theorem scan_step (f : Frame) (beg fuel mark rem : Nat) (c : CoreV1)
    (mark1 fSize dest fUser lUser mark2 rem2 : Nat)
    (h1 : mark ≠ beg) (h2 : c.tailSize_ ≤ rem) (hm1 : mark - c.tailSize_ = mark1)
    (hs : fromFrame f mark1 4 = fSize) (hd : fromFrame f (mark1 + 4) 1 = dest)
    (hfu : fromFrame f (mark1 + 5) 1 = fUser) (hlu : fromFrame f (mark1 + 6) 1 = lUser)
    (hj : CoreV1.fJump fSize c.headerSize_ ≤ rem - c.tailSize_)
    (hm2 : mark1 - CoreV1.fJump fSize c.headerSize_ = mark2)
    (hr2 : rem - c.tailSize_ - CoreV1.fJump fSize c.headerSize_ = rem2) :
    CoreV1.scan f beg (fuel + 1) mark rem c
      = CoreV1.scan f beg fuel mark2 rem2
          { c with tails_ := c.tails_ ++ [mark1],
                   list_ := c.list_ ++ [⟨mark2, fSize, dest, fUser, lUser⟩] } := by
  subst hm1 hs hd hfu hlu hm2 hr2
  simp only [CoreV1.scan]
  rw [if_pos h1, if_neg (by omega), if_neg (by omega)]

theorem layout_append (w : Nat) (rs : List Spec.Record) (r : Spec.Record) (pos : Nat) :
    Spec.layout w pos (rs ++ [r])
      = Spec.layout w pos rs
        ++ [⟨pos + (rs.flatMap (Spec.encodeRecord w)).length, r.payload.length, r.dest,
              r.fUser, r.lUser⟩] := by
  induction rs generalizing pos with
  | nil => simp [Spec.layout]
  | cons x xs ih =>
    simp [Spec.layout, ih, Nat.add_assoc]

theorem tailLayout_append (w : Nat) (rs : List Spec.Record) (r : Spec.Record) (pos : Nat) :
    Spec.tailLayout w pos (rs ++ [r])
      = Spec.tailLayout w pos rs
        ++ [pos + (rs.flatMap (Spec.encodeRecord w)).length
              + Spec.roundUp r.payload.length w] := by
  induction rs generalizing pos with
  | nil => simp [Spec.tailLayout]
  | cons x xs ih =>
    simp [Spec.tailLayout, ih, Nat.add_assoc]

theorem le32_value (n : Nat) (h : n < U32) :
    n % 256 % 256 + 256 * (n / 256 % 256 % 256
      + 256 * (n / 65536 % 256 % 256 + 256 * (n / 16777216 % 256 % 256))) = n := by
  unfold U32 at h
  omega

/-- The decoder loop on a packed run of records: started at the end of the
run it accepts, and it leaves the records and tails of the run, last one
first, behind what it already held. -/
theorem scan_encoded (f : Frame) (w : Nat) (hw : 0 < w) (pre : List Nat)
    (recs : List Spec.Record) :
    ∀ (post : List Nat) (fuel : Nat) (c : CoreV1),
      f.payloadBytes = pre ++ recs.flatMap (Spec.encodeRecord w) ++ post →
      (∀ r ∈ recs, r.dest < 256 ∧ r.fUser < 256 ∧ r.lUser < 256
        ∧ Spec.roundUp r.payload.length w < U32) →
      c.headerSize_ = w → c.tailSize_ = max w 8 → recs.length < fuel →
      CoreV1.scan f pre.length fuel
          (pre.length + (recs.flatMap (Spec.encodeRecord w)).length)
          (recs.flatMap (Spec.encodeRecord w)).length c
        = some (true,
            { c with list_ := c.list_ ++ (Spec.layout w pre.length recs).reverse,
                     tails_ := c.tails_ ++ (Spec.tailLayout w pre.length recs).reverse }) := by
  induction recs using List.reverseRecOn with
  | nil =>
    intro post fuel c _ _ _ _ hfuel
    cases fuel with
    | zero => omega
    | succ fuel => simp [CoreV1.scan, Spec.layout, Spec.tailLayout]
  | append_singleton rs r ih =>
    intro post fuel c hbytes hrec hcw hcts hfuel
    cases fuel with
    | zero => omega
    | succ fuel =>
      have hr := hrec r (by simp)
      obtain ⟨hd, hfu, hlu, hru⟩ := hr
      have hlen := encodeRecord_length w hw r
      have hge := roundUp_ge r.payload.length w hw
      have h8 : 8 ≤ max w 8 := le_max_right _ _
      have hsz : r.payload.length < U32 := by omega
      -- the bytes in front of the tail of `r`
      have hbytes2 : f.payloadBytes
          = (pre ++ rs.flatMap (Spec.encodeRecord w) ++ r.payload
              ++ List.replicate (Spec.roundUp r.payload.length w - r.payload.length) 0)
            ++ r.payload.length % 256 :: (r.payload.length / 256 % 256)
              :: (r.payload.length / 65536 % 256) :: (r.payload.length / 16777216 % 256)
              :: r.dest :: r.fUser :: r.lUser
              :: (Spec.lastValid r.payload.length w % 256
                  :: (List.replicate (max w 8 - 8) 0 ++ post)) := by
        rw [hbytes]
        simp [Spec.encodeRecord, Spec.le32, List.flatMap_append, List.append_assoc]
      have hrd := read_tail f _ _ _ _ _ _ _ _ _ hbytes2
      have hA : (pre ++ rs.flatMap (Spec.encodeRecord w) ++ r.payload
              ++ List.replicate (Spec.roundUp r.payload.length w - r.payload.length) 0).length
          = pre.length + (rs.flatMap (Spec.encodeRecord w)).length
            + Spec.roundUp r.payload.length w := by
        simp only [List.length_append, List.length_replicate]
        omega
      rw [hA, le32_value _ hsz, Nat.mod_eq_of_lt hd, Nat.mod_eq_of_lt hfu,
        Nat.mod_eq_of_lt hlu] at hrd
      obtain ⟨hr0, hr4, hr5, hr6⟩ := hrd
      have hfl : ((rs ++ [r]).flatMap (Spec.encodeRecord w)).length
          = (rs.flatMap (Spec.encodeRecord w)).length
            + (Spec.roundUp r.payload.length w + max w 8) := by
        simp [List.flatMap_append, hlen]
      have hj := fJump_eq_roundUp r.payload.length w hw hru
      rw [hfl]
      rw [scan_step f pre.length fuel _ _ c
        (pre.length + (rs.flatMap (Spec.encodeRecord w)).length
          + Spec.roundUp r.payload.length w)
        r.payload.length r.dest r.fUser r.lUser
        (pre.length + (rs.flatMap (Spec.encodeRecord w)).length)
        (rs.flatMap (Spec.encodeRecord w)).length
        (by omega) (by rw [hcts]; omega) (by rw [hcts]; omega) hr0 hr4 hr5 hr6
        (by rw [hcw, hcts, hj]; omega) (by rw [hcw, hj]; omega)
        (by rw [hcw, hcts, hj]; omega)]
      refine (ih (Spec.encodeRecord w r ++ post) fuel _ ?_ ?_ ?_ ?_ ?_).trans ?_
      · rw [hbytes]; simp [List.flatMap_append, List.append_assoc]
      · exact fun x hx => hrec x (by simp [hx])
      · exact hcw
      · exact hcts
      · simp only [List.length_append, List.length_cons, List.length_nil] at hfuel
        omega
      · simp [layout_append, tailLayout_append, List.reverse_append]

theorem payloadBytes_length (f : Frame) : f.payloadBytes.length = f.payloadSum := by
  unfold Frame.payloadBytes Frame.payloadSum
  induction f.buffers_ with
  | nil => simp
  | cons b bs ih =>
    simp only [List.flatMap_cons, List.length_append, List.map_cons, List.sum_cons, ih]
    simp [Buffer.bytes, Buffer.getPayload]

theorem flat_length_ge (w : Nat) (hw : 0 < w) (recs : List Spec.Record) :
    recs.length ≤ (recs.flatMap (Spec.encodeRecord w)).length
      ∧ ∀ r ∈ recs, (Spec.encodeRecord w r).length
          ≤ (recs.flatMap (Spec.encodeRecord w)).length := by
  induction recs with
  | nil => simp
  | cons x xs ih =>
    have hx := encodeRecord_length w hw x
    have h8 : 8 ≤ max w 8 := le_max_right _ _
    simp only [List.length_cons, List.flatMap_cons, List.length_append, List.mem_cons]
    refine ⟨by omega, ?_⟩
    rintro r (rfl | hr)
    · omega
    · have := ih.2 r hr
      omega

theorem layout_length (w : Nat) (recs : List Spec.Record) (pos : Nat) :
    (Spec.layout w pos recs).length = recs.length := by
  induction recs generalizing pos with
  | nil => rfl
  | cons x xs ih => simp [Spec.layout, ih]

theorem layout_getD (w : Nat) (recs : List Spec.Record) (pos i : Nat) (hi : i < recs.length)
    (dd : Data) :
    (Spec.layout w pos recs).getD i dd
      = ⟨pos + ((recs.take i).flatMap (Spec.encodeRecord w)).length,
          recs[i].payload.length, recs[i].dest, recs[i].fUser, recs[i].lUser⟩ := by
  induction recs generalizing pos i with
  | nil => simp at hi
  | cons x xs ih =>
    cases i with
    | zero => simp [Spec.layout]
    | succ i =>
      simp only [List.length_cons, Nat.add_lt_add_iff_right] at hi
      rw [Spec.layout, List.getD_cons_succ, ih _ i hi]
      simp only [List.take_succ_cons, List.flatMap_cons, List.length_append,
        List.getElem_cons_succ, Nat.add_assoc]

theorem slice_of_append {α : Type} (a p r : List α) :
    ((a ++ p ++ r).drop a.length).take p.length = p := by
  simp [List.append_assoc]

theorem encode_slice (k seq : Nat) (recs : List Spec.Record) (i : Nat) (hi : i < recs.length) :
    ((Spec.encode k seq recs).drop
        (2 ^ (k + 1) + ((recs.take i).flatMap (Spec.encodeRecord (2 ^ (k + 1)))).length)).take
      recs[i].payload.length = recs[i].payload := by
  have hW2 : 2 ≤ 2 ^ (k + 1) := by
    have := Nat.one_le_two_pow (n := k)
    rw [pow_succ]; omega
  have hsplit : recs = recs.take i ++ recs[i] :: recs.drop (i + 1) := by
    rw [← List.drop_eq_getElem_cons hi, List.take_append_drop]
  have hflat : recs.flatMap (Spec.encodeRecord (2 ^ (k + 1)))
      = (recs.take i).flatMap (Spec.encodeRecord (2 ^ (k + 1)))
        ++ (Spec.encodeRecord (2 ^ (k + 1)) recs[i]
          ++ (recs.drop (i + 1)).flatMap (Spec.encodeRecord (2 ^ (k + 1)))) := by
    conv_lhs => rw [hsplit]
    rw [List.flatMap_append, List.flatMap_cons]
  have henc : Spec.encode k seq recs
      = ([1 + 16 * k, seq] ++ List.replicate (2 ^ (k + 1) - 2) 0
          ++ (recs.take i).flatMap (Spec.encodeRecord (2 ^ (k + 1))))
        ++ recs[i].payload
        ++ (List.replicate
              (Spec.roundUp recs[i].payload.length (2 ^ (k + 1)) - recs[i].payload.length) 0
            ++ Spec.le32 recs[i].payload.length
            ++ [recs[i].dest, recs[i].fUser, recs[i].lUser,
                Spec.lastValid recs[i].payload.length (2 ^ (k + 1)) % 256]
            ++ List.replicate (max (2 ^ (k + 1)) 8 - 8) 0
            ++ (recs.drop (i + 1)).flatMap (Spec.encodeRecord (2 ^ (k + 1)))) := by
    unfold Spec.encode
    rw [hflat]
    simp only [Spec.encodeRecord, List.append_assoc]
  have hlen : ([1 + 16 * k, seq] ++ List.replicate (2 ^ (k + 1) - 2) 0
          ++ (recs.take i).flatMap (Spec.encodeRecord (2 ^ (k + 1)))).length
      = 2 ^ (k + 1) + ((recs.take i).flatMap (Spec.encodeRecord (2 ^ (k + 1)))).length := by
    simp only [List.length_append, List.length_cons, List.length_nil, List.length_replicate]
    omega
  rw [henc, ← hlen]
  exact slice_of_append _ _ _

/-- The decoder state after `processFrame` on a packed super-frame of at
least 16 bytes. -/
theorem processFrame_encode (c : CoreV1) (f : Frame) (k seq : Nat) (recs : List Spec.Record)
    (hk : k < 16) (hseq : seq < 256) (hne : recs ≠ [])
    (hfields : ∀ r ∈ recs, r.dest < 256 ∧ r.fUser < 256 ∧ r.lUser < 256)
    (herr : f.getError = 0)
    (hbytes : f.payloadBytes = Spec.encode k seq recs)
    (h16 : 16 ≤ (Spec.encode k seq recs).length)
    (h32 : (Spec.encode k seq recs).length < U32) :
    c.processFrame f = some (true,
      { list_ := (Spec.layout (2 ^ (k + 1)) (2 ^ (k + 1)) recs).reverse,
        tails_ := (Spec.tailLayout (2 ^ (k + 1)) (2 ^ (k + 1)) recs).reverse,
        headerSize_ := 2 ^ (k + 1), tailSize_ := max (2 ^ (k + 1)) 8, seq_ := seq }) := by
  have hW2 : 2 ≤ 2 ^ (k + 1) := by
    have := Nat.one_le_two_pow (n := k)
    rw [pow_succ]; omega
  have hp : f.getPayload = (Spec.encode k seq recs).length := by
    rw [Frame.getPayload_eq, ← payloadBytes_length, hbytes, Nat.mod_eq_of_lt h32]
  have hb0 : f.readByte 0 = 1 + 16 * k := by
    have h := readByte_at f [] (1 + 16 * k) _ (by rw [hbytes]; rfl)
    simp only [List.length_nil] at h
    rw [h]; omega
  have hb1 : f.readByte 1 = seq := by
    have h := readByte_at f [1 + 16 * k] seq _ (by rw [hbytes]; rfl)
    simp only [List.length_cons, List.length_nil] at h
    rw [h]; omega
  have hm16 : (1 + 16 * k) % 16 = 1 := by omega
  have hd16 : (1 + 16 * k) / 16 % 16 = k := by omega
  obtain ⟨hfl1, hfl2⟩ := flat_length_ge (2 ^ (k + 1)) (by omega) recs
  have hpre : ([1 + 16 * k, seq] ++ List.replicate (2 ^ (k + 1) - 2) 0).length
      = 2 ^ (k + 1) := by
    simp only [List.length_append, List.length_cons, List.length_nil, List.length_replicate]
    omega
  have hlen : (Spec.encode k seq recs).length
      = 2 ^ (k + 1) + (recs.flatMap (Spec.encodeRecord (2 ^ (k + 1)))).length := by
    unfold Spec.encode
    rw [List.length_append, hpre]
  have hrec : ∀ r ∈ recs, r.dest < 256 ∧ r.fUser < 256 ∧ r.lUser < 256
      ∧ Spec.roundUp r.payload.length (2 ^ (k + 1)) < U32 := by
    intro r hr
    obtain ⟨a, b, d⟩ := hfields r hr
    have h1 := hfl2 r hr
    have h2 := encodeRecord_length (2 ^ (k + 1)) (by omega) r
    exact ⟨a, b, d, by omega⟩
  have hone : max (2 ^ (k + 1)) 8 ≤ (recs.flatMap (Spec.encodeRecord (2 ^ (k + 1)))).length := by
    cases recs with
    | nil => exact absurd rfl hne
    | cons x xs =>
      have h1 := hfl2 x (by simp)
      have h2 := encodeRecord_length (2 ^ (k + 1)) (by omega) x
      omega
  have hts : (if 2 ^ (k + 1) < 8 then 8 else 2 ^ (k + 1)) = max (2 ^ (k + 1)) 8 := by
    split_ifs with h
    · rw [max_eq_right (by omega)]
    · rw [max_eq_left (by omega)]
  have hscan := scan_encoded f (2 ^ (k + 1)) (by omega)
    ([1 + 16 * k, seq] ++ List.replicate (2 ^ (k + 1) - 2) 0) recs []
    ((recs.flatMap (Spec.encodeRecord (2 ^ (k + 1)))).length + 1)
    { headerSize_ := 2 ^ (k + 1), tailSize_ := max (2 ^ (k + 1)) 8, seq_ := seq }
    (by rw [hbytes, List.append_nil]; rfl) hrec rfl rfl (by omega)
  rw [hpre] at hscan
  simp only [CoreV1.processFrame, fromFrame_one, hb0, hb1, hp, hm16, hd16, reset_eq, hts]
  rw [if_neg (by simp [herr]), if_neg (by omega), if_neg (by simp), if_neg (by omega)]
  have hbeg : 2 + (2 ^ (k + 1) - 2) = 2 ^ (k + 1) := by omega
  have hrem : (Spec.encode k seq recs).length - 2 ^ (k + 1)
      = (recs.flatMap (Spec.encodeRecord (2 ^ (k + 1)))).length := by omega
  rw [hbeg, hrem, hlen, hscan]
  simp

/-- C1 (amended): for every width `W = 2 * 2 ^ k` with `k` in 0..15, every
sequence byte and every non-empty list of records with one-byte `dest`,
`fUser` and `lUser`, if the super-frame built per the wire format is at least
16 bytes long (and shorter than 2^32), then on any error-free frame whose
payload is that super-frame `CoreV1::processFrame` returns true, `count()` is
the number of records, `sequence()` is the sequence byte, and `record(i)`
carries the size, `dest`, `fUser` and `lUser` of the i-th record and the
position of its payload bytes, which are the record's bytes, in the original
order. -/
theorem batcher_round_trip (c : CoreV1) (f : Frame) (k seq : Nat) (recs : List Spec.Record)
    (hk : k < 16) (hseq : seq < 256) (hne : recs ≠ [])
    (hfields : ∀ r ∈ recs, r.dest < 256 ∧ r.fUser < 256 ∧ r.lUser < 256)
    (herr : f.getError = 0)
    (hbytes : f.payloadBytes = Spec.encode k seq recs)
    (h16 : 16 ≤ (Spec.encode k seq recs).length)
    (h32 : (Spec.encode k seq recs).length < U32) :
    ∃ c1, c.processFrame f = some (true, c1)
      ∧ c1.count = recs.length ∧ c1.sequence = seq ∧ c1.headerSize = 2 ^ (k + 1)
      ∧ ∀ (i : Nat) (hi : i < recs.length),
          c1.record i = Except.ok
              ⟨2 ^ (k + 1) + ((recs.take i).flatMap (Spec.encodeRecord (2 ^ (k + 1)))).length,
                recs[i].payload.length, recs[i].dest, recs[i].fUser, recs[i].lUser⟩
            ∧ (f.payloadBytes.drop
                  (2 ^ (k + 1)
                    + ((recs.take i).flatMap (Spec.encodeRecord (2 ^ (k + 1)))).length)).take
                recs[i].payload.length = recs[i].payload := by
  have hpf := processFrame_encode c f k seq recs hk hseq hne hfields herr hbytes h16 h32
  have hW2 : 2 ≤ 2 ^ (k + 1) := by
    have := Nat.one_le_two_pow (n := k)
    rw [pow_succ]; omega
  obtain ⟨hfl1, _⟩ := flat_length_ge (2 ^ (k + 1)) (by omega) recs
  have hpre : ([1 + 16 * k, seq] ++ List.replicate (2 ^ (k + 1) - 2) 0).length
      = 2 ^ (k + 1) := by
    simp only [List.length_append, List.length_cons, List.length_nil, List.length_replicate]
    omega
  have hlen : (Spec.encode k seq recs).length
      = 2 ^ (k + 1) + (recs.flatMap (Spec.encodeRecord (2 ^ (k + 1)))).length := by
    unfold Spec.encode
    rw [List.length_append, hpre]
  refine ⟨_, hpf, ?_, rfl, rfl, ?_⟩
  · simp only [CoreV1.count, List.length_reverse, layout_length]
    exact Nat.mod_eq_of_lt (by omega)
  · intro i hi
    constructor
    · rw [record_eq _ i (by simpa [layout_length] using hi)]
      simp only [List.reverse_reverse]
      rw [layout_getD _ _ _ _ hi]
    · rw [hbytes]
      exact encode_slice k seq recs i hi

/-- Witness of C1 (amended), scenario S5: width 8, sequence 0x42, a 12-byte
record of 'A' with dest 1, fUser 2, lUser 3 and a 5-byte record of 'B' with
dest 7, the 48-byte super-frame being spread over two buffers. -/
theorem batcher_round_trip_witness :
    ({ } : CoreV1).processFrame Example.s5Frame = some (true, Example.s5Decoder)
      ∧ ∃ c1, ({ } : CoreV1).processFrame Example.s5Frame = some (true, c1)
        ∧ c1.count = Example.s5Records.length ∧ c1.sequence = 66
        ∧ c1.headerSize = 2 ^ (2 + 1)
        ∧ ∀ (i : Nat) (hi : i < Example.s5Records.length),
            c1.record i = Except.ok
                ⟨2 ^ (2 + 1) + ((Example.s5Records.take i).flatMap
                    (Spec.encodeRecord (2 ^ (2 + 1)))).length,
                  Example.s5Records[i].payload.length, Example.s5Records[i].dest,
                  Example.s5Records[i].fUser, Example.s5Records[i].lUser⟩
              ∧ (Example.s5Frame.payloadBytes.drop
                    (2 ^ (2 + 1) + ((Example.s5Records.take i).flatMap
                      (Spec.encodeRecord (2 ^ (2 + 1)))).length)).take
                  Example.s5Records[i].payload.length = Example.s5Records[i].payload :=
  ⟨by decide,
    batcher_round_trip { } Example.s5Frame 2 66 Example.s5Records (by decide) (by decide)
      (by decide) (by decide) (by decide) (by decide) (by decide) (by decide)⟩

/-- C1, counterexample: the super-frame of width 2 that packs one empty
record, and the one of width 4, are built per the wire format (10 and 12
bytes) and `processFrame` returns false on them, because it drops every frame
shorter than 16 bytes. -/
theorem batcher_round_trip_fails_below_16 :
    (Spec.encode 0 7 [⟨[], 1, 2, 3⟩]).length = 10
      ∧ ({ } : CoreV1).processFrame (Example.frameOf (Spec.encode 0 7 [⟨[], 1, 2, 3⟩]))
          = some (false, { })
      ∧ (Spec.encode 1 7 [⟨[], 1, 2, 3⟩]).length = 12
      ∧ ({ } : CoreV1).processFrame (Example.frameOf (Spec.encode 1 7 [⟨[], 1, 2, 3⟩]))
          = some (false, { }) := by
  refine ⟨by decide, by decide, by decide, by decide⟩

/-- C4, the failing input: on the 16-byte frame of width 8 whose only tail
has the size field 0xFFFFFFFF, `processFrame` returns true, `record(0)`
starts at 8 with size 4294967295 and `tail(0)` is at 8 as well, not at
8 + roundUp(4294967295, 8) = 8 + 4294967296: the 32-bit rewind amount
wrapped to 0. -/
theorem wire_order_breaks_on_size_overflow :
    ∃ c1, ({ } : CoreV1).processFrame
          (Example.frameOf [33, 0, 0, 0, 0, 0, 0, 0, 255, 255, 255, 255, 0, 0, 0, 0])
        = some (true, c1)
      ∧ c1.record 0 = Except.ok ⟨8, 4294967295, 0, 0, 0⟩
      ∧ c1.tail 0 = Except.ok 8
      ∧ CoreV1.fJump 4294967295 c1.headerSize = 0
      ∧ Spec.roundUp 4294967295 c1.headerSize = 4294967296 :=
  ⟨_, overflowFrame_accepted, rfl, rfl, by decide, by decide⟩

/-! ## `CoreV1::processFrame` always returns -/

theorem scan_total (f : Frame) (beg fuel mark rem : Nat) (c : CoreV1)
    (hts : 0 < c.tailSize_) (hfuel : rem < fuel) :
    ∃ r, CoreV1.scan f beg fuel mark rem c = some r := by
  induction fuel generalizing mark rem c with
  | zero => omega
  | succ fuel ih =>
    simp only [CoreV1.scan]
    split_ifs with h1 h2 h3
    · exact ⟨_, rfl⟩
    · exact ⟨_, rfl⟩
    · exact ih _ _ _ hts (by omega)
    · exact ⟨_, rfl⟩

/-- The fuel handed to the loop is always enough: `processFrame` returns a
value on every frame and from every decoder state. -/
theorem processFrame_total (c : CoreV1) (f : Frame) :
    ∃ r, c.processFrame f = some r := by
  simp only [CoreV1.processFrame]
  split_ifs <;>
    first
    | exact ⟨_, rfl⟩
    | exact scan_total _ _ _ _ _ _ (by dsimp only; omega) (by omega)

/-! ## `MapMemory::doTransaction` and `MapMemory::close` -/

open hardware

theorem memcpy_round_trip (mem : Nat → Nat) (ptr : Nat) (data : List Nat) :
    memcpyFrom (memcpyTo mem ptr data data.length) ptr data.length = data := by
  apply List.ext_getElem
  · simp [memcpyFrom]
  · intro i h1 h2
    simp only [memcpyFrom, List.length_map, List.length_range] at h1
    simp only [memcpyFrom, memcpyTo, List.getElem_map, List.getElem_range]
    rw [if_pos ⟨by omega, by omega⟩, Nat.add_sub_cancel_left, List.getD_eq_getElem _ _ h2]

theorem findSpace_mapped (mm : MapMemory) (base size p : Nat)
    (h : mm.findSpace base size = some p) (hw : base + size < U32) :
    mm.mapped p size = true := by
  obtain ⟨m, hm, hp, hb, hs⟩ : ∃ m ∈ mm.maps_, p = m.ptr + (base - m.base) ∧ m.base < base
      ∧ ((base - m.base) + size) % U32 < m.size := by
    have hgen : ∀ maps : List Map, MapMemory.findSpaceLoop maps base size = some p →
        ∃ m ∈ maps, p = m.ptr + (base - m.base) ∧ m.base < base
          ∧ ((base - m.base) + size) % U32 < m.size := by
      intro maps
      induction maps with
      | nil => intro h0; simp [MapMemory.findSpaceLoop] at h0
      | cons m ms ih =>
        intro h0
        simp only [MapMemory.findSpaceLoop] at h0
        split_ifs at h0 with hc
        · simp only [Option.some.injEq] at h0
          exact ⟨m, List.mem_cons_self _ _, h0.symm, hc.1, hc.2⟩
        · obtain ⟨x, hx, r⟩ := ih h0
          exact ⟨x, List.mem_cons_of_mem _ hx, r⟩
    exact hgen mm.maps_ h
  have hlt : (base - m.base) + size < U32 := by omega
  rw [Nat.mod_eq_of_lt hlt] at hs
  simp only [MapMemory.mapped, List.any_eq_true, decide_eq_true_eq]
  exact ⟨m, hm, by omega, by omega⟩

/-- What `doTransaction` does when `findSpace` returns `NULL`: one call of
`complete`, with code 1; neither the memory nor the data region is changed. -/
theorem doTransaction_no_mapping (mm : MapMemory) (mem : Nat → Nat)
    (write posted : Bool) (block : Block)
    (h : mm.findSpace (block.address % U32) (block.size % U32) = none) :
    mm.doTransaction mem write posted block = some (mem, block.complete 1) := by
  simp [MapMemory.doTransaction, h]

/-- What `doTransaction` does when `findSpace` returns a pointer and the
bytes to copy lie inside a mapped region: the copy, then one call of
`complete`, with code 0. -/
theorem doTransaction_inside (mm : MapMemory) (mem : Nat → Nat)
    (write posted : Bool) (block : Block) (ptr : Nat)
    (h : mm.findSpace (block.address % U32) (block.size % U32) = some ptr)
    (hm : mm.mapped ptr block.size = true) :
    mm.doTransaction mem write posted block
      = some (if write then (memcpyTo mem ptr block.data block.size, block.complete 0)
          else (mem, ({ block with data := memcpyFrom mem ptr block.size }).complete 0)) := by
  cases write <;> simp [MapMemory.doTransaction, h, hm]

/-- What `doTransaction` does when `findSpace` returns a pointer and the
bytes to copy do not lie inside a mapped region: no defined outcome. -/
theorem doTransaction_outside (mm : MapMemory) (mem : Nat → Nat)
    (write posted : Bool) (block : Block) (ptr : Nat)
    (h : mm.findSpace (block.address % U32) (block.size % U32) = some ptr)
    (hm : mm.mapped ptr block.size = false) :
    mm.doTransaction mem write posted block = none := by
  simp [MapMemory.doTransaction, h, hm]

/-- Every transaction of a 32-bit address and length whose exact sum stays
below 2^32 is completed exactly once: with code 1 and nothing copied when
`findSpace` finds no mapping, with code 0 after the copy when it finds one. -/
theorem doTransaction_completes_once_without_wrap (mm : MapMemory) (mem : Nat → Nat)
    (write posted : Bool) (block : Block)
    (hw : block.address + block.size < U32) :
    ∃ r, mm.doTransaction mem write posted block = some r
      ∧ r.2.completed.length = block.completed.length + 1
      ∧ (mm.findSpace (block.address % U32) (block.size % U32) = none →
          r.2.completed = block.completed ++ [1] ∧ r.1 = mem ∧ r.2.data = block.data)
      ∧ (∀ ptr, mm.findSpace (block.address % U32) (block.size % U32) = some ptr →
          r.2.completed = block.completed ++ [0]
            ∧ (write = true → r.1 = memcpyTo mem ptr block.data block.size)
            ∧ (write = false → r.2.data = memcpyFrom mem ptr block.size)) := by
  have ha : block.address % U32 = block.address := Nat.mod_eq_of_lt (by omega)
  have hs : block.size % U32 = block.size := Nat.mod_eq_of_lt (by omega)
  cases hf : mm.findSpace (block.address % U32) (block.size % U32) with
  | none =>
    refine ⟨_, doTransaction_no_mapping mm mem write posted block hf, ?_, ?_, ?_⟩
    · simp [Block.complete]
    · intro _; exact ⟨rfl, rfl, rfl⟩
    · intro ptr hp; exact absurd hp (by simp)
  | some ptr =>
    have hm : mm.mapped ptr block.size = true := by
      rw [ha, hs] at hf
      exact findSpace_mapped mm block.address block.size ptr hf hw
    refine ⟨_, doTransaction_inside mm mem write posted block ptr hf hm, ?_, ?_, ?_⟩
    · cases write <;> simp [Block.complete]
    · intro h0; exact absurd h0 (by simp)
    · intro q hq
      have hq2 : q = ptr := by
        simp only [Option.some.injEq] at hq; exact hq.symm
      subst hq2
      cases write <;> simp [Block.complete]

/-- C11, the failing input: one mapping {base 0, size 0x100}; for the address
0x10 and the length 0xFFFFFFF8 `findSpace` returns a pointer (the 32-bit sum
wraps to 8), the 0xFFFFFFF8 bytes at that pointer do not lie inside the
256-byte region, so the `memcpy` of either direction leaves the mapped
memory: the call has no defined outcome and `block->complete` is not reached,
where the claim wants exactly one call of it. -/
theorem doTransaction_no_disposition_on_wrapped_range :
    MapMemory.findSpace { fd_ := 3, maps_ := [⟨0, 256, 1000000⟩] } (16 % U32) (4294967288 % U32)
        = some 1000016
      ∧ MapMemory.mapped { fd_ := 3, maps_ := [⟨0, 256, 1000000⟩] } 1000016 4294967288 = false
      ∧ (∀ mem D, MapMemory.doTransaction { fd_ := 3, maps_ := [⟨0, 256, 1000000⟩] } mem
          false false ⟨16, 4294967288, D, []⟩ = none)
      ∧ (∀ mem D, MapMemory.doTransaction { fd_ := 3, maps_ := [⟨0, 256, 1000000⟩] } mem
          true false ⟨16, 4294967288, D, []⟩ = none) := by
  have hf : MapMemory.findSpace { fd_ := 3, maps_ := [⟨0, 256, 1000000⟩] } (16 % U32)
      (4294967288 % U32) = some 1000016 := by decide
  have hm : MapMemory.mapped { fd_ := 3, maps_ := [⟨0, 256, 1000000⟩] } 1000016 4294967288
      = false := by decide
  exact ⟨hf, hm,
    fun mem D => doTransaction_outside _ mem false false ⟨16, 4294967288, D, []⟩ 1000016 hf hm,
    fun mem D => doTransaction_outside _ mem true false ⟨16, 4294967288, D, []⟩ 1000016 hf hm⟩

/-- When the bytes to copy lie inside a mapped region, a write transaction
carrying the bytes `D` followed by a read transaction of the same address and
length leaves exactly `D` in the reading block's data region; both are
completed with code 0, the write changes no byte of the memory outside the
`len` bytes at the pointer `findSpace` returned and the read changes no byte
of the memory. -/
theorem round_trip_inside (mm : MapMemory) (mem : Nat → Nat) (p1 p2 : Bool)
    (wb rb : Block) (ptr : Nat)
    (hfind : mm.findSpace (wb.address % U32) (wb.size % U32) = some ptr)
    (hm : mm.mapped ptr wb.size = true)
    (haddr : rb.address = wb.address) (hsize : rb.size = wb.size)
    (hD : wb.data.length = wb.size) :
    ∃ w r, mm.doTransaction mem true p1 wb = some w
      ∧ mm.doTransaction w.1 false p2 rb = some r
      ∧ r.2.data = wb.data
      ∧ w.2.completed = wb.completed ++ [0]
      ∧ r.2.completed = rb.completed ++ [0]
      ∧ (∀ a, ¬ (ptr ≤ a ∧ a < ptr + wb.size) → w.1 a = mem a)
      ∧ r.1 = w.1 := by
  have hfind2 : mm.findSpace (rb.address % U32) (rb.size % U32) = some ptr := by
    rw [haddr, hsize]; exact hfind
  have hm2 : mm.mapped ptr rb.size = true := by rw [hsize]; exact hm
  have hw := doTransaction_inside mm mem true p1 wb ptr hfind hm
  have hr := doTransaction_inside mm (memcpyTo mem ptr wb.data wb.size) false p2 rb ptr
    hfind2 hm2
  simp only [if_true] at hw
  simp only [Bool.false_eq_true, if_false] at hr
  refine ⟨_, _, hw, hr, ?_, rfl, rfl, ?_, rfl⟩
  · show memcpyFrom (memcpyTo mem ptr wb.data wb.size) ptr rb.size = wb.data
    rw [hsize, ← hD]
    exact memcpy_round_trip mem ptr wb.data
  · intro a ha
    show memcpyTo mem ptr wb.data wb.size a = mem a
    simp only [memcpyTo, if_neg ha]

/-- The round trip on one mapping of 256 bytes at base 0x1000: the bytes
1, 2, 3, 4 are written at 0x1010 and read back. -/
theorem round_trip_inside_example :
    ∃ w r, ({ fd_ := 3, maps_ := [⟨4096, 256, 1000000⟩] } : MapMemory).doTransaction
          (fun _ => 0) true false ⟨4112, 4, [1, 2, 3, 4], []⟩ = some w
      ∧ ({ fd_ := 3, maps_ := [⟨4096, 256, 1000000⟩] } : MapMemory).doTransaction
          w.1 false false ⟨4112, 4, [0, 0, 0, 0], []⟩ = some r
      ∧ r.2.data = [1, 2, 3, 4] := by
  obtain ⟨w, r, h1, h2, h3, _⟩ :=
    round_trip_inside { fd_ := 3, maps_ := [⟨4096, 256, 1000000⟩] } (fun _ => 0)
      false false ⟨4112, 4, [1, 2, 3, 4], []⟩ ⟨4112, 4, [0, 0, 0, 0], []⟩ 1000016
      (by decide) (by decide) rfl rfl rfl
  exact ⟨w, r, h1, h2, h3⟩

/-- C12, the failing input: one mapping {base 0, size 0x100}, address 0x10
and length 0xFFFFFFF8.  `findSpace` finds the mapping, for the write and for
the read alike, but the write transaction that opens the round trip copies
0xFFFFFFF8 bytes to offset 0x10 of a 256-byte region: the `memcpy` leaves the
mapped memory, the call has no defined outcome, nothing is completed with
code 0 and there is no data to read back. -/
theorem round_trip_undefined_on_wrapped_range :
    MapMemory.findSpace { fd_ := 3, maps_ := [⟨0, 256, 1000000⟩] } (16 % U32) (4294967288 % U32)
        = some 1000016
      ∧ ¬ (1000016 + 4294967288 ≤ 1000000 + 256)
      ∧ (∀ mem D, MapMemory.doTransaction { fd_ := 3, maps_ := [⟨0, 256, 1000000⟩] } mem
          true false ⟨16, 4294967288, D, []⟩ = none)
      ∧ (∀ mem D, MapMemory.doTransaction { fd_ := 3, maps_ := [⟨0, 256, 1000000⟩] } mem
          false false ⟨16, 4294967288, D, []⟩ = none) := by
  have hf : MapMemory.findSpace { fd_ := 3, maps_ := [⟨0, 256, 1000000⟩] } (16 % U32)
      (4294967288 % U32) = some 1000016 := by decide
  have hm : MapMemory.mapped { fd_ := 3, maps_ := [⟨0, 256, 1000000⟩] } 1000016 4294967288
      = false := by decide
  exact ⟨hf, by decide,
    fun mem D => doTransaction_outside _ mem true false ⟨16, 4294967288, D, []⟩ 1000016 hf hm,
    fun mem D => doTransaction_outside _ mem false false ⟨16, 4294967288, D, []⟩ 1000016 hf hm⟩

/-- C13: after `MapMemory::close()` on an opened device, whatever mappings it
had, the mapping list is empty and every transaction, whatever its address,
length and direction, is completed once with the non-zero code 1 and copies
nothing: the memory and the block's data region stay as they were. -/
theorem close_then_every_transaction_fails (mm : MapMemory) (hopen : 0 ≤ mm.fd_)
    (mem : Nat → Nat) (write posted : Bool) (block : Block) :
    mm.close.maps_ = []
      ∧ ∃ r, mm.close.doTransaction mem write posted block = some r
        ∧ r.2.completed = block.completed ++ [1]
        ∧ r.1 = mem
        ∧ r.2.data = block.data := by
  have hc : mm.close = { mm with maps_ := [] } := by
    simp [MapMemory.close, not_lt.mpr hopen]
  rw [hc]
  refine ⟨rfl, (mem, block.complete 1), ?_, rfl, rfl, rfl⟩
  simp [MapMemory.doTransaction, MapMemory.findSpace, MapMemory.findSpaceLoop]

/-- Witness of C13: a device with descriptor 3 and one mapping; after
`close()` a write inside the former mapping is completed with code 1. -/
theorem close_then_every_transaction_fails_witness :
    ∃ r, ({ fd_ := 3, maps_ := [⟨4096, 256, 1000000⟩] } : MapMemory).close.doTransaction
        (fun _ => 0) true false ⟨4112, 4, [1, 2, 3, 4], []⟩ = some r
      ∧ r.2.completed = [] ++ [1] := by
  obtain ⟨r, h1, h2, _⟩ :=
    (close_then_every_transaction_fails { fd_ := 3, maps_ := [⟨4096, 256, 1000000⟩] }
      (by decide) (fun _ => 0) true false ⟨4112, 4, [1, 2, 3, 4], []⟩).2
  exact ⟨r, h1, h2⟩

/-! ## Frame totals -/

theorem Frame.getAvailable_eq (f : Frame) : f.getAvailable = f.availableSum % U32 := by
  have h := foldl_add_mod Buffer.getAvailable f.buffers_ 0
  simpa [Frame.getAvailable, Frame.availableSum] using h

/-- C14 (amended): for frames `a` and `b`, after `a.appendFrame(b)` the buffer
list of `a` is its previous list followed by the buffers of `b` in their
order, unchanged, and the flags and the error of `a` are as before;
`getSize()`, `getPayload()` and `getAvailable()` of `a` each grow by the
value of `b` modulo 2^32, hence by exactly that value whenever the exact
total of the two frames is below 2^32; `appendBuffer(x)` adds exactly `x` at
the end of the list. -/
theorem appendFrame_concatenates (a b : Frame) (x : Buffer) :
    (a.appendFrame b).buffers_ = a.buffers_ ++ b.buffers_
      ∧ (a.appendFrame b).flags_ = a.flags_ ∧ (a.appendFrame b).error_ = a.error_
      ∧ (a.appendFrame b).getSize = (a.getSize + b.getSize) % U32
      ∧ (a.appendFrame b).getPayload = (a.getPayload + b.getPayload) % U32
      ∧ (a.appendFrame b).getAvailable = (a.getAvailable + b.getAvailable) % U32
      ∧ (a.capacity + b.capacity < U32 →
          (a.appendFrame b).getSize = a.getSize + b.getSize)
      ∧ (a.payloadSum + b.payloadSum < U32 →
          (a.appendFrame b).getPayload = a.getPayload + b.getPayload)
      ∧ (a.availableSum + b.availableSum < U32 →
          (a.appendFrame b).getAvailable = a.getAvailable + b.getAvailable)
      ∧ (a.appendBuffer x).buffers_ = a.buffers_ ++ [x]
      ∧ (a.appendBuffer x).flags_ = a.flags_ ∧ (a.appendBuffer x).error_ = a.error_ := by
  have hs : (a.appendFrame b).capacity = a.capacity + b.capacity := by
    simp [Frame.appendFrame, Frame.capacity]
  have hp : (a.appendFrame b).payloadSum = a.payloadSum + b.payloadSum := by
    simp [Frame.appendFrame, Frame.payloadSum]
  have ha : (a.appendFrame b).availableSum = a.availableSum + b.availableSum := by
    simp [Frame.appendFrame, Frame.availableSum]
  simp only [Frame.getSize_eq, Frame.getPayload_eq, Frame.getAvailable_eq, hs, hp, ha]
  refine ⟨rfl, rfl, rfl, ?_, ?_, ?_, ?_, ?_, ?_, rfl, rfl, rfl⟩
  · rw [Nat.add_mod]
  · rw [Nat.add_mod]
  · rw [Nat.add_mod]
  · intro h
    rw [Nat.mod_eq_of_lt h, Nat.mod_eq_of_lt (by omega), Nat.mod_eq_of_lt (by omega)]
  · intro h
    rw [Nat.mod_eq_of_lt h, Nat.mod_eq_of_lt (by omega), Nat.mod_eq_of_lt (by omega)]
  · intro h
    rw [Nat.mod_eq_of_lt h, Nat.mod_eq_of_lt (by omega), Nat.mod_eq_of_lt (by omega)]

/-- Witness of C14 (amended): a frame holding 5 of 10 bytes gets the buffers
of a frame holding 10 and 3 of 10 bytes. -/
theorem appendFrame_concatenates_witness :
    (({ buffers_ := [⟨10, 5, [], 0, 0⟩] } : Frame).appendFrame
        { buffers_ := [⟨10, 10, [], 0, 0⟩, ⟨10, 3, [], 0, 0⟩] }).getPayload
      = ({ buffers_ := [⟨10, 5, [], 0, 0⟩] } : Frame).getPayload
        + ({ buffers_ := [⟨10, 10, [], 0, 0⟩, ⟨10, 3, [], 0, 0⟩] } : Frame).getPayload :=
  (appendFrame_concatenates { buffers_ := [⟨10, 5, [], 0, 0⟩] }
    { buffers_ := [⟨10, 10, [], 0, 0⟩, ⟨10, 3, [], 0, 0⟩] } ⟨1, 0, [], 0, 0⟩).2.2.2.2.2.2.2.1
    (by decide)

/-- C14, counterexample: two frames of one buffer of 2^31 bytes each; after
`a.appendFrame(b)` the 32-bit `getSize()` of `a` is 0, not 2^31 + 2^31. -/
theorem appendFrame_getSize_wraps :
    ({ buffers_ := [⟨2147483648, 0, [], 0, 0⟩] } : Frame).getSize = 2147483648
      ∧ (({ buffers_ := [⟨2147483648, 0, [], 0, 0⟩] } : Frame).appendFrame
          { buffers_ := [⟨2147483648, 0, [], 0, 0⟩] }).getSize = 0 := by
  refine ⟨by decide, by decide⟩

/-- C15 (amended): after any sequence of `appendBuffer`, `appendFrame`,
`setPayload`, `minPayload`, `adjustPayload`, `setPayloadFull` and
`setPayloadEmpty` calls, failed ones included, `Frame::getSize()` is the sum
of the buffers' `getSize()` modulo 2^32 and `Frame::getPayload()` the sum of
their `getPayload()` modulo 2^32; each equals the sum itself whenever that
sum is below 2^32. -/
theorem frame_totals_after_calls (f : Frame) (cs : List FrameCall) :
    (f.calls cs).getSize = ((f.calls cs).buffers_.map Buffer.getSize).sum % U32
      ∧ (f.calls cs).getPayload = ((f.calls cs).buffers_.map Buffer.getPayload).sum % U32
      ∧ (((f.calls cs).buffers_.map Buffer.getSize).sum < U32 →
          (f.calls cs).getSize = ((f.calls cs).buffers_.map Buffer.getSize).sum)
      ∧ (((f.calls cs).buffers_.map Buffer.getPayload).sum < U32 →
          (f.calls cs).getPayload = ((f.calls cs).buffers_.map Buffer.getPayload).sum) := by
  have h1 := Frame.getSize_eq (f.calls cs)
  have h2 := Frame.getPayload_eq (f.calls cs)
  simp only [Frame.capacity, Frame.payloadSum] at h1 h2
  refine ⟨h1, h2, ?_, ?_⟩
  · intro h
    rw [h1, Nat.mod_eq_of_lt h]
  · intro h
    rw [h2, Nat.mod_eq_of_lt h]

/-- Witness of C15 (amended): an empty frame gets two buffers of 10 bytes,
then `setPayload(25)` fails and `setPayload(15)` succeeds. -/
theorem frame_totals_after_calls_witness :
    ((({ buffers_ := [] } : Frame).calls
        [FrameCall.appendBuffer ⟨10, 0, [], 0, 0⟩, FrameCall.appendBuffer ⟨10, 0, [], 0, 0⟩,
          FrameCall.setPayload 25 0, FrameCall.setPayload 15 0]).buffers_.map
        Buffer.getPayload).sum = 15
      ∧ (({ buffers_ := [] } : Frame).calls
        [FrameCall.appendBuffer ⟨10, 0, [], 0, 0⟩, FrameCall.appendBuffer ⟨10, 0, [], 0, 0⟩,
          FrameCall.setPayload 25 0, FrameCall.setPayload 15 0]).getPayload
        = ((({ buffers_ := [] } : Frame).calls
            [FrameCall.appendBuffer ⟨10, 0, [], 0, 0⟩,
              FrameCall.appendBuffer ⟨10, 0, [], 0, 0⟩,
              FrameCall.setPayload 25 0, FrameCall.setPayload 15 0]).buffers_.map
            Buffer.getPayload).sum :=
  ⟨by decide,
    (frame_totals_after_calls { buffers_ := [] }
      [FrameCall.appendBuffer ⟨10, 0, [], 0, 0⟩, FrameCall.appendBuffer ⟨10, 0, [], 0, 0⟩,
        FrameCall.setPayload 25 0, FrameCall.setPayload 15 0]).2.2.2 (by decide)⟩

/-- C15, counterexample: after two `appendBuffer` calls with a buffer of 2^31
bytes on an empty frame, the buffers' sizes sum to 2^32 and `getSize()`
returns 0. -/
theorem frame_getSize_not_the_sum :
    ((({ buffers_ := [] } : Frame).calls
        [FrameCall.appendBuffer ⟨2147483648, 0, [], 0, 0⟩,
          FrameCall.appendBuffer ⟨2147483648, 0, [], 0, 0⟩]).buffers_.map Buffer.getSize).sum
        = 4294967296
      ∧ (({ buffers_ := [] } : Frame).calls
        [FrameCall.appendBuffer ⟨2147483648, 0, [], 0, 0⟩,
          FrameCall.appendBuffer ⟨2147483648, 0, [], 0, 0⟩]).getSize = 0 := by
  refine ⟨by decide, by decide⟩

theorem buffers_accounting (bs : List Buffer)
    (hinv : ∀ b ∈ bs, b.getPayload ≤ b.rawSize - b.headRoom - b.tailRoom) :
    (bs.map Buffer.getPayload).sum + (bs.map Buffer.getAvailable).sum
        = (bs.map Buffer.getSize).sum
      ∧ (bs.map Buffer.getSize).sum + (bs.map (fun b => b.headRoom)).sum
          + (bs.map (fun b => b.tailRoom)).sum = (bs.map Buffer.rawSize).sum := by
  induction bs with
  | nil => simp
  | cons b bs ih =>
    have hb := hinv b (List.mem_cons_self _ _)
    obtain ⟨i1, i2⟩ := ih (fun x hx => hinv x (List.mem_cons_of_mem _ hx))
    simp only [List.map_cons, List.sum_cons]
    simp only [Buffer.getPayload, Buffer.getAvailable, Buffer.getSize, Buffer.rawSize] at *
    constructor <;> omega

/-- C16 (amended): for every frame whose buffers satisfy the Buffer invariant
(payload no larger than the full size minus the head and tail reservations),
`Frame::getPayload() + Frame::getAvailable()` equals `Frame::getSize()`
(modulo 2^32, and exactly when the buffers' sizes sum to less than 2^32): the
reservations are already left out of all three.  Adding the sums of the head
and tail reservations gives the sum of the buffers' full sizes instead. -/
theorem frame_accounting (f : Frame)
    (hinv : ∀ b ∈ f.buffers_, b.getPayload ≤ b.rawSize - b.headRoom - b.tailRoom) :
    (f.getPayload + f.getAvailable) % U32 = f.getSize
      ∧ (f.capacity < U32 → f.getPayload + f.getAvailable = f.getSize)
      ∧ f.payloadSum + f.availableSum + (f.buffers_.map (fun b => b.headRoom)).sum
          + (f.buffers_.map (fun b => b.tailRoom)).sum
          = (f.buffers_.map Buffer.rawSize).sum := by
  obtain ⟨h1, h2⟩ := buffers_accounting f.buffers_ hinv
  have e1 : f.payloadSum + f.availableSum = f.capacity := h1
  rw [Frame.getPayload_eq, Frame.getAvailable_eq, Frame.getSize_eq]
  refine ⟨?_, ?_, ?_⟩
  · rw [← Nat.add_mod, e1]
  · intro h
    rw [Nat.mod_eq_of_lt (by omega), Nat.mod_eq_of_lt (by omega), Nat.mod_eq_of_lt h]
    exact e1
  · rw [e1]; exact h2

/-- Witness of C16 (amended): a buffer of full size 100 with a head
reservation of 10 and a tail reservation of 10 that holds 20 bytes. -/
theorem frame_accounting_witness :
    ({ buffers_ := [⟨80, 20, [], 10, 10⟩] } : Frame).getPayload
        + ({ buffers_ := [⟨80, 20, [], 10, 10⟩] } : Frame).getAvailable
      = ({ buffers_ := [⟨80, 20, [], 10, 10⟩] } : Frame).getSize :=
  (frame_accounting { buffers_ := [⟨80, 20, [], 10, 10⟩] } (by decide)).2.1 (by decide)

/-- C16, counterexample: one buffer of full size 100 with a head reservation
of 10 that holds 20 bytes satisfies the Buffer invariant; `getPayload()` is
20, `getAvailable()` 70 and `getSize()` 90, so payload + available + head +
tail is 100, not `getSize()`. -/
theorem frame_accounting_overcounts_reservations :
    (∀ b ∈ ({ buffers_ := [⟨90, 20, [], 10, 0⟩] } : Frame).buffers_,
        b.getPayload ≤ b.rawSize - b.headRoom - b.tailRoom)
      ∧ ({ buffers_ := [⟨90, 20, [], 10, 0⟩] } : Frame).getPayload
          + ({ buffers_ := [⟨90, 20, [], 10, 0⟩] } : Frame).getAvailable + 10 + 0 = 100
      ∧ ({ buffers_ := [⟨90, 20, [], 10, 0⟩] } : Frame).getSize = 90 := by
  refine ⟨by decide, by decide, by decide⟩

/-! ## The boundary error of `setPayload` and `minPayload` -/

theorem setPayloadLoop_tot (bs : List Buffer) (lsize tot : Nat) (ht : tot < U32) :
    (Frame.setPayloadLoop bs lsize tot).2.2 = (tot + (bs.map Buffer.getSize).sum) % U32 := by
  induction bs generalizing lsize tot with
  | nil => simp [Frame.setPayloadLoop, Nat.mod_eq_of_lt ht]
  | cons b bs ih =>
    have hm : (tot + b.getSize) % U32 < U32 := Nat.mod_lt _ (by decide)
    simp only [Frame.setPayloadLoop, List.map_cons, List.sum_cons]
    split_ifs <;> simp only [ih _ _ hm, Nat.mod_add_mod, Nat.add_assoc]

theorem minPayloadLoop_tot (bs : List Buffer) (lsize tot : Nat) (ht : tot < U32)
    (h : (Frame.minPayloadLoop bs lsize tot).2.1 ≠ 0) :
    (Frame.minPayloadLoop bs lsize tot).2.2 = (tot + (bs.map Buffer.getSize).sum) % U32 := by
  induction bs generalizing lsize tot with
  | nil => simp [Frame.minPayloadLoop, Nat.mod_eq_of_lt ht]
  | cons b bs ih =>
    have hm : (tot + b.getSize) % U32 < U32 := Nat.mod_lt _ (by decide)
    simp only [Frame.minPayloadLoop, List.map_cons, List.sum_cons] at h ⊢
    split_ifs at h ⊢ with h0 h1
    all_goals
      first
      | exact absurd h h0
      | simp only [ih _ _ hm h, Nat.mod_add_mod, Nat.add_assoc]

/-- What the boundary error of `setPayload` and `minPayload` carries: the
requested size, and as the limit the exact capacity added, modulo 2^32, to
whatever value the uninitialised `tot` started from. -/
theorem boundary_report (f : Frame) (n tot : Nat) (ht : tot < U32) (e : GeneralError) :
    ((f.setPayload n tot).2 = some e →
        e.position = n ∧ e.limit = (tot + f.capacity) % U32)
      ∧ ((f.minPayload n tot).2 = some e →
        e.position = n ∧ e.limit = (tot + f.capacity) % U32) := by
  constructor
  · intro h
    simp only [Frame.setPayload] at h
    split_ifs at h with h0
    simp only [Option.some.injEq] at h
    subst h
    exact ⟨rfl, setPayloadLoop_tot _ _ _ ht⟩
  · intro h
    simp only [Frame.minPayload] at h
    split_ifs at h with h0
    simp only [Option.some.injEq] at h
    subst h
    exact ⟨rfl, minPayloadLoop_tot _ _ _ ht h0⟩

/-- C18, the failing input: one buffer of size 10, so the capacity is 10;
with `tot` starting from the stale value 7, `setPayload(11)` and
`minPayload(11)` both throw an error whose limit is 17. -/
theorem boundary_limit_is_not_the_capacity :
    ({ buffers_ := [⟨10, 0, [], 0, 0⟩] } : Frame).capacity = 10
      ∧ (({ buffers_ := [⟨10, 0, [], 0, 0⟩] } : Frame).setPayload 11 7).2
          = some ⟨Source.frameSetPayload, 11, 17⟩
      ∧ (({ buffers_ := [⟨10, 0, [], 0, 0⟩] } : Frame).minPayload 11 7).2
          = some ⟨Source.frameSetPayload, 11, 17⟩ := by
  refine ⟨by decide, by decide, by decide⟩

/-! ## `CoreV1::record` and `CoreV1::tail` -/

theorem tiled_bound (w ts : Nat) (ds : List Data) (tl : List Nat) (pos e : Nat)
    (h : Tiled w ts pos ds tl e) : pos + ds.length * ts ≤ e := by
  induction ds generalizing pos tl with
  | nil =>
    cases tl with
    | nil => simp only [Tiled] at h; simp [h]
    | cons t tl => simp [Tiled] at h
  | cons d ds ih =>
    cases tl with
    | nil => simp [Tiled] at h
    | cons t tl =>
      simp only [Tiled] at h
      obtain ⟨_, h2, h3⟩ := h
      have h4 := ih _ _ h3
      simp only [List.length_cons, Nat.succ_mul]
      omega

theorem getElem_inverted {α : Type} (l : List α) (d : α) (i : Nat) (h : i < l.length) :
    l[l.length - 1 - i]? = some (l.getD (l.length - 1 - i) d) := by
  rw [List.getD_eq_getElem _ _ (by omega : l.length - 1 - i < l.length),
    List.getElem?_eq_getElem]

/-- After `processFrame` has returned, true or false, the two vectors have
the same length and that length fits the `uint32_t` that `count()` returns. -/
theorem processFrame_lengths (c c1 : CoreV1) (f : Frame) (b : Bool)
    (h : c.processFrame f = some (b, c1)) :
    c1.tails_.length = c1.list_.length ∧ c1.count = c1.list_.length := by
  cases b with
  | false =>
    have h1 := processFrame_false c c1 f h
    subst h1
    exact ⟨rfl, rfl⟩
  | true =>
    obtain ⟨_, _, _, _, hts, _, _, _, ht⟩ := processFrame_true c c1 f h
    have hlen := tiled_length _ _ _ _ _ _ ht
    have hb := tiled_bound _ _ _ _ _ _ ht
    simp only [List.length_reverse] at hlen hb
    have hts8 : 8 ≤ c1.tailSize_ := by rw [hts]; exact le_max_right _ _
    have hp : f.getPayload < U32 := by
      rw [Frame.getPayload_eq]; exact Nat.mod_lt _ (by decide)
    have hmul : c1.list_.length ≤ c1.list_.length * c1.tailSize_ :=
      Nat.le_mul_of_pos_right _ (by omega)
    refine ⟨hlen.symm, ?_⟩
    unfold CoreV1.count
    exact Nat.mod_eq_of_lt (by omega)

/-- C17: once `processFrame` has returned (true or false), the number of
tails equals the number of records, `record(index)` and `tail(index)` throw
their boundary error exactly when `index >= count()`, and for every
`index < count()` they return the element stored at position
`count() - 1 - index` of `list_` and of `tails_`. -/
theorem record_tail_boundary (c c1 : CoreV1) (f : Frame) (b : Bool)
    (h : c.processFrame f = some (b, c1)) :
    c1.tails_.length = c1.list_.length
      ∧ ∀ index : Nat,
          ((∃ e, c1.record index = Except.error e) ↔ c1.count ≤ index)
            ∧ ((∃ e, c1.tail index = Except.error e) ↔ c1.count ≤ index)
            ∧ (index < c1.count →
                ∃ d t, c1.list_[c1.count - 1 - index]? = some d
                  ∧ c1.record index = Except.ok d
                  ∧ c1.tails_[c1.count - 1 - index]? = some t
                  ∧ c1.tail index = Except.ok t) := by
  obtain ⟨hl, hc⟩ := processFrame_lengths c c1 f b h
  refine ⟨hl, ?_⟩
  intro index
  rw [hc]
  refine ⟨?_, ?_, ?_⟩
  · unfold CoreV1.record
    by_cases hi : index ≥ c1.list_.length
    · rw [if_pos hi]
      exact ⟨fun _ => hi, fun _ => ⟨_, rfl⟩⟩
    · rw [if_neg hi]
      constructor
      · rintro ⟨e, he⟩
        cases he
      · intro h2
        exact absurd h2 hi
  · unfold CoreV1.tail
    by_cases hi : index ≥ c1.tails_.length
    · rw [if_pos hi]
      exact ⟨fun _ => by omega, fun _ => ⟨_, rfl⟩⟩
    · rw [if_neg hi]
      constructor
      · rintro ⟨e, he⟩
        cases he
      · intro h2
        exact absurd (by omega : index ≥ c1.tails_.length) hi
  · intro hi
    refine ⟨c1.list_.getD (c1.list_.length - 1 - index) ⟨0, 0, 0, 0, 0⟩,
      c1.tails_.getD (c1.tails_.length - 1 - index) 0,
      getElem_inverted c1.list_ ⟨0, 0, 0, 0, 0⟩ index hi, ?_, ?_, ?_⟩
    · simp only [CoreV1.record, if_neg (by omega : ¬ index ≥ c1.list_.length)]
    · rw [← hl]
      exact getElem_inverted c1.tails_ 0 index (by omega)
    · simp only [CoreV1.tail, if_neg (by omega : ¬ index ≥ c1.tails_.length)]

/-- Witness of C17 on the super-frame of scenario S5: two records and two
tails, the element at internal position 1 being `record(0)`. -/
theorem record_tail_boundary_witness :
    Example.s5Decoder.tails_.length = Example.s5Decoder.list_.length
      ∧ ((∃ e, Example.s5Decoder.record 2 = Except.error e) ↔ Example.s5Decoder.count ≤ 2)
      ∧ Example.s5Decoder.record 0 = Except.ok ⟨8, 12, 1, 2, 3⟩ :=
  ⟨(record_tail_boundary { } Example.s5Decoder Example.s5Frame true (by decide)).1,
    ((record_tail_boundary { } Example.s5Decoder Example.s5Frame true (by decide)).2 2).1,
    rfl⟩

/-! ## Hub address composition -/

open memory

theorem doTransaction_sum (chain : List Hub) (address : Nat) :
    doTransaction chain address = address + (chain.map (fun x => x.offset_)).sum := by
  induction chain generalizing address with
  | nil => simp [doTransaction]
  | cons h rest ih =>
    simp only [doTransaction, ih, List.map_cons, List.sum_cons]
    omega

theorem doAddress_sum (chain : List Hub) (s : Nat) (hnr : ∀ x ∈ chain, x.root_ = false) :
    doAddress chain s = s + (chain.map (fun x => x.offset_)).sum := by
  induction chain with
  | nil => simp [doAddress]
  | cons h rest ih =>
    have h1 := hnr h (List.mem_cons_self _ _)
    have h2 := ih (fun x hx => hnr x (List.mem_cons_of_mem _ hx))
    simp only [doAddress, h1, h2, List.map_cons, List.sum_cons]
    simp only [Bool.false_eq_true, if_false]
    omega

theorem doAddress_root_cut (up : List Hub) (v : Hub) (hv : v.root_ = true)
    (down1 down2 : List Hub) (s1 s2 : Nat) :
    doAddress (up ++ v :: down1) s1 = doAddress (up ++ v :: down2) s2 := by
  induction up with
  | nil => simp [doAddress, hv]
  | cons u up ih =>
    show (if u.root_ = true then 0 else doAddress (up ++ v :: down1) s1) + u.offset_
      = (if u.root_ = true then 0 else doAddress (up ++ v :: down2) s2) + u.offset_
    rw [ih]

/-- C19: `doAddress()` of a hub is (0 if the hub is a virtual root, else the
address of its parent) plus its offset; along a chain of hubs none of which
is a virtual root the address the terminal slave sees is the address of the
transaction plus the sum of the offsets, and the address composed through
such a chain is the terminal's address plus that sum; a hub is a virtual root
exactly when it is created with non-zero `min` and `max`, and what lies below
a virtual root does not enter the addresses composed above it. -/
theorem hub_address_composition (h : Hub) (rest chain : List Hub) (s address : Nat)
    (hnr : ∀ x ∈ chain, x.root_ = false) :
    doAddress (h :: rest) s = (if h.root_ then 0 else doAddress rest s) + h.offset_
      ∧ doTransaction chain address = address + (chain.map (fun x => x.offset_)).sum
      ∧ doAddress chain s = s + (chain.map (fun x => x.offset_)).sum
      ∧ (∀ offset min max : Nat,
          (Hub.create offset min max).root_ = true ↔ (min ≠ 0 ∧ max ≠ 0))
      ∧ (h.root_ = true → ∀ (up down1 down2 : List Hub) (s1 s2 : Nat),
          doAddress (up ++ h :: down1) s1 = doAddress (up ++ h :: down2) s2) := by
  refine ⟨rfl, doTransaction_sum chain address, doAddress_sum chain s hnr, ?_, ?_⟩
  · intro offset min max
    simp [Hub.create]
  · intro hv up down1 down2 s1 s2
    exact doAddress_root_cut up h hv down1 down2 s1 s2

/-- Witness of C19, scenarios S1 and S2: through the hubs with offsets 0x1000
and 0x40 the address 0x4 reaches the terminal as 0x1044; the hub created with
offset 0, min 4 and max 256 is a virtual root, passes 0x10 on as 0x10 and
answers `doAddress()` with 0 whatever it is attached to. -/
theorem hub_address_composition_witness :
    doTransaction [Hub.create 4096 0 0, Hub.create 64 0 0] 4 = 4 + (4096 + (64 + 0))
      ∧ doTransaction [Hub.create 0 4 256] 16 = 16
      ∧ (Hub.create 0 4 256).root_ = true
      ∧ doAddress [Hub.create 0 4 256, Hub.create 4096 0 0] 1342177280 = 0 :=
  ⟨(hub_address_composition (Hub.create 4096 0 0) [] [Hub.create 4096 0 0, Hub.create 64 0 0]
      0 4 (by decide)).2.1,
    by decide, by decide, by decide⟩

/-! ## Fifo depth -/

open stream

theorem fifo_step_inv (q : Fifo) (ev : FifoEvent) (hD : 0 < q.maxDepth_)
    (hq : q.queue_.length ≤ q.maxDepth_) :
    (q.step ev).maxDepth_ = q.maxDepth_
      ∧ (q.step ev).queue_.length ≤ q.maxDepth_
      ∧ q.dropCount ≤ (q.step ev).dropCount := by
  cases ev with
  | accept frame =>
    simp only [Fifo.step, Fifo.acceptFrame]
    split_ifs with h1 h2
    · exact ⟨rfl, hq, Nat.le_succ _⟩
    · refine ⟨rfl, ?_, le_refl _⟩
      simp only [List.length_append, List.length_cons, List.length_nil]
      have : q.queue_.length ≠ q.maxDepth_ := fun h => h1 ⟨h, hD⟩
      omega
    · refine ⟨rfl, ?_, le_refl _⟩
      simp only [List.length_append, List.length_cons, List.length_nil]
      have : q.queue_.length ≠ q.maxDepth_ := fun h => h1 ⟨h, hD⟩
      omega
  | dequeue =>
    simp only [Fifo.step, Fifo.workerStep]
    cases hl : q.queue_ with
    | nil => simp [hl]
    | cons x xs =>
      rw [hl] at hq
      simp only [List.length_cons] at hq
      exact ⟨rfl, by simp only []; omega, le_refl _⟩

theorem fifo_run_inv (q : Fifo) (evs : List FifoEvent) (hD : 0 < q.maxDepth_)
    (hq : q.queue_.length ≤ q.maxDepth_) :
    (q.run evs).maxDepth_ = q.maxDepth_
      ∧ (q.run evs).queue_.length ≤ q.maxDepth_
      ∧ q.dropCount ≤ (q.run evs).dropCount := by
  induction evs generalizing q with
  | nil => exact ⟨rfl, hq, le_refl _⟩
  | cons ev evs ih =>
    obtain ⟨s1, s2, s3⟩ := fifo_step_inv q ev hD hq
    obtain ⟨r1, r2, r3⟩ := ih (q.step ev) (by rw [s1]; exact hD) (by rw [s1]; exact s2)
    simp only [Fifo.run, List.foldl_cons] at r1 r2 r3 ⊢
    exact ⟨by rw [r1, s1], by rw [← s1]; exact r2, le_trans s3 r3⟩

/-- C20: for a Fifo created with `maxDepth = D > 0`, after every sequence of
`acceptFrame` calls and worker turns the queue holds at most `D` frames; a
frame arriving while the depth is `D` leaves the queue as it is and raises
the drop counter by one; and the drop counter never decreases as further
events follow. -/
theorem fifo_depth_bound (D trimSize : Nat) (noCopy : Bool) (hD : 0 < D)
    (evs more : List FifoEvent) (frame : Frame) :
    ((Fifo.create D trimSize noCopy).run evs).queue_.length ≤ D
      ∧ (((Fifo.create D trimSize noCopy).run evs).queue_.length = D →
          (((Fifo.create D trimSize noCopy).run evs).acceptFrame frame).queue_
              = ((Fifo.create D trimSize noCopy).run evs).queue_
            ∧ (((Fifo.create D trimSize noCopy).run evs).acceptFrame frame).dropCount
              = ((Fifo.create D trimSize noCopy).run evs).dropCount + 1)
      ∧ ((Fifo.create D trimSize noCopy).run evs).dropCount
          ≤ ((Fifo.create D trimSize noCopy).run (evs ++ more)).dropCount := by
  obtain ⟨r1, r2, _⟩ := fifo_run_inv (Fifo.create D trimSize noCopy) evs hD
    (by simp [Fifo.create])
  have r1D : ((Fifo.create D trimSize noCopy).run evs).maxDepth_ = D := r1
  refine ⟨r2, ?_, ?_⟩
  · intro hfull
    simp only [Fifo.acceptFrame, r1D, hfull]
    rw [if_pos ⟨trivial, hD⟩]
    exact ⟨rfl, rfl⟩
  · have hsplit : (Fifo.create D trimSize noCopy).run (evs ++ more)
        = ((Fifo.create D trimSize noCopy).run evs).run more := by
      simp [Fifo.run, List.foldl_append]
    rw [hsplit]
    exact (fifo_run_inv _ more (by rw [r1D]; exact hD) (by rw [r1D]; exact r2)).2.2

/-- Witness of C20, scenario S4: `maxDepth = 3`, `noCopy = true`; five frames
arrive while the worker is stalled, then the worker runs: the queue held
three frames, the first three are delivered in submission order and the drop
counter is 2. -/
theorem fifo_depth_bound_witness :
    ((Fifo.create 3 0 true).run Example.s4Arrivals).queue_.length ≤ 3
      ∧ ((Fifo.create 3 0 true).run Example.s4Arrivals).dropCount
          ≤ ((Fifo.create 3 0 true).run (Example.s4Arrivals ++ Example.s4Turns)).dropCount
      ∧ ((Fifo.create 3 0 true).run Example.s4Arrivals).queue_
          = [Example.numbered 1, Example.numbered 2, Example.numbered 3]
      ∧ ((Fifo.create 3 0 true).run (Example.s4Arrivals ++ Example.s4Turns)).delivered
          = [Example.numbered 1, Example.numbered 2, Example.numbered 3]
      ∧ ((Fifo.create 3 0 true).run (Example.s4Arrivals ++ Example.s4Turns)).dropCount = 2
      ∧ ((Fifo.create 3 0 true).run (Example.s4Arrivals ++ Example.s4Turns)).queue_ = [] :=
  ⟨(fifo_depth_bound 3 0 true (by decide) Example.s4Arrivals Example.s4Turns
      (Example.numbered 6)).1,
    (fifo_depth_bound 3 0 true (by decide) Example.s4Arrivals Example.s4Turns
      (Example.numbered 6)).2.2,
    by decide, by decide, by decide, by decide⟩

/-! ## The shape `Frame::setPayload` leaves behind -/

theorem setPayloadLoop_sizes (bs : List Buffer) (lsize tot : Nat) :
    (Frame.setPayloadLoop bs lsize tot).1.map Buffer.getSize = bs.map Buffer.getSize := by
  induction bs generalizing lsize tot with
  | nil => simp [Frame.setPayloadLoop]
  | cons b bs ih =>
    simp only [Frame.setPayloadLoop]
    split_ifs <;>
      simp [ih, Buffer.setPayloadEmpty, Buffer.setPayload, Buffer.setPayloadFull,
        Buffer.getSize]

theorem setPayloadLoop_zero (bs : List Buffer) (tot : Nat) :
    ∀ b ∈ (Frame.setPayloadLoop bs 0 tot).1, b.getPayload = 0 := by
  induction bs generalizing tot with
  | nil => simp [Frame.setPayloadLoop]
  | cons x xs ih =>
    intro b hb
    simp only [Frame.setPayloadLoop, if_true, List.mem_cons] at hb
    rcases hb with rfl | hb
    · rfl
    · exact ih _ b hb

theorem setPayloadLoop_full (bs : List Buffer) (lsize tot : Nat)
    (h : (bs.map Buffer.getSize).sum < lsize) :
    ∀ b ∈ (Frame.setPayloadLoop bs lsize tot).1, b.getPayload = b.getSize := by
  induction bs generalizing lsize tot with
  | nil => simp [Frame.setPayloadLoop]
  | cons x xs ih =>
    simp only [List.map_cons, List.sum_cons] at h
    intro b hb
    simp only [Frame.setPayloadLoop] at hb
    rw [if_neg (by omega), if_neg (by omega)] at hb
    simp only [List.mem_cons] at hb
    rcases hb with rfl | hb
    · rfl
    · exact ih _ _ (by omega) b hb

theorem setPayloadLoop_shape (bs : List Buffer) (lsize tot : Nat) (hne : bs ≠ [])
    (h : lsize ≤ (bs.map Buffer.getSize).sum) :
    ∃ k, k < (Frame.setPayloadLoop bs lsize tot).1.length
      ∧ (∀ b ∈ (Frame.setPayloadLoop bs lsize tot).1.take k, b.getPayload = b.getSize)
      ∧ ((Frame.setPayloadLoop bs lsize tot).1.getD k ⟨0, 0, [], 0, 0⟩).getPayload
          = lsize - (((Frame.setPayloadLoop bs lsize tot).1.take k).map Buffer.getSize).sum
      ∧ (∀ b ∈ (Frame.setPayloadLoop bs lsize tot).1.drop (k + 1), b.getPayload = 0) := by
  induction bs generalizing lsize tot with
  | nil => exact absurd rfl hne
  | cons x xs ih =>
    simp only [List.map_cons, List.sum_cons] at h
    simp only [Frame.setPayloadLoop]
    split_ifs with h0 h1
    · refine ⟨0, by simp, by simp, ?_, ?_⟩
      · simp [h0, Buffer.setPayloadEmpty, Buffer.getPayload]
      · subst h0
        simpa using setPayloadLoop_zero xs _
    · refine ⟨0, by simp, by simp, ?_, ?_⟩
      · simp [Buffer.setPayload, Buffer.getPayload]
      · simpa using setPayloadLoop_zero xs _
    · have hx : ¬ lsize ≤ x.size := h1
      have hxs : xs ≠ [] := by
        intro he
        subst he
        simp only [List.map_nil, List.sum_nil, Buffer.getSize] at h
        omega
      have h2 : lsize - x.getSize ≤ (xs.map Buffer.getSize).sum := by omega
      obtain ⟨k, hk, hfull, hrem, hempty⟩ :=
        ih (lsize - x.getSize) ((tot + x.getSize) % U32) hxs h2
      refine ⟨k + 1, by simpa using hk, ?_, ?_, ?_⟩
      · intro b hb
        simp only [List.take_succ_cons, List.mem_cons] at hb
        rcases hb with rfl | hb
        · rfl
        · exact hfull b hb
      · simp only [List.getD_cons_succ, List.take_succ_cons, List.map_cons, List.sum_cons]
        rw [hrem]
        simp only [Buffer.setPayloadFull, Buffer.getSize]
        omega
      · simpa using hempty

/-- On a frame held by value: after a successful `setPayload(n)` there is an
index `k` such that every buffer before `k` is full, buffer `k` holds the
bytes that remain and every buffer after `k` is empty; the sizes of the
buffers are as before. -/
theorem setPayload_shape_by_value (f : Frame) (n tot : Nat)
    (hok : (f.setPayload n tot).2 = none) :
    (f.setPayload n tot).1.buffers_.map Buffer.getSize = f.buffers_.map Buffer.getSize
      ∧ ∃ k, (f.buffers_ ≠ [] → k < (f.setPayload n tot).1.buffers_.length)
        ∧ (∀ b ∈ (f.setPayload n tot).1.buffers_.take k, b.getPayload = b.getSize)
        ∧ (∀ b, (f.setPayload n tot).1.buffers_[k]? = some b →
            b.getPayload
              = n - (((f.setPayload n tot).1.buffers_.take k).map Buffer.getSize).sum)
        ∧ (∀ b ∈ (f.setPayload n tot).1.buffers_.drop (k + 1), b.getPayload = 0) := by
  have hl := setPayloadLoop_lsize f.buffers_ n tot
  have hcap : n ≤ (f.buffers_.map Buffer.getSize).sum := by
    by_contra hgt
    have h0 : (Frame.setPayloadLoop f.buffers_ n tot).2.1 ≠ 0 := by rw [hl]; omega
    simp [Frame.setPayload, h0] at hok
  refine ⟨setPayloadLoop_sizes f.buffers_ n tot, ?_⟩
  by_cases hne : f.buffers_ = []
  · refine ⟨0, fun h => absurd hne h, by simp, ?_, ?_⟩
    · intro b hb
      simp [Frame.setPayload, hne, Frame.setPayloadLoop] at hb
    · intro b hb
      simp [Frame.setPayload, hne, Frame.setPayloadLoop] at hb
  · obtain ⟨k, hk, hfull, hrem, hempty⟩ := setPayloadLoop_shape f.buffers_ n tot hne hcap
    refine ⟨k, fun _ => hk, hfull, ?_, hempty⟩
    intro b hb
    have hb2 : (Frame.setPayloadLoop f.buffers_ n tot).1[k]? = some b := hb
    rw [List.getD_eq_getElem?_getD, hb2] at hrem
    exact hrem

/-- C28: when `Frame::setPayload(n)` throws its boundary error, every buffer
of the frame has been set full, whatever it held before, so that
`Frame::getPayload()` equals `Frame::getSize()` after the failed call. -/
theorem setPayload_failure_fills (f : Frame) (n tot : Nat)
    (herr : (f.setPayload n tot).2 ≠ none) :
    (∀ b ∈ (f.setPayload n tot).1.buffers_, b.getPayload = b.getSize)
      ∧ (f.setPayload n tot).1.buffers_.map Buffer.getSize = f.buffers_.map Buffer.getSize
      ∧ (f.setPayload n tot).1.getPayload = (f.setPayload n tot).1.getSize := by
  have hl := setPayloadLoop_lsize f.buffers_ n tot
  have hcap : (f.buffers_.map Buffer.getSize).sum < n := by
    by_contra hle
    have h0 : (Frame.setPayloadLoop f.buffers_ n tot).2.1 = 0 := by rw [hl]; omega
    simp [Frame.setPayload, h0] at herr
  have hfull := setPayloadLoop_full f.buffers_ n tot hcap
  refine ⟨hfull, setPayloadLoop_sizes f.buffers_ n tot, ?_⟩
  rw [Frame.getPayload_eq, Frame.getSize_eq]
  have hmap : (Frame.setPayloadLoop f.buffers_ n tot).1.map Buffer.getPayload
      = (Frame.setPayloadLoop f.buffers_ n tot).1.map Buffer.getSize :=
    List.map_congr_left hfull
  simp only [Frame.payloadSum, Frame.capacity, Frame.setPayload, hmap]

/-- Witness of C28: two buffers of size 10 holding 3 and 0 bytes;
`setPayload(25)` throws and leaves both full. -/
theorem setPayload_failure_fills_witness :
    (({ buffers_ := [⟨10, 3, [], 0, 0⟩, ⟨10, 0, [], 0, 0⟩] } : Frame).setPayload 25 0).1.buffers_
        = [⟨10, 10, [], 0, 0⟩, ⟨10, 10, [], 0, 0⟩]
      ∧ (({ buffers_ := [⟨10, 3, [], 0, 0⟩, ⟨10, 0, [], 0, 0⟩] } : Frame).setPayload
          25 0).1.getPayload
        = (({ buffers_ := [⟨10, 3, [], 0, 0⟩, ⟨10, 0, [], 0, 0⟩] } : Frame).setPayload
          25 0).1.getSize :=
  ⟨by decide,
    (setPayload_failure_fills { buffers_ := [⟨10, 3, [], 0, 0⟩, ⟨10, 0, [], 0, 0⟩] } 25 0
      (by decide)).2.2⟩

theorem setPayloadLoop_same_region (bs : List Buffer) (m t : Nat) :
    List.Forall₂
      (fun x y : Buffer => x.size = y.size ∧ x.data = y.data ∧ x.headRoom = y.headRoom
        ∧ x.tailRoom = y.tailRoom)
      (Frame.setPayloadLoop bs m t).1 bs := by
  induction bs generalizing m t with
  | nil => simp [Frame.setPayloadLoop]
  | cons b bs ih =>
    simp only [Frame.setPayloadLoop]
    split_ifs <;> exact List.Forall₂.cons ⟨rfl, rfl, rfl, rfl⟩ (ih _ _)

theorem setPayloadLoop_congr (xs ys : List Buffer) (n t1 t2 : Nat)
    (h : List.Forall₂
      (fun x y : Buffer => x.size = y.size ∧ x.data = y.data ∧ x.headRoom = y.headRoom
        ∧ x.tailRoom = y.tailRoom) xs ys) :
    (Frame.setPayloadLoop xs n t1).1 = (Frame.setPayloadLoop ys n t2).1 := by
  induction h generalizing n t1 t2 with
  | nil => simp [Frame.setPayloadLoop]
  | @cons x y xs ys hxy _ ih =>
    obtain ⟨h1, h2, h3, h4⟩ := hxy
    cases x with
    | mk xsize xpayload xdata xhead xtail =>
      cases y with
      | mk ysize ypayload ydata yhead ytail =>
        simp only at h1 h2 h3 h4
        subst h1 h2 h3 h4
        simp only [Frame.setPayloadLoop, Buffer.getSize, Buffer.setPayloadEmpty,
          Buffer.setPayload, Buffer.setPayloadFull]
        split_ifs
        · rw [ih n ((t1 + xsize) % U32) ((t2 + xsize) % U32)]
        · rw [ih 0 ((t1 + xsize) % U32) ((t2 + xsize) % U32)]
        · rw [ih (n - xsize) ((t1 + xsize) % U32) ((t2 + xsize) % U32)]

theorem setPayloadLoop_twice (bs : List Buffer) (m n t1 t2 t3 : Nat) :
    (Frame.setPayloadLoop (Frame.setPayloadLoop bs m t1).1 n t2).1
      = (Frame.setPayloadLoop bs n t3).1 :=
  setPayloadLoop_congr _ _ n t2 t3 (setPayloadLoop_same_region bs m t1)

/-- C29: what `Frame::setPayload(n)` leaves depends on `n` and on the sizes
of the buffers only: `setPayload(m)` followed by `setPayload(n)` leaves the
frame, buffer by buffer, as `setPayload(n)` alone leaves it, for all `m` and
`n` (also beyond the capacity) and whatever the uninitialised `tot` held; in
particular `setPayload(n)` applied twice equals applying it once. -/
theorem setPayload_depends_on_sizes_only (f : Frame) (m n t1 t2 t3 : Nat) :
    ((f.setPayload m t1).1.setPayload n t2).1 = (f.setPayload n t3).1
      ∧ ((f.setPayload n t1).1.setPayload n t2).1 = (f.setPayload n t1).1
      ∧ (m ≤ f.capacity → n ≤ f.capacity →
          (f.setPayload m t1).2 = none ∧ ((f.setPayload m t1).1.setPayload n t2).2 = none
            ∧ ((f.setPayload m t1).1.setPayload n t2).1.buffers_.map Buffer.getPayload
              = (f.setPayload n t3).1.buffers_.map Buffer.getPayload) := by
  have key : ∀ a b u1 u2 u3 : Nat,
      ((f.setPayload a u1).1.setPayload b u2).1 = (f.setPayload b u3).1 := by
    intro a b u1 u2 u3
    simp only [Frame.setPayload]
    rw [setPayloadLoop_twice f.buffers_ a b u1 u2 u3]
  refine ⟨key m n t1 t2 t3, key n n t1 t2 t1, ?_⟩
  intro hm hn
  have hl1 := setPayloadLoop_lsize f.buffers_ m t1
  have hcap : (f.setPayload m t1).1.capacity = f.capacity := by
    simp only [Frame.capacity, Frame.setPayload, setPayloadLoop_sizes]
  have hl2 := setPayloadLoop_lsize (f.setPayload m t1).1.buffers_ n t2
  refine ⟨?_, ?_, ?_⟩
  · have h0 : (Frame.setPayloadLoop f.buffers_ m t1).2.1 = 0 := by
      rw [hl1]; exact Nat.sub_eq_zero_of_le hm
    simp [Frame.setPayload, h0]
  · have h0 : (Frame.setPayloadLoop (f.setPayload m t1).1.buffers_ n t2).2.1 = 0 := by
      rw [hl2]
      have : ((f.setPayload m t1).1.buffers_.map Buffer.getSize).sum = f.capacity := hcap
      omega
    simp only [Frame.setPayload] at h0
    simp only [Frame.setPayload, h0, ne_eq, not_true_eq_false, if_false]
  · rw [key m n t1 t2 t3]

/-- Witness of C29: two buffers of size 10; `setPayload(4)` then
`setPayload(15)` leaves the payloads 10 and 5, as `setPayload(15)` alone. -/
theorem setPayload_depends_on_sizes_only_witness :
    ((({ buffers_ := [⟨10, 3, [], 0, 0⟩, ⟨10, 7, [], 0, 0⟩] } : Frame).setPayload 4 0).1.setPayload
        15 0).1.buffers_.map Buffer.getPayload = [10, 5]
      ∧ ((({ buffers_ := [⟨10, 3, [], 0, 0⟩, ⟨10, 7, [], 0, 0⟩] } : Frame).setPayload
          4 0).1.setPayload 15 0).1.buffers_.map Buffer.getPayload
        = (({ buffers_ := [⟨10, 3, [], 0, 0⟩, ⟨10, 7, [], 0, 0⟩] } : Frame).setPayload
          15 0).1.buffers_.map Buffer.getPayload :=
  ⟨by decide,
    ((setPayload_depends_on_sizes_only
      { buffers_ := [⟨10, 3, [], 0, 0⟩, ⟨10, 7, [], 0, 0⟩] } 4 15 0 0 0).2.2
        (by decide) (by decide)).2.2⟩

/-! ## `Frame::adjustPayload` -/

theorem setPayload_result (f : Frame) (n tot : Nat) (hn : n < U32) (hcap : n ≤ f.capacity) :
    (f.setPayload n tot).2 = none ∧ (f.setPayload n tot).1.getPayload = n := by
  constructor
  · have h := setPayloadLoop_lsize f.buffers_ n tot
    have h0 : (Frame.setPayloadLoop f.buffers_ n tot).2.1 = 0 := by
      rw [h]; exact Nat.sub_eq_zero_of_le hcap
    simp [Frame.setPayload, h0]
  · rw [Frame.getPayload_eq]
    have h := setPayloadLoop_payload f.buffers_ n tot hcap
    simp only [Frame.payloadSum, Frame.setPayload, h]
    exact Nat.mod_eq_of_lt hn

/-- On a frame held by value, for every signed 32-bit `v`: if
`0 <= getPayload() + v <= getSize()` then `adjustPayload(v)` throws nothing
and afterwards `getPayload()` is the previous payload plus `v`; if `v < 0`
and `|v| > getPayload()` it throws its boundary error and leaves the frame as
it was. -/
theorem adjustPayload_by_value (f : Frame) (v : Int) (tot : Nat)
    (hv : -2147483648 ≤ v ∧ v < 2147483648) :
    ((0 ≤ (f.getPayload : Int) + v ∧ (f.getPayload : Int) + v ≤ (f.getSize : Int)) →
        (f.adjustPayload v tot).2 = none
          ∧ ((f.adjustPayload v tot).1.getPayload : Int) = (f.getPayload : Int) + v)
      ∧ ((v < 0 ∧ (f.getPayload : Int) < -v) →
        (f.adjustPayload v tot).2
            = some ⟨Source.frameAdjustPayload, v.natAbs, f.getPayload⟩
          ∧ (f.adjustPayload v tot).1 = f) := by
  have hU : (U32 : Int) = 4294967296 := by simp [U32]
  have hP : f.getPayload < U32 := by
    rw [Frame.getPayload_eq]; exact Nat.mod_lt _ (by decide)
  have hS : f.getSize ≤ f.capacity := by
    rw [Frame.getSize_eq]; exact Nat.mod_le _ _
  have hS2 : f.getSize < U32 := by
    rw [Frame.getSize_eq]; exact Nat.mod_lt _ (by decide)
  unfold U32 at hP hS2
  constructor
  · rintro ⟨h0, h1⟩
    have hno : ¬ (v < 0 ∧ v.natAbs % U32 > f.getPayload) := by
      rintro ⟨hneg, hgt⟩
      have : v.natAbs % U32 ≤ v.natAbs := Nat.mod_le _ _
      omega
    obtain ⟨k, hk⟩ : ∃ k : Nat, (f.getPayload : Int) + v = k := ⟨_, (Int.toNat_of_nonneg h0).symm⟩
    have hk1 : k ≤ f.getSize := by omega
    have hmod : (((f.getPayload : Int) + v) % (U32 : Int)).toNat = k := by
      rw [hk, hU]
      have : (k : Int) % 4294967296 = k := Int.emod_eq_of_lt (by omega) (by omega)
      rw [this]; simp
    simp only [Frame.adjustPayload, if_neg hno, hmod]
    obtain ⟨r1, r2⟩ := setPayload_result f k tot (by unfold U32; omega) (by omega)
    exact ⟨r1, by rw [r2, hk]⟩
  · rintro ⟨hneg, hgt⟩
    have hyes : v < 0 ∧ v.natAbs % U32 > f.getPayload := by
      refine ⟨hneg, ?_⟩
      have : v.natAbs % U32 = v.natAbs := Nat.mod_eq_of_lt (by unfold U32; omega)
      rw [this]; omega
    simp only [Frame.adjustPayload, if_pos hyes]
    exact ⟨trivial, trivial⟩

/-! ## The range check of `MapMemory::findSpace` -/

theorem findSpaceLoop_some (maps : List Map) (base size p : Nat)
    (h : MapMemory.findSpaceLoop maps base size = some p) :
    ∃ m ∈ maps, p = m.ptr + (base - m.base) ∧ m.base < base
      ∧ ((base - m.base) + size) % U32 < m.size := by
  induction maps with
  | nil => simp [MapMemory.findSpaceLoop] at h
  | cons m ms ih =>
    simp only [MapMemory.findSpaceLoop] at h
    split_ifs at h with hc
    · simp only [Option.some.injEq] at h
      exact ⟨m, List.mem_cons_self _ _, h.symm, hc.1, hc.2⟩
    · obtain ⟨x, hx, r⟩ := ih h
      exact ⟨x, List.mem_cons_of_mem _ hx, r⟩

/-- What `findSpace` does guarantee: the pointer comes from a mapping whose
base lies below the address and for which the 32-bit sum of offset and length
is below the size; the range lies inside the mapping when that sum does not
wrap. -/
theorem findSpace_range (mm : MapMemory) (base size p : Nat)
    (h : mm.findSpace base size = some p) :
    ∃ m ∈ mm.maps_, p = m.ptr + (base - m.base) ∧ m.base < base
      ∧ ((base - m.base) + size < U32 → (base - m.base) + size < m.size) := by
  obtain ⟨m, hm, hp, hb, hs⟩ := findSpaceLoop_some mm.maps_ base size p h
  refine ⟨m, hm, hp, hb, ?_⟩
  intro hlt
  rwa [Nat.mod_eq_of_lt hlt] at hs

/-- C23, the failing input: one mapping {base 0, size 0x100}; for the
address 0x10 and the length 0xFFFFFFF8 the 32-bit sum 0x10 + 0xFFFFFFF8 wraps
to 8, `findSpace` returns the pointer at offset 0x10 of the mapping although
0x10 + 0xFFFFFFF8 exceeds 0x100, and the read transaction goes on to copy
0xFFFFFFF8 bytes from that pointer, far past the end of the 256-byte region,
which has no defined outcome. -/
theorem findSpace_accepts_wrapped_range :
    MapMemory.findSpace { fd_ := 3, maps_ := [⟨0, 256, 1000000⟩] } 16 4294967288
        = some 1000016
      ∧ ¬ ((16 - 0) + 4294967288 ≤ 256)
      ∧ MapMemory.mapped { fd_ := 3, maps_ := [⟨0, 256, 1000000⟩] } 1000016 4294967288 = false
      ∧ (∀ mem, MapMemory.doTransaction { fd_ := 3, maps_ := [⟨0, 256, 1000000⟩] } mem
          false false ⟨16, 4294967288, [], []⟩ = none) := by
  have hf : MapMemory.findSpace { fd_ := 3, maps_ := [⟨0, 256, 1000000⟩] } (16 % U32)
      (4294967288 % U32) = some 1000016 := by decide
  have hm : MapMemory.mapped { fd_ := 3, maps_ := [⟨0, 256, 1000000⟩] } 1000016 4294967288
      = false := by decide
  exact ⟨by decide, by decide, hm,
    fun mem => doTransaction_outside _ mem false false ⟨16, 4294967288, [], []⟩ 1000016 hf hm⟩

/-! ## Tiling of an accepted super-frame -/

theorem tiled_sum (w ts : Nat) (ds : List Data) (tl : List Nat) (pos e : Nat)
    (h : Tiled w ts pos ds tl e) :
    pos + (ds.map (fun d => CoreV1.fJump d.size w + ts)).sum = e := by
  induction ds generalizing pos tl with
  | nil =>
    cases tl with
    | nil => simp only [Tiled] at h; simp [h]
    | cons t tl => simp [Tiled] at h
  | cons d ds ih =>
    cases tl with
    | nil => simp [Tiled] at h
    | cons t tl =>
      simp only [Tiled] at h
      obtain ⟨_, h2, h3⟩ := h
      have h4 := ih _ _ h3
      simp only [List.map_cons, List.sum_cons]
      omega

theorem tiled_bounds (w ts : Nat) (ds : List Data) (tl : List Nat) (pos e : Nat)
    (h : Tiled w ts pos ds tl e) (dd : Data) :
    ∀ i, i < ds.length → pos ≤ (ds.getD i dd).start ∧ tl.getD i 0 + ts ≤ e := by
  induction ds generalizing pos tl with
  | nil => intro i hi; simp at hi
  | cons d ds ih =>
    cases tl with
    | nil => simp [Tiled] at h
    | cons t tl =>
      simp only [Tiled] at h
      obtain ⟨h1, h2, h3⟩ := h
      have hb := tiled_bound _ _ _ _ _ _ h3
      intro i hi
      cases i with
      | zero =>
        simp only [List.getD_cons_zero]
        have : 0 ≤ ds.length * ts := Nat.zero_le _
        omega
      | succ i =>
        simp only [List.length_cons, Nat.add_lt_add_iff_right] at hi
        have := ih _ _ h3 i hi
        simp only [List.getD_cons_succ]
        omega

/-- The tiling the decoder does establish: after a successful `processFrame`
there is at least one record and the payload is the header plus, for every
record, the rewind amount `fJump` the decoder computed (a `uint32_t`) and the
tail. -/
theorem processFrame_tiling (c c1 : CoreV1) (f : Frame)
    (h : c.processFrame f = some (true, c1)) :
    1 ≤ c1.count
      ∧ f.getPayload = c1.headerSize
          + (c1.list_.map (fun d => CoreV1.fJump d.size c1.headerSize + c1.tailSize)).sum := by
  obtain ⟨_, _, _, hw, hts, _, _, hle, ht⟩ := processFrame_true c c1 f h
  have hts8 : 8 ≤ c1.tailSize_ := by rw [hts]; exact le_max_right _ _
  have hne := tiled_nonempty _ _ _ _ _ _ ht (by omega)
  simp only [List.length_reverse] at hne
  have hc := (processFrame_lengths c c1 f true h).2
  have hs := tiled_sum _ _ _ _ _ _ ht
  rw [List.map_reverse, List.sum_reverse] at hs
  exact ⟨by omega, hs.symm⟩

/-- Where the records of an accepted frame lie: `record(i)` starts at or
behind the header, `tail(i)` lies the computed rewind amount behind it, and
the tail ends inside the payload. -/
theorem processFrame_records_inside (c c1 : CoreV1) (f : Frame)
    (h : c.processFrame f = some (true, c1)) :
    ∀ i, i < c1.list_.length → ∃ d t, c1.record i = Except.ok d ∧ c1.tail i = Except.ok t
      ∧ c1.headerSize ≤ d.start ∧ t = d.start + CoreV1.fJump d.size c1.headerSize
      ∧ t + c1.tailSize ≤ f.getPayload := by
  obtain ⟨_, _, _, hw, hts, _, _, hle, ht⟩ := processFrame_true c c1 f h
  have hlen := tiled_length _ _ _ _ _ _ ht
  simp only [List.length_reverse] at hlen
  obtain ⟨_, i2, _⟩ := tiled_index _ _ _ _ _ _ ht ⟨0, 0, 0, 0, 0⟩
  have hb := tiled_bounds _ _ _ _ _ _ ht ⟨0, 0, 0, 0, 0⟩
  simp only [List.length_reverse] at i2 hb
  intro i hi
  exact ⟨_, _, record_eq c1 i hi, tail_eq c1 i (by omega), (hb i hi).1, i2 i hi, (hb i hi).2⟩

/-- C21, the failing input: on the 16-byte frame of width 8 whose only tail
has the size field 0xFFFFFFFF, `processFrame` returns true with one record,
although the header and the record as exact integers take
8 + (ceil(4294967295 / 8) * 8 + 8) = 4294967312 bytes and only 8 bytes, fewer
than tail plus jump, lie ahead of the header. -/
theorem tiling_breaks_on_size_overflow :
    ∃ c1, ({ } : CoreV1).processFrame
          (Example.frameOf [33, 0, 0, 0, 0, 0, 0, 0, 255, 255, 255, 255, 0, 0, 0, 0])
        = some (true, c1)
      ∧ (Example.frameOf [33, 0, 0, 0, 0, 0, 0, 0, 255, 255, 255, 255, 0, 0, 0, 0]).getPayload
          = 16
      ∧ c1.count = 1
      ∧ c1.headerSize
          + (c1.list_.map (fun d => Spec.roundUp d.size c1.headerSize + c1.tailSize)).sum
          = 4294967312 :=
  ⟨_, overflowFrame_accepted, by decide, by decide, by decide⟩

/-- C22, the failing input: on the same frame the record exposed has size
4294967295, while its tail lies 0 bytes behind its start and the whole
payload is 16 bytes. -/
theorem record_exceeds_frame_on_size_overflow :
    ∃ c1 d t, ({ } : CoreV1).processFrame
          (Example.frameOf [33, 0, 0, 0, 0, 0, 0, 0, 255, 255, 255, 255, 0, 0, 0, 0])
        = some (true, c1)
      ∧ c1.record 0 = Except.ok d ∧ c1.tail 0 = Except.ok t
      ∧ d.size = 4294967295 ∧ t - d.start = 0 ∧ ¬ (d.size ≤ t - d.start) :=
  ⟨_, ⟨8, 4294967295, 0, 0, 0⟩, 8, overflowFrame_accepted, rfl, rfl, by decide, by decide,
    by decide⟩

/-! ## The header fields of an accepted super-frame -/

/-- C25: after a successful `processFrame`, `headerSize()` is `2 * 2 ^ h` with
`h` the high nibble of payload byte 0, hence a power of two between 2 and
65536, `tailSize()` is `max(headerSize(), 8)` and `sequence()` is payload
byte 1. -/
theorem processFrame_header_fields (c c1 : CoreV1) (f : Frame)
    (h : c.processFrame f = some (true, c1)) :
    c1.headerSize = 2 * 2 ^ (f.readByte 0 / 16)
      ∧ f.readByte 0 / 16 < 16
      ∧ 2 ≤ c1.headerSize ∧ c1.headerSize ≤ 65536
      ∧ c1.tailSize = max c1.headerSize 8
      ∧ c1.sequence = f.readByte 1 := by
  obtain ⟨_, _, _, hw, hts, hseq, _, _, _⟩ := processFrame_true c c1 f h
  have hb := readByte_lt f 0
  have hh : f.readByte 0 / 16 < 16 := by omega
  have hpow : 2 ^ (f.readByte 0 / 16) ≤ 2 ^ 15 :=
    Nat.pow_le_pow_right (by decide) (by omega)
  have hone := Nat.one_le_two_pow (n := f.readByte 0 / 16)
  have hw2 : c1.headerSize_ = 2 * 2 ^ (f.readByte 0 / 16) := by
    rw [hw, pow_succ, Nat.mul_comm]
  have h15 : (2 : Nat) ^ 15 = 32768 := by decide
  refine ⟨hw2, hh, ?_, ?_, hts, hseq⟩
  · show 2 ≤ c1.headerSize_
    omega
  · show c1.headerSize_ ≤ 65536
    omega

/-- Witness of C25, scenario S5: byte 0 is 0x21 and byte 1 is 0x42, so the
header is 8 bytes wide, the tail 8 bytes and the sequence number 0x42. -/
theorem processFrame_header_fields_witness :
    Example.s5Decoder.headerSize = 2 * 2 ^ (Example.s5Frame.readByte 0 / 16)
      ∧ Example.s5Frame.readByte 0 = 33
      ∧ Example.s5Decoder.tailSize = max Example.s5Decoder.headerSize 8
      ∧ Example.s5Decoder.sequence = 66 :=
  ⟨(processFrame_header_fields { } Example.s5Decoder Example.s5Frame (by decide)).1,
    by decide,
    (processFrame_header_fields { } Example.s5Decoder Example.s5Frame (by decide)).2.2.2.2.1,
    by decide⟩

/-! ## The loop of `processFrame` -/

/-- The loop `scan` is the repeated loop body: it leaves with true when the
cursor is at the end of the header, with false when a pass resets, and
otherwise goes on from the state the pass produced. -/
theorem scan_unfold (f : Frame) (beg fuel mark rem : Nat) (c : CoreV1) :
    CoreV1.scan f beg (fuel + 1) mark rem c
      = if mark ≠ beg then
          match CoreV1.loopBody f mark rem c with
          | none => some (false, { })
          | some s => CoreV1.scan f beg fuel s.1 s.2.1 s.2.2
        else some (true, c) := by
  simp only [CoreV1.scan, CoreV1.loopBody, reset_eq]
  split_ifs <;> rfl

theorem loopBody_step (f : Frame) (beg mark rem : Nat) (c : CoreV1)
    (hinv : mark = beg + rem) (mark1 rem1 : Nat) (c1 : CoreV1)
    (h : CoreV1.loopBody f mark rem c = some (mark1, rem1, c1)) :
    mark1 = beg + rem1 ∧ rem1 + c.tailSize_ ≤ rem ∧ c1.tailSize_ = c.tailSize_
      ∧ c1.headerSize_ = c.headerSize_ := by
  simp only [CoreV1.loopBody] at h
  split_ifs at h with h1 h2
  simp only [Option.some.injEq, Prod.mk.injEq] at h
  obtain ⟨e1, e2, e3⟩ := h
  subst e1 e2 e3
  refine ⟨by omega, by omega, rfl, rfl⟩

theorem processFrame_enters_loop (c : CoreV1) (f : Frame) :
    c.processFrame f = some (false, { })
      ∨ ∃ c3 : CoreV1, c3.list_ = [] ∧ c3.tails_ = [] ∧ 8 ≤ c3.tailSize_
          ∧ c3.headerSize_ + c3.tailSize_ ≤ f.getPayload
          ∧ c.processFrame f
            = CoreV1.scan f c3.headerSize_ (f.getPayload - c3.headerSize_ + 1) f.getPayload
                (f.getPayload - c3.headerSize_) c3 := by
  have hpos : 2 ≤ 2 ^ (fromFrame f 0 1 / 16 % 16 + 1) := by
    have := Nat.one_le_two_pow (n := fromFrame f 0 1 / 16 % 16)
    rw [pow_succ]; omega
  simp only [CoreV1.processFrame, reset_eq]
  generalize 2 ^ (fromFrame f 0 1 / 16 % 16 + 1) = w at hpos ⊢
  by_cases h1 : f.getError ≠ 0
  · left; rw [if_pos h1]
  rw [if_neg h1]
  by_cases h2 : f.getPayload < 16
  · left; rw [if_pos h2]
  rw [if_neg h2]
  by_cases h3 : fromFrame f 0 1 % 16 ≠ 1
  · left; rw [if_pos h3]
  rw [if_neg h3]
  have hbeg : 2 + (w - 2) = w := by omega
  by_cases h4 : w < 8
  · simp only [if_pos h4]
    by_cases h5 : f.getPayload < w + 8
    · left; rw [if_pos h5]
    · right
      rw [if_neg h5]
      exact ⟨{ headerSize_ := w, tailSize_ := 8, seq_ := fromFrame f 1 1 }, rfl, rfl,
        le_refl _, by simp only []; omega, by simp only [hbeg]⟩
  · simp only [if_neg h4]
    by_cases h5 : f.getPayload < w + w
    · left; rw [if_pos h5]
    · right
      rw [if_neg h5]
      exact ⟨{ headerSize_ := w, tailSize_ := w, seq_ := fromFrame f 1 1 }, rfl, rfl,
        by simp only []; omega, by simp only []; omega, by simp only [hbeg]⟩

/-- C24: `processFrame` returns on every frame.  The loop is entered with the
cursor at the end of the payload, the counter equal to the distance from the
end of the header to the cursor and a tail size of at least 8; a pass that
does not return keeps the counter equal to that distance and lowers it by at
least the tail size; and the loop condition fails exactly when the counter
is 0. -/
theorem processFrame_loop_terminates (c : CoreV1) (f : Frame) :
    (∃ r, c.processFrame f = some r)
      ∧ (c.processFrame f = some (false, { })
          ∨ ∃ c3 : CoreV1, 8 ≤ c3.tailSize_
              ∧ f.getPayload = c3.headerSize_ + (f.getPayload - c3.headerSize_)
              ∧ c.processFrame f
                = CoreV1.scan f c3.headerSize_ (f.getPayload - c3.headerSize_ + 1)
                    f.getPayload (f.getPayload - c3.headerSize_) c3)
      ∧ (∀ (beg fuel mark rem : Nat) (c0 : CoreV1),
          CoreV1.scan f beg (fuel + 1) mark rem c0
            = if mark ≠ beg then
                match CoreV1.loopBody f mark rem c0 with
                | none => some (false, { })
                | some s => CoreV1.scan f beg fuel s.1 s.2.1 s.2.2
              else some (true, c0))
      ∧ (∀ (beg mark rem : Nat) (c0 : CoreV1), mark = beg + rem → 8 ≤ c0.tailSize_ →
          (mark = beg ↔ rem = 0)
            ∧ ∀ (mark1 rem1 : Nat) (c1 : CoreV1),
                CoreV1.loopBody f mark rem c0 = some (mark1, rem1, c1) →
                  mark1 = beg + rem1 ∧ rem1 + c0.tailSize_ ≤ rem ∧ rem1 + 8 ≤ rem
                    ∧ 8 ≤ c1.tailSize_) := by
  refine ⟨processFrame_total c f, ?_, scan_unfold f, ?_⟩
  · rcases processFrame_enters_loop c f with h | ⟨c3, _, _, h8, hle, hs⟩
    · exact Or.inl h
    · exact Or.inr ⟨c3, h8, by omega, hs⟩
  · intro beg mark rem c0 hinv h8
    refine ⟨by omega, ?_⟩
    intro mark1 rem1 c1 hb
    obtain ⟨a1, a2, a3, _⟩ := loopBody_step f beg mark rem c0 hinv mark1 rem1 c1 hb
    exact ⟨a1, a2, by omega, by omega⟩

/-- Witness of C24 on the super-frame of scenario S5: from the cursor 48 with
40 bytes remaining, one pass leaves the cursor at 32 with 24 bytes
remaining. -/
theorem processFrame_loop_terminates_witness :
    CoreV1.loopBody Example.s5Frame 48 40 { headerSize_ := 8, tailSize_ := 8 }
        = some (32, 24, { list_ := [⟨32, 5, 7, 0, 0⟩], tails_ := [40], headerSize_ := 8,
                          tailSize_ := 8 })
      ∧ 32 = 8 + 24 ∧ 24 + 8 ≤ 40 :=
  ⟨by decide,
    (((processFrame_loop_terminates { } Example.s5Frame).2.2.2 8 48 40
      { headerSize_ := 8, tailSize_ := 8 } (by decide) (by decide)).2 32 24
      { list_ := [⟨32, 5, 7, 0, 0⟩], tails_ := [40], headerSize_ := 8, tailSize_ := 8 }
      (by decide)).1,
    (((processFrame_loop_terminates { } Example.s5Frame).2.2.2 8 48 40
      { headerSize_ := 8, tailSize_ := 8 } (by decide) (by decide)).2 32 24
      { list_ := [⟨32, 5, 7, 0, 0⟩], tails_ := [40], headerSize_ := 8, tailSize_ := 8 }
      (by decide)).2.2.1⟩

/-! ## The fields of a record come from its own tail -/

theorem scan_fromTail (f : Frame) (beg fuel mark rem : Nat) (c c1 : CoreV1)
    (hinv : List.Forall₂ (FromTail f) c.list_ c.tails_)
    (h : CoreV1.scan f beg fuel mark rem c = some (true, c1)) :
    List.Forall₂ (FromTail f) c1.list_ c1.tails_ := by
  induction fuel generalizing mark rem c with
  | zero => simp [CoreV1.scan] at h
  | succ fuel ih =>
    rw [scan_unfold] at h
    split_ifs at h with h1
    · cases hb : CoreV1.loopBody f mark rem c with
      | none => rw [hb] at h; simp at h
      | some s =>
        rw [hb] at h
        refine ih _ _ _ ?_ h
        simp only [CoreV1.loopBody] at hb
        split_ifs at hb with h2 h3
        simp only [Option.some.injEq] at hb
        subst hb
        exact List.rel_append hinv
          (List.Forall₂.cons ⟨rfl, rfl, rfl, rfl⟩ List.Forall₂.nil)
    · simp only [Option.some.injEq, Prod.mk.injEq, true_and] at h
      subst h
      exact hinv

theorem forall2_getD {α β : Type} (R : α → β → Prop) (l1 : List α) (l2 : List β)
    (h : List.Forall₂ R l1 l2) (d1 : α) (d2 : β) :
    ∀ i, i < l1.length → R (l1.getD i d1) (l2.getD i d2) := by
  induction h with
  | nil => intro i hi; simp at hi
  | cons hab _ ih =>
    intro i hi
    cases i with
    | zero => simpa using hab
    | succ i =>
      simp only [List.length_cons, Nat.add_lt_add_iff_right] at hi
      simpa using ih i hi

theorem fromFrame_four (f : Frame) (t : Nat) :
    fromFrame f t 4
      = f.readByte t + 256 * f.readByte (t + 1) + 65536 * f.readByte (t + 2)
        + 16777216 * f.readByte (t + 3) := by
  simp only [fromFrame, Nat.add_assoc, Nat.reduceAdd]
  omega

theorem processFrame_fromTail (c c1 : CoreV1) (f : Frame)
    (h : c.processFrame f = some (true, c1)) :
    List.Forall₂ (FromTail f) c1.list_ c1.tails_ := by
  rcases processFrame_enters_loop c f with hf | ⟨c3, hl, htl, _, _, hs⟩
  · rw [hf] at h; simp at h
  · rw [hs] at h
    exact scan_fromTail f _ _ _ _ c3 c1 (by rw [hl, htl]; exact List.Forall₂.nil) h

/-- Every record of an accepted frame carries the fields read at its own
tail: the little-endian value of bytes 0 to 3 as size, then bytes 4, 5 and 6
as destination, first user and last user. -/
theorem processFrame_fields (c c1 : CoreV1) (f : Frame)
    (h : c.processFrame f = some (true, c1)) :
    ∀ i, i < c1.count → ∃ d t, c1.record i = Except.ok d ∧ c1.tail i = Except.ok t
      ∧ d.size = f.readByte t + 256 * f.readByte (t + 1) + 65536 * f.readByte (t + 2)
          + 16777216 * f.readByte (t + 3)
      ∧ d.dest = f.readByte (t + 4) ∧ d.fUser = f.readByte (t + 5)
      ∧ d.lUser = f.readByte (t + 6) := by
  obtain ⟨hl, hc⟩ := processFrame_lengths c c1 f true h
  have hft := processFrame_fromTail c c1 f h
  intro i hi
  rw [hc] at hi
  have hr := forall2_getD _ _ _ hft ⟨0, 0, 0, 0, 0⟩ 0 (c1.list_.length - 1 - i) (by omega)
  obtain ⟨r1, r2, r3, r4⟩ := hr
  rw [fromFrame_four] at r1
  rw [fromFrame_one] at r2 r3 r4
  refine ⟨c1.list_.getD (c1.list_.length - 1 - i) ⟨0, 0, 0, 0, 0⟩,
    c1.tails_.getD (c1.list_.length - 1 - i) 0, ?_, ?_, r1, r2, r3, r4⟩
  · simp only [CoreV1.record, if_neg (by omega : ¬ i ≥ c1.list_.length)]
  · simp only [CoreV1.tail, hl, if_neg (by omega : ¬ i ≥ c1.list_.length)]

theorem fromFrame_congr (f g : Frame) (p n : Nat)
    (h : ∀ j, j < n → g.readByte (p + j) = f.readByte (p + j)) :
    fromFrame g p n = fromFrame f p n := by
  induction n generalizing p with
  | zero => rfl
  | succ n ih =>
    simp only [fromFrame]
    have h0 := h 0 (by omega)
    simp only [Nat.add_zero] at h0
    rw [h0, ih (p + 1) (fun j hj => by
      have := h (j + 1) (by omega)
      rwa [show p + (j + 1) = p + 1 + j by omega] at this)]

/-- One pass of the loop reads bytes 0 to 6 of the tail it steps back to and
nothing else of the frame. -/
theorem loopBody_congr (f g : Frame) (mark rem : Nat) (c : CoreV1)
    (h : ∀ j, j < 7 → g.readByte (mark - c.tailSize_ + j) = f.readByte (mark - c.tailSize_ + j)) :
    CoreV1.loopBody g mark rem c = CoreV1.loopBody f mark rem c := by
  have e4 : fromFrame g (mark - c.tailSize_) 4 = fromFrame f (mark - c.tailSize_) 4 :=
    fromFrame_congr f g _ 4 (fun j hj => h j (by omega))
  have e5 : fromFrame g (mark - c.tailSize_ + 4) 1 = fromFrame f (mark - c.tailSize_ + 4) 1 := by
    rw [fromFrame_one, fromFrame_one]; exact h 4 (by omega)
  have e6 : fromFrame g (mark - c.tailSize_ + 5) 1 = fromFrame f (mark - c.tailSize_ + 5) 1 := by
    rw [fromFrame_one, fromFrame_one]; exact h 5 (by omega)
  have e7 : fromFrame g (mark - c.tailSize_ + 6) 1 = fromFrame f (mark - c.tailSize_ + 6) 1 := by
    rw [fromFrame_one, fromFrame_one]; exact h 6 (by omega)
  simp only [CoreV1.loopBody, e4, e5, e6, e7]

theorem loopBody_tails (f : Frame) (mark rem : Nat) (c : CoreV1) (s : Nat × Nat × CoreV1)
    (h : CoreV1.loopBody f mark rem c = some s) :
    s.2.2.tails_ = c.tails_ ++ [mark - c.tailSize_] ∧ s.2.2.tailSize_ = c.tailSize_ := by
  simp only [CoreV1.loopBody] at h
  split_ifs at h with h1 h2
  simp only [Option.some.injEq] at h
  subst h
  exact ⟨rfl, rfl⟩

theorem scan_tails_grow (f : Frame) (beg fuel mark rem : Nat) (c c1 : CoreV1)
    (h : CoreV1.scan f beg fuel mark rem c = some (true, c1)) :
    ∃ l, c1.tails_ = c.tails_ ++ l := by
  induction fuel generalizing mark rem c with
  | zero => simp [CoreV1.scan] at h
  | succ fuel ih =>
    rw [scan_unfold] at h
    split_ifs at h with h1
    · cases hb : CoreV1.loopBody f mark rem c with
      | none => rw [hb] at h; simp at h
      | some s =>
        rw [hb] at h
        obtain ⟨l, hl⟩ := ih _ _ _ h
        rw [(loopBody_tails f mark rem c s hb).1] at hl
        exact ⟨[mark - c.tailSize_] ++ l, by rw [hl, List.append_assoc]⟩
    · simp only [Option.some.injEq, Prod.mk.injEq, true_and] at h
      subst h
      exact ⟨[], by simp⟩

theorem scan_congr (f g : Frame) (beg fuel mark rem : Nat) (c c1 : CoreV1)
    (hagree : ∀ t ∈ c1.tails_, ∀ j, j < 7 → g.readByte (t + j) = f.readByte (t + j))
    (h : CoreV1.scan f beg fuel mark rem c = some (true, c1)) :
    CoreV1.scan g beg fuel mark rem c = some (true, c1) := by
  induction fuel generalizing mark rem c with
  | zero => simp [CoreV1.scan] at h
  | succ fuel ih =>
    rw [scan_unfold] at h ⊢
    split_ifs at h ⊢ with h1
    · cases hb : CoreV1.loopBody f mark rem c with
      | none => rw [hb] at h; simp at h
      | some s =>
        rw [hb] at h
        obtain ⟨l, hl⟩ := scan_tails_grow f _ _ _ _ _ _ h
        rw [(loopBody_tails f mark rem c s hb).1] at hl
        have hmem : mark - c.tailSize_ ∈ c1.tails_ := by rw [hl]; simp
        rw [loopBody_congr f g mark rem c (fun j hj => hagree _ hmem j hj), hb]
        exact ih _ _ _ h
    · exact h

theorem tiled_separated (w ts : Nat) (ds : List Data) (tl : List Nat) (pos e : Nat)
    (h : Tiled w ts pos ds tl e) :
    (∀ t ∈ tl, pos ≤ t) ∧ tl.Pairwise (fun a b => a + ts ≤ b) := by
  induction ds generalizing pos tl with
  | nil =>
    cases tl with
    | nil => simp
    | cons t tl => simp [Tiled] at h
  | cons d ds ih =>
    cases tl with
    | nil => simp [Tiled] at h
    | cons t tl =>
      simp only [Tiled] at h
      obtain ⟨_, h2, h3⟩ := h
      obtain ⟨i1, i2⟩ := ih _ _ h3
      refine ⟨?_, ?_⟩
      · intro x hx
        simp only [List.mem_cons] at hx
        rcases hx with rfl | hx
        · omega
        · have := i1 x hx
          omega
      · rw [List.pairwise_cons]
        exact ⟨fun x hx => i1 x hx, i2⟩

theorem processFrame_congr (c c1 : CoreV1) (f g : Frame)
    (hE : g.getError = f.getError) (hP : g.getPayload = f.getPayload)
    (h0 : fromFrame g 0 1 = fromFrame f 0 1) (h1 : fromFrame g 1 1 = fromFrame f 1 1)
    (hscan : ∀ (beg fuel mark rem : Nat) (c0 : CoreV1),
      CoreV1.scan f beg fuel mark rem c0 = some (true, c1) →
        CoreV1.scan g beg fuel mark rem c0 = some (true, c1))
    (h : c.processFrame f = some (true, c1)) :
    c.processFrame g = some (true, c1) := by
  simp only [CoreV1.processFrame, hE, hP, h0, h1] at h ⊢
  split_ifs at h ⊢ <;>
    first
    | exact hscan _ _ _ _ _ h
    | exact h

/-- The tails of an accepted frame do not overlap and lie behind the header,
so bytes 0 to 6 of a tail are not byte 7 or padding of any tail. -/
theorem tail_fields_not_ignored (c c1 : CoreV1) (f : Frame)
    (h : c.processFrame f = some (true, c1)) :
    (∀ t ∈ c1.tails_, 2 ≤ t)
      ∧ ∀ t ∈ c1.tails_, ∀ j, j < 7 →
          ∀ u ∈ c1.tails_, ¬ (u + 7 ≤ t + j ∧ t + j < u + c1.tailSize) := by
  obtain ⟨_, _, _, hw, hts, _, _, _, ht⟩ := processFrame_true c c1 f h
  have hts8 : 8 ≤ c1.tailSize_ := by rw [hts]; exact le_max_right _ _
  have hw2 : 2 ≤ c1.headerSize_ := by
    have := Nat.one_le_two_pow (n := f.readByte 0 / 16)
    rw [hw, pow_succ]; omega
  obtain ⟨s1, s2⟩ := tiled_separated _ _ _ _ _ _ ht
  have hsym : Symmetric (fun a b : Nat => a + c1.tailSize_ ≤ b ∨ b + c1.tailSize_ ≤ a) :=
    fun a b hab => hab.symm
  have hpw : c1.tails_.reverse.Pairwise
      (fun a b : Nat => a + c1.tailSize_ ≤ b ∨ b + c1.tailSize_ ≤ a) :=
    List.Pairwise.imp (fun hab => Or.inl hab) s2
  refine ⟨?_, ?_⟩
  · intro t ht1
    have := s1 t (by simpa using ht1)
    omega
  · intro t ht1 j hj u hu
    by_cases htu : t = u
    · subst htu
      omega
    · have hsep := List.Pairwise.forall hsym hpw (by simpa using ht1) (by simpa using hu) htu
      show ¬ (u + 7 ≤ t + j ∧ t + j < u + c1.tailSize_)
      omega

/-- C26: every record exposed after a successful `processFrame` carries the
fields read at its own tail, the little-endian 32-bit value of bytes 0 to 3
of `tail(i)` as size and bytes 4, 5 and 6 as destination, first user and last
user; and a frame that differs from the accepted one only in byte 7 or in the
padding bytes of its tails is decoded to the same records. -/
theorem record_fields_from_own_tail (c c1 : CoreV1) (f : Frame)
    (h : c.processFrame f = some (true, c1)) :
    (∀ i, i < c1.count → ∃ d t, c1.record i = Except.ok d ∧ c1.tail i = Except.ok t
        ∧ d.size = f.readByte t + 256 * f.readByte (t + 1) + 65536 * f.readByte (t + 2)
            + 16777216 * f.readByte (t + 3)
        ∧ d.dest = f.readByte (t + 4) ∧ d.fUser = f.readByte (t + 5)
        ∧ d.lUser = f.readByte (t + 6))
      ∧ ∀ g : Frame, g.getError = f.getError → g.getPayload = f.getPayload →
          (∀ p, (∀ t ∈ c1.tails_, ¬ (t + 7 ≤ p ∧ p < t + c1.tailSize)) →
            g.readByte p = f.readByte p) →
          c.processFrame g = some (true, c1) := by
  refine ⟨processFrame_fields c c1 f h, ?_⟩
  intro g hE hP hagree
  obtain ⟨hge2, hnot⟩ := tail_fields_not_ignored c c1 f h
  have hts : 8 ≤ c1.tailSize := by
    obtain ⟨_, _, _, _, hts, _⟩ := processFrame_true c c1 f h
    show 8 ≤ c1.tailSize_
    rw [hts]; exact le_max_right _ _
  have hb : ∀ p, p < 2 → g.readByte p = f.readByte p := by
    intro p hp
    apply hagree
    intro t ht
    have := hge2 t ht
    omega
  refine processFrame_congr c c1 f g hE hP ?_ ?_ ?_ h
  · rw [fromFrame_one, fromFrame_one]; exact hb 0 (by omega)
  · rw [fromFrame_one, fromFrame_one]; exact hb 1 (by omega)
  · intro beg fuel mark rem c0 hs
    exact scan_congr f g beg fuel mark rem c0 c1
      (fun t ht j hj => hagree (t + j) (fun u hu => hnot t ht j hj u hu)) hs

/-- Witness of C26 on the super-frame of scenario S5: `record(0)` has the
size 12 and the fields 1, 2, 3 found at `tail(0)`, position 24. -/
theorem record_fields_from_own_tail_witness :
    Example.s5Decoder.record 0 = Except.ok ⟨8, 12, 1, 2, 3⟩
      ∧ Example.s5Decoder.tail 0 = Except.ok 24
      ∧ Example.s5Frame.readByte 24 = 12 ∧ Example.s5Frame.readByte 28 = 1
      ∧ Example.s5Frame.readByte 31 = 4
      ∧ ∃ d t, Example.s5Decoder.record 0 = Except.ok d ∧ Example.s5Decoder.tail 0 = Except.ok t
        ∧ d.size = Example.s5Frame.readByte t + 256 * Example.s5Frame.readByte (t + 1)
            + 65536 * Example.s5Frame.readByte (t + 2)
            + 16777216 * Example.s5Frame.readByte (t + 3)
        ∧ d.dest = Example.s5Frame.readByte (t + 4)
        ∧ d.fUser = Example.s5Frame.readByte (t + 5)
        ∧ d.lUser = Example.s5Frame.readByte (t + 6) :=
  ⟨rfl, rfl, by decide, by decide, by decide,
    (record_fields_from_own_tail { } Example.s5Decoder Example.s5Frame (by decide)).1 0
      (by decide)⟩

/-! ## The bound check of `Frame::readPy` and `Frame::writePy` -/

theorem minPayloadLoop_lsize (bs : List Buffer) (lsize tot : Nat)
    (h : lsize ≤ (bs.map Buffer.getSize).sum) :
    (Frame.minPayloadLoop bs lsize tot).2.1 = 0 := by
  induction bs generalizing lsize tot with
  | nil =>
    simp only [List.map_nil, List.sum_nil, Nat.le_zero] at h
    simp [Frame.minPayloadLoop, h]
  | cons b bs ih =>
    simp only [List.map_cons, List.sum_cons] at h
    simp only [Frame.minPayloadLoop]
    split_ifs with h0 h1 h2
    · exact ih 0 _ (Nat.zero_le _)
    · exact ih 0 _ (Nat.zero_le _)
    · exact ih _ _ (by omega)
    · exact not_not.mp h0

/-- What the test of `readPy` decides: the request is refused exactly when the
32-bit sum of the offset and the 32-bit length is above `getPayload()`. -/
theorem readPy_boundary_iff (f : Frame) (buf : List Nat) (offset : Nat) :
    f.readPy (some buf) offset ≠ none
      ↔ (offset + buf.length % U32) % U32 > f.getPayload := by
  simp only [Frame.readPy]
  split_ifs with h
  · exact ⟨fun _ => h, fun _ => Option.some_ne_none _⟩
  · exact ⟨fun hh => absurd rfl hh, fun hh => absurd hh h⟩

/-- What the test of `writePy` decides: the request is refused exactly when
the 32-bit sum of the offset and the 32-bit length is above `getSize()`; the
call of `minPayload` behind the test never throws. -/
theorem writePy_boundary_iff (f : Frame) (buf : List Nat) (offset tot : Nat) :
    (f.writePy (some buf) offset tot).2 ≠ none
      ↔ (offset + buf.length % U32) % U32 > f.getSize := by
  simp only [Frame.writePy]
  split_ifs with h
  · exact ⟨fun _ => h, fun _ => Option.some_ne_none _⟩
  · have hc : (offset + buf.length % U32) % U32 ≤ f.capacity := by
      have h1 := Frame.getSize_eq f
      have h2 : f.capacity % U32 ≤ f.capacity := Nat.mod_le _ _
      omega
    have h0 := minPayloadLoop_lsize f.buffers_ _ tot hc
    simp only [Frame.minPayload, h0, ne_eq, not_true_eq_false, if_false, Option.map_none']
    exact ⟨fun hh => hh.elim, fun hh => absurd hh h⟩

/-- As long as the exact sum `offset + count` fits in 32 bits, `readPy`
refuses exactly the requests that reach past `getPayload()` and `writePy`
exactly those that reach past `getSize()`. -/
theorem py_bounds_without_wrap (f : Frame) (buf : List Nat) (offset tot : Nat)
    (h : offset + buf.length < U32) :
    (f.readPy (some buf) offset ≠ none ↔ offset + buf.length > f.getPayload)
      ∧ ((f.writePy (some buf) offset tot).2 ≠ none ↔ offset + buf.length > f.getSize) := by
  have hl : buf.length % U32 = buf.length := Nat.mod_eq_of_lt (by omega)
  have hs : (offset + buf.length) % U32 = offset + buf.length := Nat.mod_eq_of_lt h
  refine ⟨?_, ?_⟩
  · rw [readPy_boundary_iff, hl, hs]
  · rw [writePy_boundary_iff, hl, hs]

/-- C31: the bound checks of `Frame::readPy` and `Frame::writePy` add the
offset and the count in 32 bits.  On a frame of one full 10-byte buffer a
request of 2 bytes at offset 4294967295 covers the byte range
[4294967295, 4294967297), which reaches past `getPayload()` = `getSize()` = 10,
yet neither call is refused: the sum wraps to 1, and `writePy` goes on to call
`minPayload(1)`. -/
theorem py_bounds_accept_wrapped_range :
    (Example.frameOf (List.replicate 10 0)).getPayload = 10
      ∧ (Example.frameOf (List.replicate 10 0)).getSize = 10
      ∧ 4294967295 < U32 ∧ [0, 0].length < U32
      ∧ 4294967295 + [0, 0].length > (Example.frameOf (List.replicate 10 0)).getPayload
      ∧ (Example.frameOf (List.replicate 10 0)).readPy (some [0, 0]) 4294967295 = none
      ∧ ∀ tot, (Example.frameOf (List.replicate 10 0)).writePy (some [0, 0]) 4294967295 tot
          = (Example.frameOf (List.replicate 10 0), none) := by
  refine ⟨by decide, by decide, by decide, by decide, by decide, by decide, ?_⟩
  intro tot
  rfl

/-! ## The frame held by the decoder -/

/-- Nothing in `processFrame` writes `frame_` but the `reset()` it starts
with: whatever the call returns, the decoder holds no frame afterwards. -/
theorem processFrame_holds_no_frame (c c1 : CoreV1) (f : Frame) (b : Bool)
    (h : c.processFrame f = some (b, c1)) : c1.frame_ = none := by
  cases b with
  | false => rw [processFrame_false c c1 f h]
  | true =>
    obtain ⟨_, _, _, _, _, _, hf, _⟩ := processFrame_true c c1 f h
    exact hf

/-- After `reset()` the decoder holds no frame and `header()` is undefined. -/
theorem reset_holds_no_frame (c : CoreV1) :
    c.reset.frame_ = none ∧ c.reset.header = none :=
  ⟨rfl, rfl⟩

/-- C32: `CoreV1::processFrame` never stores the frame it is given.  Whenever
it returns true, for any frame and any decoder state before the call (one
that holds a frame included), the decoder holds no frame afterwards, so
`header()` goes through a null `frame_` and returns nothing defined, instead
of the read iterator at byte 0 of the frame just processed. -/
theorem header_undefined_after_processFrame (c c1 : CoreV1) (f : Frame)
    (h : c.processFrame f = some (true, c1)) :
    c1.frame_ = none ∧ c1.header = none
      ∧ c1.header ≠ some f.beginRead := by
  have hf := processFrame_holds_no_frame c c1 f true h
  have hh : c1.header = none := by simp [CoreV1.header, hf]
  exact ⟨hf, hh, by simp [hh]⟩

/-- Witness of C32 on the super-frame of scenario S5, decoded by a decoder
that held that very frame before the call. -/
theorem header_undefined_after_processFrame_witness :
    ({ Example.s5Decoder with frame_ := some Example.s5Frame } : CoreV1).header
        = some ⟨Example.s5Frame, 0, false⟩
      ∧ ({ Example.s5Decoder with frame_ := some Example.s5Frame } : CoreV1).processFrame
          Example.s5Frame = some (true, Example.s5Decoder)
      ∧ Example.s5Decoder.frame_ = none ∧ Example.s5Decoder.header = none
      ∧ Example.s5Decoder.header ≠ some Example.s5Frame.beginRead :=
  ⟨rfl, by decide, header_undefined_after_processFrame
    { Example.s5Decoder with frame_ := some Example.s5Frame } Example.s5Decoder
    Example.s5Frame (by decide)⟩

/-! ## `MapMemory::open` and `MapMemory::addMap` -/

/-- On a device that is already open (`fd_ > 0`) `open()` returns false and
changes nothing. -/
theorem openDevice_already_open (mm : MapMemory) (sysOpen : Int) (h : mm.fd_ > 0) :
    mm.openDevice sysOpen = (false, mm) := by
  simp [MapMemory.openDevice, h]

/-- On a device whose descriptor is negative `addMap` registers nothing. -/
theorem addMap_not_open (mm : MapMemory) (address size ptr : Nat) (h : mm.fd_ < 0) :
    mm.addMap address size ptr = mm := by
  have h1 : ¬ mm.fd_ ≥ 0 := by omega
  simp [MapMemory.addMap, h1]

/-- After `close()` the descriptor keeps its value, so `addMap` still takes
the branch of an open device: with the descriptor 3 closed and `mmap`
answering `MAP_FAILED` (all bits set, which is not `NULL`), the mapping is
registered. -/
theorem addMap_after_close_registers :
    (({ fd_ := 3, maps_ := [] } : MapMemory).close.addMap 4096 256 18446744073709551615).maps_
      = [⟨4096, 256, 18446744073709551615⟩] := by
  decide

/-- C33: `MapMemory::open()` returns true whenever the device was not open
before the call (`fd_` not above 0), whatever `::open` returns, because `ret`
starts as true and only the already-open branch clears it.  On a fresh
object, when the device node cannot be opened (`::open` returns -1), `open()`
returns true and leaves `fd_` = -1: the device is not open on return.  A
later `addMap` registers no mapping. -/
theorem open_true_when_opening_fails (mm : MapMemory) (sysOpen : Int) :
    (mm.openDevice sysOpen).1 = decide (mm.fd_ ≤ 0)
      ∧ MapMemory.openDevice { } (-1) = (true, { fd_ := -1, maps_ := [] })
      ∧ ∀ address size ptr,
          (MapMemory.openDevice { } (-1)).2.addMap address size ptr
            = { fd_ := -1, maps_ := [] } := by
  refine ⟨?_, rfl, fun _ _ _ => rfl⟩
  simp only [MapMemory.openDevice]
  split_ifs with h0 h1
  · have : ¬ mm.fd_ ≤ 0 := by omega
    simp [this]
  · have : mm.fd_ ≤ 0 := by omega
    simp [this]
  · have : mm.fd_ ≤ 0 := by omega
    simp [this]

/-! ## The iterator endpoints of a frame -/

theorem setPayloadFull_totals (f : Frame) :
    f.setPayloadFull.getPayload = f.getSize ∧ f.setPayloadFull.getSize = f.getSize := by
  have hp : f.setPayloadFull.payloadSum = f.capacity := by
    simp only [Frame.payloadSum, Frame.capacity, Frame.setPayloadFull, List.map_map]
    rfl
  have hc : f.setPayloadFull.capacity = f.capacity := by
    simp only [Frame.capacity, Frame.setPayloadFull, List.map_map]
    rfl
  rw [Frame.getPayload_eq, Frame.getSize_eq, Frame.getSize_eq, hp, hc]
  exact ⟨rfl, rfl⟩

theorem sum_eq_of_pointwise_le (bs : List Buffer)
    (h : ∀ b ∈ bs, b.getPayload ≤ b.getSize) :
    (bs.map Buffer.getPayload).sum ≤ (bs.map Buffer.getSize).sum
      ∧ ((bs.map Buffer.getPayload).sum = (bs.map Buffer.getSize).sum
          ↔ ∀ b ∈ bs, b.getPayload = b.getSize) := by
  induction bs with
  | nil => simp
  | cons b bs ih =>
    have hb := h b (List.mem_cons_self _ _)
    obtain ⟨hle, hiff⟩ := ih (fun x hx => h x (List.mem_cons_of_mem _ hx))
    simp only [List.map_cons, List.sum_cons, List.mem_cons, forall_eq_or_imp]
    refine ⟨by omega, ?_⟩
    constructor
    · intro he
      have h1 : b.getPayload = b.getSize := by omega
      exact ⟨h1, hiff.mp (by omega)⟩
    · rintro ⟨h1, h2⟩
      rw [h1, hiff.mpr h2]

/-- On a frame of less than 4 GiB whose buffers hold no more than their size,
`endPayload()` carries the end flag exactly when every buffer is full. -/
theorem endPayload_end_iff_full (f : Frame) (hc : f.capacity < U32)
    (h : ∀ b ∈ f.buffers_, b.getPayload ≤ b.getSize) :
    f.endPayload.end_ = true ↔ ∀ b ∈ f.buffers_, b.getPayload = b.getSize := by
  obtain ⟨hle, hiff⟩ := sum_eq_of_pointwise_le f.buffers_ h
  have hp : f.payloadSum < U32 := lt_of_le_of_lt hle hc
  simp only [Frame.endPayload, decide_eq_true_eq, Frame.getPayload_eq, Frame.getSize_eq,
    Nat.mod_eq_of_lt hc, Nat.mod_eq_of_lt hp]
  exact hiff

/-- The comparison behind the end flag is one of 32-bit totals: on a frame
of 4 GiB + 5 bytes holding 5 bytes in its last buffer both totals are 5 and
`endPayload()` carries the end flag although two buffers are empty. -/
theorem endPayload_flag_on_wrapped_totals :
    (Frame.endPayload { buffers_ := [⟨2147483648, 0, [], 0, 0⟩, ⟨2147483648, 0, [], 0, 0⟩,
        ⟨5, 5, [], 0, 0⟩] }).end_ = true := by
  decide

/-- C34: for every frame, `begin()` is the iterator of the frame at position
0 without the end flag, `end()` is an iterator of the frame with the end
flag, and `endPayload()` is the iterator of the frame at position
`getPayload()` whose end flag is set exactly when `getPayload() == getSize()`.
In particular a frame filled by `setPayloadFull` and a frame with no buffers
have the end flag on `endPayload()`, and the frame of scenario S6 (15 bytes
in 20) has `endPayload()` at position 15 without it. -/
theorem frame_iterator_endpoints (f : Frame) :
    (f.begin.frame_ = f ∧ f.begin.framePos_ = 0 ∧ f.begin.end_ = false)
      ∧ (f.endIterator.frame_ = f ∧ f.endIterator.end_ = true)
      ∧ (f.endPayload.frame_ = f ∧ f.endPayload.framePos_ = f.getPayload)
      ∧ (f.endPayload.end_ = true ↔ f.getPayload = f.getSize)
      ∧ f.setPayloadFull.endPayload.end_ = true
      ∧ (Frame.endPayload { buffers_ := [] }).framePos_ = 0
      ∧ (Frame.endPayload { buffers_ := [] }).end_ = true
      ∧ Example.s6Frame.endPayload = ⟨Example.s6Frame, 15, false⟩ := by
  refine ⟨⟨rfl, rfl, rfl⟩, ⟨rfl, rfl⟩, ⟨rfl, rfl⟩, ?_, ?_, rfl, rfl, by decide⟩
  · simp [Frame.endPayload]
  · have := (setPayloadFull_totals f).1
    have h2 := (setPayloadFull_totals f).2
    simp only [Frame.endPayload, decide_eq_true_eq]
    omega

/-! ## `Frame::setPayload` on shared buffer objects -/

theorem PtrFrame.getPayload_view (f : PtrFrame) (h : Heap) :
    f.getPayload h = (f.view h).getPayload := by
  simp only [PtrFrame.getPayload, PtrFrame.view, Frame.getPayload, List.foldl_map]

theorem PtrFrame.getSize_view (f : PtrFrame) (h : Heap) :
    f.getSize h = (f.view h).getSize := by
  simp only [PtrFrame.getSize, PtrFrame.view, Frame.getSize, List.foldl_map]

theorem PtrFrame.capacity_view (f : PtrFrame) (h : Heap) :
    f.capacity h = (f.view h).capacity := by
  simp only [PtrFrame.capacity, PtrFrame.view, Frame.capacity, List.map_map]
  rfl

/-- The loop writes no object but those the vector points to. -/
theorem ptrLoop_untouched (ps : List Nat) (h : Heap) (lsize tot q : Nat) (hq : q ∉ ps) :
    (PtrFrame.setPayloadLoop h ps lsize tot).1 q = h q := by
  induction ps generalizing h lsize tot with
  | nil => rfl
  | cons p ps ih =>
    have hqp : q ≠ p := fun e => hq (e ▸ List.mem_cons_self _ _)
    have hqs : q ∉ ps := fun e => hq (List.mem_cons_of_mem _ e)
    simp only [PtrFrame.setPayloadLoop]
    split_ifs <;> rw [ih _ _ _ hqs] <;> simp [Heap.set, hqp]

/-- On pairwise distinct pointers the loop over the objects does what the
loop over the values does. -/
theorem setPayloadLoop_view (ps : List Nat) (h : Heap) (lsize tot : Nat) (hd : ps.Nodup) :
    ps.map (PtrFrame.setPayloadLoop h ps lsize tot).1
        = (Frame.setPayloadLoop (ps.map h) lsize tot).1
      ∧ (PtrFrame.setPayloadLoop h ps lsize tot).2
        = (Frame.setPayloadLoop (ps.map h) lsize tot).2 := by
  induction ps generalizing h lsize tot with
  | nil => exact ⟨rfl, rfl⟩
  | cons p ps ih =>
    have hp : p ∉ ps := (List.nodup_cons.mp hd).1
    have hps : ps.Nodup := (List.nodup_cons.mp hd).2
    have hmap : ∀ b : Buffer, ps.map (Heap.set h p b) = ps.map h := by
      intro b
      apply List.map_congr_left
      intro q hq
      have : q ≠ p := fun e => hp (e ▸ hq)
      simp [Heap.set, this]
    have hat : ∀ (b : Buffer) (l t : Nat),
        (PtrFrame.setPayloadLoop (Heap.set h p b) ps l t).1 p = b := by
      intro b l t
      rw [ptrLoop_untouched ps _ l t p hp]
      simp [Heap.set]
    simp only [PtrFrame.setPayloadLoop, Frame.setPayloadLoop, List.map_cons]
    split_ifs with h0 h1
    · obtain ⟨i1, i2⟩ := ih (Heap.set h p (h p).setPayloadEmpty) lsize
        ((tot + (h p).getSize) % U32) hps
      rw [hmap] at i1 i2
      exact ⟨by rw [hat, i1], i2⟩
    · obtain ⟨i1, i2⟩ := ih (Heap.set h p ((h p).setPayload lsize)) 0
        ((tot + (h p).getSize) % U32) hps
      rw [hmap] at i1 i2
      exact ⟨by rw [hat, i1], i2⟩
    · obtain ⟨i1, i2⟩ := ih (Heap.set h p (h p).setPayloadFull) (lsize - (h p).getSize)
        ((tot + (h p).getSize) % U32) hps
      rw [hmap] at i1 i2
      exact ⟨by rw [hat, i1], i2⟩

theorem PtrFrame.setPayload_view (f : PtrFrame) (h : Heap) (n tot : Nat)
    (hd : f.buffers_.Nodup) :
    f.view (f.setPayload h n tot).1 = ((f.view h).setPayload n tot).1
      ∧ (f.setPayload h n tot).2 = ((f.view h).setPayload n tot).2 := by
  obtain ⟨h1, h2⟩ := setPayloadLoop_view f.buffers_ h n tot hd
  simp only [PtrFrame.setPayload, PtrFrame.view, Frame.setPayload, h1, h2]
  exact ⟨trivial, trivial⟩

theorem PtrFrame.adjustPayload_view (f : PtrFrame) (h : Heap) (v : Int) (tot : Nat)
    (hd : f.buffers_.Nodup) :
    f.view (f.adjustPayload h v tot).1 = ((f.view h).adjustPayload v tot).1
      ∧ (f.adjustPayload h v tot).2 = ((f.view h).adjustPayload v tot).2 := by
  simp only [PtrFrame.adjustPayload, Frame.adjustPayload, ← PtrFrame.getPayload_view]
  split_ifs with hc
  · exact ⟨rfl, rfl⟩
  · exact PtrFrame.setPayload_view f h _ tot hd

/-- Shared or not, the loop leaves `lsize` at the requested size minus the
exact capacity: `setPayload(n)` throws exactly when `n` exceeds the sum of
`getSize()` over the places of the vector. -/
theorem ptrLoop_lsize (ps : List Nat) (h : Heap) (lsize tot : Nat) :
    (PtrFrame.setPayloadLoop h ps lsize tot).2.1
      = lsize - (ps.map (fun p => (h p).getSize)).sum := by
  induction ps generalizing h lsize tot with
  | nil => simp [PtrFrame.setPayloadLoop]
  | cons p ps ih =>
    have hmap : ∀ b : Buffer, b.getSize = (h p).getSize →
        ps.map (fun q => (Heap.set h p b q).getSize) = ps.map (fun q => (h q).getSize) := by
      intro b hb
      apply List.map_congr_left
      intro q _
      by_cases hq : q = p
      · subst hq; simp [Heap.set, hb]
      · simp [Heap.set, hq]
    simp only [PtrFrame.setPayloadLoop, List.map_cons, List.sum_cons]
    split_ifs with h0 h1
    · rw [ih, hmap (h p).setPayloadEmpty rfl]; omega
    · rw [ih, hmap ((h p).setPayload lsize) rfl]; omega
    · rw [ih, hmap (h p).setPayloadFull rfl]; omega

theorem PtrFrame.setPayload_throws_iff (f : PtrFrame) (h : Heap) (n tot : Nat) :
    (f.setPayload h n tot).2 = none ↔ n ≤ f.capacity h := by
  have hl := ptrLoop_lsize f.buffers_ h n tot
  simp only [PtrFrame.setPayload, PtrFrame.capacity]
  constructor
  · intro he
    by_contra hgt
    have h0 : (PtrFrame.setPayloadLoop h f.buffers_ n tot).2.1 ≠ 0 := by rw [hl]; omega
    simp [h0] at he
  · intro hle
    have h0 : (PtrFrame.setPayloadLoop h f.buffers_ n tot).2.1 = 0 := by rw [hl]; omega
    simp [h0]

/-- The counterexample to C5 as worded: a frame whose two places hold the
same 10-byte buffer object has the capacity 20; `setPayload(15)` sets the
object full on the first pass and to 5 on the second, throws nothing, and
`getPayload()` is 5 + 5 = 10, not 15. -/
theorem setPayload_shared_buffer_payload :
    Example.twice.buffers_ = [0, 0]
      ∧ Example.twice.capacity (Example.tens 0) = 20
      ∧ (Example.twice.setPayload (Example.tens 0) 15 0).2 = none
      ∧ Example.twice.getPayload (Example.twice.setPayload (Example.tens 0) 15 0).1 = 10 := by
  decide

/-- C5: for every frame whose buffer vector holds pairwise distinct buffer
objects and every 32-bit `n` not greater than the exact sum of the buffers'
sizes, `Frame::setPayload(n)` throws nothing and afterwards
`Frame::getPayload()` is `n`, whatever the payloads and the starting value of
`tot` were; no object outside the frame is written. -/
theorem setPayload_sets_payload_of_distinct (f : PtrFrame) (h : Heap) (n tot : Nat)
    (hn : n < U32) (hd : f.buffers_.Nodup) (hcap : n ≤ f.capacity h) :
    (f.setPayload h n tot).2 = none
      ∧ f.getPayload (f.setPayload h n tot).1 = n
      ∧ ∀ q, q ∉ f.buffers_ → (f.setPayload h n tot).1 q = h q := by
  obtain ⟨h1, h2⟩ := PtrFrame.setPayload_view f h n tot hd
  rw [PtrFrame.capacity_view] at hcap
  obtain ⟨r1, r2⟩ := setPayload_result (f.view h) n tot hn hcap
  refine ⟨by rw [h2]; exact r1, by rw [PtrFrame.getPayload_view, h1]; exact r2, ?_⟩
  intro q hq
  exact ptrLoop_untouched f.buffers_ h n tot q hq

/-- Witness of C5 on the frame of scenario S6 (two distinct buffers of size
10, here holding 3 bytes each before the call) and `n = 15`. -/
theorem setPayload_sets_payload_of_distinct_witness :
    Example.s6Ptrs.buffers_ = [0, 1]
      ∧ (Example.s6Ptrs.setPayload (Example.tens 3) 15 0).2 = none
      ∧ Example.s6Ptrs.getPayload (Example.s6Ptrs.setPayload (Example.tens 3) 15 0).1 = 15 :=
  ⟨rfl,
    (setPayload_sets_payload_of_distinct Example.s6Ptrs (Example.tens 3) 15 0 (by decide)
      (by decide) (by decide)).1,
    (setPayload_sets_payload_of_distinct Example.s6Ptrs (Example.tens 3) 15 0 (by decide)
      (by decide) (by decide)).2.1⟩

/-- The counterexample to C27 as worded: on the frame whose two places hold
the same 10-byte buffer object a successful `setPayload(15)` leaves the
payload 5 at both places: no place is full, and the first does not hold the
15 bytes, so no index `k` fits. -/
theorem setPayload_shared_buffer_shape :
    (Example.twice.setPayload (Example.tens 0) 15 0).2 = none
      ∧ (Example.twice.view (Example.twice.setPayload (Example.tens 0) 15 0).1).buffers_
          = [⟨10, 5, [], 0, 0⟩, ⟨10, 5, [], 0, 0⟩]
      ∧ ¬ FrontToBack
          (Example.twice.view (Example.twice.setPayload (Example.tens 0) 15 0).1).buffers_ 15 := by
  have hv : (Example.twice.view (Example.twice.setPayload (Example.tens 0) 15 0).1).buffers_
      = [⟨10, 5, [], 0, 0⟩, ⟨10, 5, [], 0, 0⟩] := by decide
  refine ⟨by decide, hv, ?_⟩
  rw [hv]
  rintro ⟨k, hfull, hrem, -⟩
  rcases k with _ | k
  · have := hrem ⟨10, 5, [], 0, 0⟩ rfl
    simp [Buffer.getPayload] at this
  · have := hfull ⟨10, 5, [], 0, 0⟩ (by simp)
    simp [Buffer.getPayload, Buffer.getSize] at this

/-- C27: on a frame whose buffer vector holds pairwise distinct buffer
objects, after a successful `Frame::setPayload(n)` there is an index `k` such
that every buffer before `k` is full, buffer `k` holds the bytes that remain
(`n` minus the sizes of the buffers before it) and every buffer after `k` is
empty; `k` is the index of a buffer whenever the frame has buffers, and the
sizes of the buffers are as before. -/
theorem setPayload_front_to_back_of_distinct (f : PtrFrame) (h : Heap) (n tot : Nat)
    (hd : f.buffers_.Nodup) (hok : (f.setPayload h n tot).2 = none) :
    (f.view (f.setPayload h n tot).1).buffers_.map Buffer.getSize
        = (f.view h).buffers_.map Buffer.getSize
      ∧ FrontToBack (f.view (f.setPayload h n tot).1).buffers_ n
      ∧ ∃ k, (f.buffers_ ≠ [] → k < (f.view (f.setPayload h n tot).1).buffers_.length)
        ∧ (∀ b ∈ (f.view (f.setPayload h n tot).1).buffers_.take k,
            b.getPayload = b.getSize)
        ∧ (∀ b, (f.view (f.setPayload h n tot).1).buffers_[k]? = some b →
            b.getPayload
              = n - (((f.view (f.setPayload h n tot).1).buffers_.take k).map
                  Buffer.getSize).sum)
        ∧ (∀ b ∈ (f.view (f.setPayload h n tot).1).buffers_.drop (k + 1),
            b.getPayload = 0) := by
  obtain ⟨h1, h2⟩ := PtrFrame.setPayload_view f h n tot hd
  rw [h2] at hok
  obtain ⟨hs, k, hk, hfull, hrem, hempty⟩ := setPayload_shape_by_value (f.view h) n tot hok
  rw [h1]
  refine ⟨hs, ⟨k, hfull, hrem, hempty⟩, k, ?_, hfull, hrem, hempty⟩
  intro hne
  apply hk
  intro he
  apply hne
  simpa [PtrFrame.view] using he

/-- Witness of C27, scenario S6: on two distinct buffers of size 10 (holding
3 bytes each before the call) `setPayload(15)` succeeds and leaves the
payloads 10 and 5. -/
theorem setPayload_front_to_back_of_distinct_witness :
    (Example.s6Ptrs.view (Example.s6Ptrs.setPayload (Example.tens 3) 15 0).1).buffers_
        = [⟨10, 10, [], 0, 0⟩, ⟨10, 5, [], 0, 0⟩]
      ∧ FrontToBack
          (Example.s6Ptrs.view (Example.s6Ptrs.setPayload (Example.tens 3) 15 0).1).buffers_ 15 :=
  ⟨by decide,
    (setPayload_front_to_back_of_distinct Example.s6Ptrs (Example.tens 3) 15 0 (by decide)
      (by decide)).2.1⟩

/-- The counterexample to C30 as worded: the frame whose two places hold the
same 10-byte object holding 5 bytes has `getPayload()` 10 and `getSize()` 20;
`adjustPayload(5)` calls `setPayload(15)`, throws nothing, and leaves
`getPayload()` at 10, not 15. -/
theorem adjustPayload_shared_buffer_payload :
    Example.twice.getPayload (Example.tens 5) = 10
      ∧ Example.twice.getSize (Example.tens 5) = 20
      ∧ (Example.twice.adjustPayload (Example.tens 5) 5 0).2 = none
      ∧ Example.twice.getPayload (Example.twice.adjustPayload (Example.tens 5) 5 0).1 = 10 := by
  decide

/-- C30: for every frame and every signed 32-bit `v`: if the buffer vector
holds pairwise distinct buffer objects and
`0 <= getPayload() + v <= getSize()`, then `Frame::adjustPayload(v)` throws
nothing and afterwards `getPayload()` is the previous payload plus `v`; if
`v < 0` and `|v| > getPayload()` it throws its boundary error and leaves
every buffer object as it was, shared or not. -/
theorem adjustPayload_spec_of_distinct (f : PtrFrame) (h : Heap) (v : Int) (tot : Nat)
    (hv : -2147483648 ≤ v ∧ v < 2147483648) :
    ((f.buffers_.Nodup ∧ 0 ≤ (f.getPayload h : Int) + v
          ∧ (f.getPayload h : Int) + v ≤ (f.getSize h : Int)) →
        (f.adjustPayload h v tot).2 = none
          ∧ (f.getPayload (f.adjustPayload h v tot).1 : Int) = (f.getPayload h : Int) + v)
      ∧ ((v < 0 ∧ (f.getPayload h : Int) < -v) →
        (f.adjustPayload h v tot).2
            = some ⟨Source.frameAdjustPayload, v.natAbs, f.getPayload h⟩
          ∧ (f.adjustPayload h v tot).1 = h) := by
  have hval := adjustPayload_by_value (f.view h) v tot hv
  constructor
  · rintro ⟨hd, h0, h1⟩
    obtain ⟨a1, a2⟩ := PtrFrame.adjustPayload_view f h v tot hd
    rw [PtrFrame.getPayload_view] at h0 h1
    rw [PtrFrame.getSize_view] at h1
    obtain ⟨r1, r2⟩ := hval.1 ⟨h0, h1⟩
    refine ⟨by rw [a2]; exact r1, ?_⟩
    rw [PtrFrame.getPayload_view, a1, PtrFrame.getPayload_view]
    exact r2
  · rintro ⟨hneg, hgt⟩
    have hlt : v.natAbs % U32 > f.getPayload h := by
      have : v.natAbs % U32 = v.natAbs := Nat.mod_eq_of_lt (by unfold U32; omega)
      rw [this]; omega
    simp only [PtrFrame.adjustPayload, if_pos (And.intro hneg hlt)]
    exact ⟨trivial, trivial⟩

/-- Witness of C30: two distinct buffers of size 10 holding 7 bytes each;
`adjustPayload(-7)` leaves 7 bytes, and `adjustPayload(-15)` throws. -/
theorem adjustPayload_spec_of_distinct_witness :
    (Example.s6Ptrs.getPayload (Example.s6Ptrs.adjustPayload (Example.tens 7) (-7) 0).1 : Int)
        = (Example.s6Ptrs.getPayload (Example.tens 7) : Int) + (-7)
      ∧ (Example.s6Ptrs.adjustPayload (Example.tens 7) (-15) 0).2
        = some ⟨Source.frameAdjustPayload, 15, 14⟩ :=
  ⟨((adjustPayload_spec_of_distinct Example.s6Ptrs (Example.tens 7) (-7) 0 (by decide)).1
      ⟨by decide, by decide, by decide⟩).2,
    ((adjustPayload_spec_of_distinct Example.s6Ptrs (Example.tens 7) (-15) 0 (by decide)).2
      ⟨by decide, by decide⟩).1⟩

end rogue
